import Mathlib

/-!
# A best-fit free-list allocator (`malloc.c`)

The allocator keeps an intrusive doubly-linked free list whose head is a
sentinel (`my_heap.dummy`).  Every block starts with a `my_metadata_t` header
made of three 8-byte words: `size` at offset 0, `next` at offset 8 and `prev`
at offset 16.

## Embedding

* Memory is a map from byte addresses to 64-bit words (`Nat → Nat`); a header
  at address `a` occupies the words at `a`, `a + 8` and `a + 16`.  In the
  well-formed heaps considered below headers are at least 24 bytes apart, so
  two words the program accesses are either the same word or disjoint.
* `NULL` is the address `0`.
* `size_t` and pointer arithmetic wrap modulo `2 ^ 64` (`add64`, `sub64`).
* `mmap_from_system` is external: the addresses it returns are supplied to
  `my_malloc` as a list of answers, consumed one per call, and every call is
  recorded in `State.mmap_calls`.
* The two `while` loops walk a linked list in memory and need not terminate on
  a cyclic list; they take a `fuel` argument and return `none` when it runs out.
-/

namespace Malloc

/-! ## Machine words -/

/-- Number of distinct values of a `size_t`. -/
def WORD : Nat := 18446744073709551616

/-- Largest `size_t` value. -/
def SIZE_MAX : Nat := 18446744073709551615

/-- The value of `sizeof(my_metadata_t)`: three 8-byte fields. -/
def header_size : Nat := 24

/-- Unsigned 64-bit addition. -/
def add64 (a b : Nat) : Nat := (a + b) % WORD

/-- Unsigned 64-bit subtraction (operands are words). -/
def sub64 (a b : Nat) : Nat := (a + WORD - b) % WORD

/-! ## Program state -/

/-- The global `my_heap` together with the memory it points into and the
record of the calls made to `mmap_from_system` (returned address and byte
count, most recent first). -/
structure State where
  free_head : Nat
  mem : Nat → Nat
  mmap_calls : List (Nat × Nat)

/-- Write one word. -/
def store (mem : Nat → Nat) (addr val : Nat) : Nat → Nat :=
  fun a => if a = addr then val else mem a

/-! ## Free-list primitives -/

/-- Source: `my_add_to_free_list`. -/
def my_add_to_free_list (metadata : Nat) (s : State) : State :=
  -- metadata->next = my_heap.free_head->next;
  let m1 := store s.mem (metadata + 8) (s.mem (s.free_head + 8))
  -- metadata->prev = my_heap.free_head;
  let m2 := store m1 (metadata + 16) s.free_head
  -- if (my_heap.free_head->next != NULL) my_heap.free_head->next->prev = metadata;
  let m3 := if m2 (s.free_head + 8) ≠ 0 then store m2 (m2 (s.free_head + 8) + 16) metadata else m2
  -- my_heap.free_head->next = metadata;
  let m4 := store m3 (s.free_head + 8) metadata
  { s with mem := m4 }

/-- Source: `my_remove_from_free_list`. -/
def my_remove_from_free_list (metadata : Nat) (s : State) : State :=
  -- if (metadata->prev) metadata->prev->next = metadata->next;
  let m1 := if s.mem (metadata + 16) ≠ 0
    then store s.mem (s.mem (metadata + 16) + 8) (s.mem (metadata + 8)) else s.mem
  -- if (metadata->next) metadata->next->prev = metadata->prev;
  let m2 := if m1 (metadata + 8) ≠ 0
    then store m1 (m1 (metadata + 8) + 16) (m1 (metadata + 16)) else m1
  -- metadata->next = NULL;
  let m3 := store m2 (metadata + 8) 0
  -- metadata->prev = NULL;
  let m4 := store m3 (metadata + 16) 0
  { s with mem := m4 }

/-! ## Public interface -/

/-- Source: `my_initialize`; `dummy` is the address `&my_heap.dummy`. -/
def my_initialize (dummy : Nat) (s : State) : State :=
  { s with
    free_head := dummy
    mem := store (store (store s.mem dummy 0) (dummy + 8) 0) (dummy + 16) 0 }

/-- The best-fit scan of `my_malloc` (the `while (current)` loop); the result
is the final value of `best_fit_metadata`. -/
def best_fit_loop (size : Nat) (mem : Nat → Nat) : Nat → Nat → Nat → Nat → Option Nat
  | 0, _, _, _ => none
  | fuel + 1, current, best_fit_metadata, min_diff =>
    if current = 0 then some best_fit_metadata
    else if size ≤ mem current then
      if mem current - size < min_diff then
        if mem current - size = 0 then some current
        else best_fit_loop size mem fuel (mem (current + 8)) current (mem current - size)
      else best_fit_loop size mem fuel (mem (current + 8)) best_fit_metadata min_diff
    else best_fit_loop size mem fuel (mem (current + 8)) best_fit_metadata min_diff

/-- The byte count `my_malloc` passes to `mmap_from_system`. -/
def buffer_size (size : Nat) : Nat :=
  let b := if 4096 < add64 size header_size then add64 size header_size else 4096
  -- buffer_size = (buffer_size + 4095) & ~4095;
  add64 b 4095 &&& 18446744073709547520

/-- The branch of `my_malloc` taken when no free block fits: a region at
`metadata` (the address returned by `mmap_from_system`) becomes one free block. -/
def my_malloc_acquire (size metadata : Nat) (s : State) : State :=
  let m1 := store s.mem metadata (sub64 (buffer_size size) header_size)
  let m2 := store m1 (metadata + 8) 0
  let m3 := store m2 (metadata + 16) 0
  my_add_to_free_list metadata
    { s with mem := m3, mmap_calls := (metadata, buffer_size size) :: s.mmap_calls }

/-- The tail of `my_malloc` once a block has been chosen: unlink it and split
it when the remainder can host a header. -/
def my_malloc_carve (size best_fit_metadata : Nat) (s : State) : Nat × State :=
  let ptr := add64 best_fit_metadata header_size
  let remaining_size := sub64 (s.mem best_fit_metadata) size
  let s1 := my_remove_from_free_list best_fit_metadata s
  if header_size < remaining_size then
    let m1 := store s1.mem best_fit_metadata size
    let new_metadata := add64 ptr size
    let m2 := store m1 new_metadata (sub64 remaining_size header_size)
    let m3 := store m2 (new_metadata + 8) 0
    let m4 := store m3 (new_metadata + 16) 0
    (ptr, my_add_to_free_list new_metadata { s1 with mem := m4 })
  else (ptr, s1)

/-- Source: `my_malloc`.  `oracle` lists the addresses `mmap_from_system`
returns, one per call; the recursive retry consumes one of them. -/
def my_malloc (fuel size : Nat) : List Nat → State → Option (Nat × State)
  | [], s =>
    match best_fit_loop size s.mem fuel (s.mem (s.free_head + 8)) 0 SIZE_MAX with
    | none => none
    | some best_fit_metadata =>
      if best_fit_metadata = 0 then none
      else some (my_malloc_carve size best_fit_metadata s)
  | metadata :: oracle, s =>
    match best_fit_loop size s.mem fuel (s.mem (s.free_head + 8)) 0 SIZE_MAX with
    | none => none
    | some best_fit_metadata =>
      if best_fit_metadata = 0 then
        my_malloc fuel size oracle (my_malloc_acquire size metadata s)
      else some (my_malloc_carve size best_fit_metadata s)

/-- First loop of `my_free`: is `next_block_candidate_addr` on the free list?
Returns `(merge_with_next, next_free_block)`. -/
def find_next_loop (mem : Nat → Nat) (next_block_candidate_addr : Nat) :
    Nat → Nat → Option (Bool × Nat)
  | 0, _ => none
  | fuel + 1, temp_current =>
    if temp_current = 0 then some (false, 0)
    else if temp_current = next_block_candidate_addr then some (true, temp_current)
    else find_next_loop mem next_block_candidate_addr fuel (mem (temp_current + 8))

/-- Second loop of `my_free`: a free block ending exactly at `metadata`.
Returns `(merge_with_prev, prev_free_block)`. -/
def find_prev_loop (mem : Nat → Nat) (metadata : Nat) : Nat → Nat → Option (Bool × Nat)
  | 0, _ => none
  | fuel + 1, temp_current =>
    if temp_current = 0 then some (false, 0)
    else if add64 (add64 temp_current header_size) (mem temp_current) = metadata
      then some (true, temp_current)
    else find_prev_loop mem metadata fuel (mem (temp_current + 8))

/-- The four-way merge at the end of `my_free`. -/
def my_free_merge (metadata : Nat) (nxt prv : Bool × Nat) (s : State) : State :=
  if nxt.1 && prv.1 then
    let s1 := my_remove_from_free_list prv.2 s
    let s2 := my_remove_from_free_list nxt.2 s1
    let total := add64 (s2.mem prv.2)
      (add64 (add64 (add64 header_size (s2.mem metadata)) header_size) (s2.mem nxt.2))
    my_add_to_free_list prv.2 { s2 with mem := store s2.mem prv.2 total }
  else if nxt.1 then
    let s1 := my_remove_from_free_list nxt.2 s
    let total := add64 (s1.mem metadata) (add64 header_size (s1.mem nxt.2))
    my_add_to_free_list metadata { s1 with mem := store s1.mem metadata total }
  else if prv.1 then
    let s1 := my_remove_from_free_list prv.2 s
    let total := add64 (s1.mem prv.2) (add64 header_size (s1.mem metadata))
    my_add_to_free_list prv.2 { s1 with mem := store s1.mem prv.2 total }
  else my_add_to_free_list metadata s

/-- Source: `my_free`. -/
def my_free (fuel ptr : Nat) (s : State) : Option State :=
  let metadata := sub64 ptr header_size
  let next_block_candidate_addr := add64 (add64 metadata header_size) (s.mem metadata)
  match find_next_loop s.mem next_block_candidate_addr fuel (s.mem (s.free_head + 8)) with
  | none => none
  | some nxt =>
    match find_prev_loop s.mem metadata fuel (s.mem (s.free_head + 8)) with
    | none => none
    | some prv => some (my_free_merge metadata nxt prv s)

/-- Source: `my_finalize` (does nothing). -/
def my_finalize (s : State) : State := s

/-! ## Vocabulary for stating properties

A block is a pair `(header address, size field)`.  Its extent is the byte range
`[header, header + header_size + size)`. -/

/-- The free list as a list of header addresses: `chain mem p l` says that the
successors of node `p` (following `next`) are exactly the nodes of `l`, that the
last one has a null `next`, and that every `prev` points back. -/
def chain (mem : Nat → Nat) : Nat → List Nat → Prop
  | p, [] => mem (p + 8) = 0
  | p, b :: rest => mem (p + 8) = b ∧ b ≠ 0 ∧ mem (b + 16) = p ∧ chain mem b rest

/-- Two blocks whose extents do not overlap. -/
def Disj (a b : Nat × Nat) : Prop :=
  a.1 + header_size + a.2 ≤ b.1 ∨ b.1 + header_size + b.2 ≤ a.1

/-- A well-formed heap: the free list starting at the sentinel `d` consists of
the blocks `F` (in list order), `A` are the blocks that are not on the free
list (allocated), every block's `size` word holds its size, allocated blocks
have null links, and the sentinel and all blocks have pairwise non-overlapping
extents inside the address space. -/
structure Rep (s : State) (d : Nat) (F A : List (Nat × Nat)) : Prop where
  head : s.free_head = d
  links : chain s.mem d (F.map Prod.fst)
  dprev : s.mem (d + 16) = 0
  sizes : ∀ b ∈ F ++ A, s.mem b.1 = b.2
  alinks : ∀ b ∈ A, s.mem (b.1 + 8) = 0 ∧ s.mem (b.1 + 16) = 0
  disj : ((d, 0) :: (F ++ A)).Pairwise Disj
  bound : ∀ b ∈ (d, 0) :: (F ++ A), b.1 ≠ 0 ∧ b.1 + header_size + b.2 ≤ WORD

/-- Headers (24 bytes each) at pairwise non-overlapping addresses. -/
def Sep (l : List Nat) : Prop :=
  l.Pairwise (fun a b => a + 24 ≤ b ∨ b + 24 ≤ a)

/-! ## The operations on the list of blocks

The free list and the allocated blocks as lists of `(header, size)` pairs, and
what each operation of the program does to them.  The theorems of the section
"Refinement" show that the code implements these functions on every
well-formed heap. -/

/-- Header address of an optional block (`NULL` for none). -/
def hdr : Option (Nat × Nat) → Nat
  | none => 0
  | some b => b.1

/-- The best-fit scan over the free blocks in list order, with the running
candidate and the running minimal difference. -/
def bestFit (size : Nat) : List (Nat × Nat) → Option (Nat × Nat) → Nat → Option (Nat × Nat)
  | [], best, _ => best
  | b :: rest, best, min_diff =>
    if size ≤ b.2 then
      if b.2 - size < min_diff then
        if b.2 - size = 0 then some b
        else bestFit size rest (some b) (b.2 - size)
      else bestFit size rest best min_diff
    else bestFit size rest best min_diff

/-- Handing out the chosen free block `b`: the new free list and the new list
of allocated blocks. -/
def carve (size : Nat) (b : Nat × Nat) (F A : List (Nat × Nat)) :
    List (Nat × Nat) × List (Nat × Nat) :=
  if header_size < b.2 - size then
    ((b.1 + header_size + size, b.2 - size - header_size) :: F.erase b, (b.1, size) :: A)
  else (F.erase b, b :: A)

/-- The first free block whose header is at `addr`. -/
def findAt (addr : Nat) (F : List (Nat × Nat)) : Option (Nat × Nat) :=
  F.find? (fun c => c.1 == addr)

/-- The first free block whose extent ends at `addr`. -/
def findEndingAt (addr : Nat) (F : List (Nat × Nat)) : Option (Nat × Nat) :=
  F.find? (fun c => c.1 + header_size + c.2 == addr)

/-- The free list after freeing the block `b`, merged with the free blocks
adjacent to it. -/
def coalesce (b : Nat × Nat) (F : List (Nat × Nat)) : List (Nat × Nat) :=
  match findEndingAt b.1 F, findAt (b.1 + header_size + b.2) F with
  | some l, some r =>
    (l.1, l.2 + (header_size + b.2 + header_size + r.2)) :: (F.erase l).erase r
  | none, some r => (b.1, b.2 + (header_size + r.2)) :: F.erase r
  | some l, none => (l.1, l.2 + (header_size + b.2)) :: F.erase l
  | none, none => b :: F

/-! ## Executions -/

/-- What is assumed of the page provider, for the record `regions` of the
calls made so far: the regions are pairwise disjoint, non-null, inside the
address space, and do not overlap the sentinel at `d` (static storage). -/
def ProviderOK (d : Nat) (regions : List (Nat × Nat)) : Prop :=
  regions.Pairwise (fun a b => a.1 + a.2 ≤ b.1 ∨ b.1 + b.2 ≤ a.1) ∧
  ∀ r ∈ regions, r.1 ≠ 0 ∧ r.1 + r.2 ≤ WORD ∧ (r.1 + r.2 ≤ d ∨ d + header_size ≤ r.1)

/-- No region starts exactly where another one ends. -/
def NonAdjacent (regions : List (Nat × Nat)) : Prop :=
  regions.Pairwise (fun a b => a.1 + a.2 ≠ b.1 ∧ b.1 + b.2 ≠ a.1)

/-- Every byte of `[lo, hi)` belongs to one of the regions. -/
def Covered (regions : List (Nat × Nat)) (lo hi : Nat) : Prop :=
  ∀ x, lo ≤ x → x < hi → ∃ r ∈ regions, r.1 ≤ x ∧ x < r.1 + r.2

/-- The allocator together with the client's view: `live` lists the pointers
returned by `my_malloc` and not yet freed, each with its requested size. -/
structure Sys where
  heap : State
  live : List (Nat × Nat)

/-- The states reachable from `my_initialize` by calls of `my_malloc` (sizes
positive multiples of 8, at most 4000) and calls of `my_free` on live
pointers, with a page provider that satisfies `ProviderOK`.  `region` is the
address the provider returns if `my_malloc` asks for a region. -/
inductive Reachable : Sys → Prop
  | init (dummy : Nat) (s : State) :
      dummy ≠ 0 → dummy + header_size ≤ WORD → s.mmap_calls = [] →
      Reachable ⟨ my_initialize dummy s, []⟩
  | malloc (sys : Sys) (fuel size region ptr : Nat) (s2 : State) :
      Reachable sys → 0 < size → size % 8 = 0 → size ≤ 4000 →
      my_malloc fuel size [region] sys.heap = some (ptr, s2) →
      ProviderOK s2.free_head s2.mmap_calls →
      Reachable ⟨s2, (ptr, size) :: sys.live⟩
  | free (sys : Sys) (fuel ptr size : Nat) (s2 : State) :
      Reachable sys → (ptr, size) ∈ sys.live →
      my_free fuel ptr sys.heap = some s2 →
      Reachable ⟨s2, sys.live.filter (fun x => x.1 != ptr)⟩

/-- Total number of bytes (headers included) of a list of blocks. -/
def extentSum (l : List (Nat × Nat)) : Nat :=
  (l.map (fun b => header_size + b.2)).sum

/-- An allocated block `(header, size field, requested size)` as a block. -/
def blockOf (a : Nat × Nat × Nat) : Nat × Nat := (a.1, a.2.1)

/-- The pointer handed to the client for an allocated block, with the
requested size. -/
def ptrOf (a : Nat × Nat × Nat) : Nat × Nat := (a.1 + header_size, a.2.2)

/-- The invariant of reachable states, for the sentinel `d`, the free blocks
`F` in list order and the allocated blocks `L`. -/
structure Inv (sys : Sys) (d : Nat) (F : List (Nat × Nat)) (L : List (Nat × Nat × Nat)) :
    Prop where
  rep : Rep sys.heap d F (L.map blockOf)
  live : sys.live = L.map ptrOf
  req : ∀ a ∈ L, 0 < a.2.2 ∧ a.2.2 ≤ a.2.1
  provider : ProviderOK d sys.heap.mmap_calls
  covered : ∀ b ∈ F ++ L.map blockOf,
    Covered sys.heap.mmap_calls b.1 (b.1 + header_size + b.2)
  total : extentSum (F ++ L.map blockOf) = (sys.heap.mmap_calls.map Prod.snd).sum
  size8 : ∀ b ∈ F ++ L.map blockOf, b.2 % 8 = 0
  addr8 : (∀ r ∈ sys.heap.mmap_calls, r.1 % 8 = 0) → ∀ b ∈ F ++ L.map blockOf, b.1 % 8 = 0
  inside : NonAdjacent sys.heap.mmap_calls → ∀ b ∈ F ++ L.map blockOf,
    ∃ r ∈ sys.heap.mmap_calls, r.1 ≤ b.1 ∧ b.1 + header_size + b.2 ≤ r.1 + r.2

/-- The allocated blocks after handing out the free block `b` for a request of
`size` bytes. -/
def carveLive (size : Nat) (b : Nat × Nat) (L : List (Nat × Nat × Nat)) :
    List (Nat × Nat × Nat) :=
  (b.1, (if header_size < b.2 - size then size else b.2), size) :: L

/-! ## Observing the free list and running sequences of calls -/

/-- The blocks met when following `next` from `current` until `NULL`, each with
the content of its `size` word. -/
def free_list_walk (mem : Nat → Nat) : Nat → Nat → Option (List (Nat × Nat))
  | 0, _ => none
  | fuel + 1, current =>
    if current = 0 then some []
    else
      match free_list_walk mem fuel (mem (current + 8)) with
      | none => none
      | some l => some ((current, mem current) :: l)

/-- The free list of a state, read from memory starting after the sentinel. -/
def free_list (fuel : Nat) (s : State) : Option (List (Nat × Nat)) :=
  free_list_walk s.mem fuel (s.mem (s.free_head + 8))

/-- One `my_malloc` call per request `(size, region)`, in order, where `region`
is the provider's answer for that call; returns the pointers in order. -/
def malloc_all (fuel : Nat) : List (Nat × Nat) → State → Option (List Nat × State)
  | [], s => some ([], s)
  | q :: rest, s =>
    match my_malloc fuel q.1 [q.2] s with
    | none => none
    | some r =>
      match malloc_all fuel rest r.2 with
      | none => none
      | some t => some (r.1 :: t.1, t.2)

/-- One `my_free` call per pointer, in order. -/
def free_all (fuel : Nat) : List Nat → State → Option State
  | [], s => some s
  | p :: rest, s =>
    match my_free fuel p s with
    | none => none
    | some s1 => free_all fuel rest s1

/-! ## The scan without the early exit

The search of `my_malloc` as the specification describes the full scan: every
block of the list is examined and the candidate with the smallest difference is
tracked, with no exit on a zero difference. -/

/-- The best-fit scan without the `break` on a zero difference. -/
def best_fit_loop_full (size : Nat) (mem : Nat → Nat) : Nat → Nat → Nat → Nat → Option Nat
  | 0, _, _, _ => none
  | fuel + 1, current, best_fit_metadata, min_diff =>
    if current = 0 then some best_fit_metadata
    else if size ≤ mem current then
      if mem current - size < min_diff then
        best_fit_loop_full size mem fuel (mem (current + 8)) current (mem current - size)
      else best_fit_loop_full size mem fuel (mem (current + 8)) best_fit_metadata min_diff
    else best_fit_loop_full size mem fuel (mem (current + 8)) best_fit_metadata min_diff

/-- The full scan over the free blocks in list order. -/
def bestFitFull (size : Nat) :
    List (Nat × Nat) → Option (Nat × Nat) → Nat → Option (Nat × Nat)
  | [], best, _ => best
  | b :: rest, best, min_diff =>
    if size ≤ b.2 then
      if b.2 - size < min_diff then bestFitFull size rest (some b) (b.2 - size)
      else bestFitFull size rest best min_diff
    else bestFitFull size rest best min_diff

/-! ## The layout of the blocks in the regions -/

/-- The blocks of a state as seen by the client: the free blocks `fl` and, for
every live pointer, the block whose header precedes it, with the content of its
`size` word. -/
def all_blocks (fl : List (Nat × Nat)) (sys : Sys) : List (Nat × Nat) :=
  fl ++ sys.live.map (fun p => (p.1 - header_size, sys.heap.mem (p.1 - header_size)))

/-- The first byte after the extent of a block. -/
def blockEnd (b : Nat × Nat) : Nat := b.1 + header_size + b.2

/-- The layout invariant of the free blocks `F` and the allocated blocks `A` in
the regions: every region has 4096 bytes; every block ends where another block
starts or where a region ends; and when no two regions are adjacent, every
region starts with a block and no free block ends where another free block
starts. -/
structure Geo (regions F A : List (Nat × Nat)) : Prop where
  rsize : ∀ r ∈ regions, r.2 = 4096
  tiled : ∀ b ∈ F ++ A,
    (∃ c ∈ F ++ A, c.1 = blockEnd b) ∨ (∃ r ∈ regions, r.1 + r.2 = blockEnd b)
  first : NonAdjacent regions → ∀ r ∈ regions, ∃ b ∈ F ++ A, b.1 = r.1
  noadj : NonAdjacent regions → ∀ a ∈ F, ∀ b ∈ F, blockEnd a ≠ b.1

/-! ## Example heaps -/

/-- A freshly initialised heap: zeroed memory, sentinel at address 16. -/
def exHeap0 : State := my_initialize 16 ⟨0, fun _ => 0, []⟩

/-- The result of a `my_malloc` call, with `(0, exHeap0)` standing for none. -/
def outcome (o : Option (Nat × State)) : Nat × State := o.getD (0, exHeap0)

/-- First call: 4000 bytes, the provider answers 4096. -/
def exCall1 : Nat × State := outcome (my_malloc 4 4000 [4096] exHeap0)

/-- Second call: 4000 bytes, the provider answers 8192 (adjacent to the first region). -/
def exCall2 : Nat × State := outcome (my_malloc 4 4000 [8192] exCall1.2)

/-- The second object is freed. -/
def exFree2 : State := (my_free 4 exCall2.1 exCall2.2).getD exHeap0

/-- The first object is freed right after the first call. -/
def exFree1 : State := (my_free 4 exCall1.1 exCall1.2).getD exHeap0

/-- Third call: 64 bytes (no provider call is needed). -/
def exCall3 : Nat × State := outcome (my_malloc 4 64 [12288] exFree2)

/-- A header with the given size and null links written at `h`. -/
def exPlace (h size : Nat) (s : State) : State :=
  { s with mem := store (store (store s.mem h size) (h + 8) 0) (h + 16) 0 }

/-- A free block with the given size created at `h` and put on the free list. -/
def exInsert (h size : Nat) (s : State) : State :=
  my_add_to_free_list h (exPlace h size s)

/-- A heap whose free list holds blocks of sizes 16, 64 and 32, in list order. -/
def exHeapSizes : State := exInsert 3000 16 (exInsert 2000 64 (exInsert 1000 32 exHeap0))

/-- A heap with one free block of 104 bytes. -/
def exHeapBig : State := exInsert 1000 104 exHeap0

/-- A heap with an allocated block of 8 bytes at 2000 between two free blocks:
`[1000, 2000)` on its left and `[2032, 2120)` on its right. -/
def exHeapMerge : State := exInsert 2032 64 (exPlace 2000 8 (exInsert 1000 976 exHeap0))

/-! ## Memory and free-list lemmas -/

theorem store_same (m : Nat → Nat) (a v : Nat) : store m a v a = v := by
  simp [store]

theorem store_other (m : Nat → Nat) (a v x : Nat) (h : x ≠ a) : store m a v x = m x := by
  simp [store, h]

/-- Membership of a word among the link words of a set of nodes. -/
theorem chain_frame (m m2 : Nat → Nat) : ∀ (l : List Nat) (p : Nat),
    m2 (p + 8) = m (p + 8) →
    (∀ b ∈ l, m2 (b + 8) = m (b + 8) ∧ m2 (b + 16) = m (b + 16)) →
    chain m p l → chain m2 p l
  | [], p, hp, _, h => by
    simp only [chain] at h ⊢
    rw [hp]; exact h
  | b :: rest, p, hp, hl, h => by
    simp only [chain] at h ⊢
    obtain ⟨h1, h2, h3, h4⟩ := h
    have hb := hl b (List.mem_cons_self _ _)
    refine ⟨by rw [hp]; exact h1, h2, by rw [hb.2]; exact h3, ?_⟩
    exact chain_frame m m2 rest b hb.1 (fun c hc => hl c (List.mem_cons_of_mem _ hc)) h4

/-- The memory after `my_remove_from_free_list`, with the two guards resolved. -/
theorem remove_mem (x : Nat) (s : State) :
    (my_remove_from_free_list x s).mem =
      store (store
        (if s.mem (x + 8) ≠ 0 then
          store (if s.mem (x + 16) ≠ 0
              then store s.mem (s.mem (x + 16) + 8) (s.mem (x + 8)) else s.mem)
            (s.mem (x + 8) + 16)
            ((if s.mem (x + 16) ≠ 0
              then store s.mem (s.mem (x + 16) + 8) (s.mem (x + 8)) else s.mem) (x + 16))
        else (if s.mem (x + 16) ≠ 0
              then store s.mem (s.mem (x + 16) + 8) (s.mem (x + 8)) else s.mem))
        (x + 8) 0) (x + 16) 0 := by
  have e1 : (if s.mem (x + 16) ≠ 0 then store s.mem (s.mem (x + 16) + 8) (s.mem (x + 8))
      else s.mem) (x + 8) = s.mem (x + 8) := by
    by_cases hc : s.mem (x + 16) ≠ 0
    · rw [if_pos hc]; simp only [store]; split_ifs <;> rfl
    · rw [if_neg hc]
  simp only [my_remove_from_free_list, e1]

/-- The words `my_remove_from_free_list` may change. -/
theorem remove_frame (x : Nat) (s : State) (w : Nat)
    (h1 : s.mem (x + 16) ≠ 0 → w ≠ s.mem (x + 16) + 8)
    (h2 : s.mem (x + 8) ≠ 0 → w ≠ s.mem (x + 8) + 16)
    (h3 : w ≠ x + 8) (h4 : w ≠ x + 16) :
    (my_remove_from_free_list x s).mem w = s.mem w := by
  rw [remove_mem, store_other _ _ _ _ h4, store_other _ _ _ _ h3]
  by_cases hp : s.mem (x + 16) ≠ 0 <;> by_cases hn : s.mem (x + 8) ≠ 0
  · rw [if_pos hn, if_pos hp, store_other _ _ _ _ (h2 hn), store_other _ _ _ _ (h1 hp)]
  · rw [if_neg hn, if_pos hp, store_other _ _ _ _ (h1 hp)]
  · rw [if_pos hn, if_neg hp, store_other _ _ _ _ (h2 hn)]
  · rw [if_neg hn, if_neg hp]

/-- After unlinking `x`, its predecessor points to its successor. -/
theorem remove_pred_next (x : Nat) (s : State) (hp : s.mem (x + 16) ≠ 0)
    (h1 : s.mem (x + 16) ≠ x) (h2 : s.mem (x + 16) ≠ x + 8)
    (h3 : s.mem (x + 8) ≠ 0 → s.mem (x + 16) ≠ s.mem (x + 8) + 8) :
    (my_remove_from_free_list x s).mem (s.mem (x + 16) + 8) = s.mem (x + 8) := by
  rw [remove_mem, store_other _ _ _ _ (by omega), store_other _ _ _ _ (by omega), if_pos hp]
  by_cases hn : s.mem (x + 8) ≠ 0
  · have h3b := h3 hn
    rw [if_pos hn, store_other _ _ _ _ (by omega), store_same]
  · rw [if_neg hn, store_same]

/-- After unlinking `x`, its successor points back to its predecessor. -/
theorem remove_succ_prev (x : Nat) (s : State) (hn : s.mem (x + 8) ≠ 0)
    (h1 : s.mem (x + 8) ≠ x) (h2 : s.mem (x + 8) + 8 ≠ x)
    (h3 : s.mem (x + 16) = 0 ∨ s.mem (x + 16) ≠ x + 8) :
    (my_remove_from_free_list x s).mem (s.mem (x + 8) + 16) = s.mem (x + 16) := by
  rw [remove_mem, store_other _ _ _ _ (by omega), store_other _ _ _ _ (by omega), if_pos hn,
    store_same]
  by_cases hp : s.mem (x + 16) ≠ 0
  · rw [if_pos hp, store_other _ _ _ _ (by omega)]
  · rw [if_neg hp]

theorem remove_links_null (x : Nat) (s : State) :
    (my_remove_from_free_list x s).mem (x + 8) = 0 ∧
    (my_remove_from_free_list x s).mem (x + 16) = 0 := by
  simp only [my_remove_from_free_list]
  constructor
  · rw [store_other _ _ _ _ (by omega), store_same]
  · rw [store_same]

theorem remove_free_head (x : Nat) (s : State) :
    (my_remove_from_free_list x s).free_head = s.free_head := rfl

theorem remove_mmap_calls (x : Nat) (s : State) :
    (my_remove_from_free_list x s).mmap_calls = s.mmap_calls := rfl

/-- In a chain the neighbours of a member are members (or the chain's origin,
or null at the end). -/
theorem chain_neighbours (m : Nat → Nat) (x : Nat) : ∀ (l : List Nat) (p : Nat),
    chain m p l → x ∈ l →
    (m (x + 16) ∈ p :: l) ∧ (m (x + 8) = 0 ∨ m (x + 8) ∈ l)
  | [], _, _, hx => by simp at hx
  | b :: rest, p, h, hx => by
    simp only [chain] at h
    obtain ⟨h1, h2, h3, h4⟩ := h
    rcases List.mem_cons.mp hx with rfl | hx2
    · refine ⟨by rw [h3]; exact List.mem_cons_self _ _, ?_⟩
      cases rest with
      | nil => left; simpa [chain] using h4
      | cons y r =>
        right
        simp only [chain] at h4
        rw [h4.1]
        exact List.mem_cons_of_mem _ (List.mem_cons_self _ _)
    · have ih := chain_neighbours m x rest b h4 hx2
      refine ⟨List.mem_cons_of_mem _ ih.1, ?_⟩
      rcases ih.2 with h0 | hm
      · left; exact h0
      · right; exact List.mem_cons_of_mem _ hm

theorem chain_ne_zero (m : Nat → Nat) : ∀ (l : List Nat) (p : Nat),
    chain m p l → ∀ b ∈ l, b ≠ 0
  | [], _, _, b, hb => by simp at hb
  | c :: rest, p, h, b, hb => by
    simp only [chain] at h
    rcases List.mem_cons.mp hb with rfl | hb2
    · exact h.2.1
    · exact chain_ne_zero m rest c h.2.2.2 b hb2

theorem Sep.head_ne {p : Nat} {l : List Nat} (h : Sep (p :: l)) :
    ∀ b ∈ l, p + 24 ≤ b ∨ b + 24 ≤ p :=
  (List.pairwise_cons.mp h).1

theorem Sep.tail {p : Nat} {l : List Nat} (h : Sep (p :: l)) : Sep l :=
  (List.pairwise_cons.mp h).2

theorem Sep.drop_second {p b : Nat} {l : List Nat} (h : Sep (p :: b :: l)) : Sep (p :: l) := by
  unfold Sep at h ⊢
  rw [List.pairwise_cons] at h ⊢
  exact ⟨fun c hc => h.1 c (List.mem_cons_of_mem _ hc), (List.pairwise_cons.mp h.2).2⟩

/-- Unlinking a member of the free list. -/
theorem remove_chain (x : Nat) (s : State) : ∀ (l : List Nat) (p : Nat),
    chain s.mem p l → Sep (p :: l) → p ≠ 0 → x ∈ l →
    chain (my_remove_from_free_list x s).mem p (l.erase x)
  | [], _, _, _, _, hx => by simp at hx
  | b :: rest, p, h, hsep, hp, hx => by
    have hch := h
    simp only [chain] at h
    obtain ⟨h1, h2, h3, h4⟩ := h
    have hpb := hsep.head_ne b (List.mem_cons_self _ _)
    by_cases hbx : b = x
    · subst hbx
      rw [List.erase_cons_head]
      cases rest with
      | nil =>
        simp only [chain] at h4 ⊢
        have e := remove_pred_next b s (by rw [h3]; exact hp) (by rw [h3]; omega)
          (by rw [h3]; omega) (by rw [h4]; intro hc; exact absurd rfl hc)
        rw [h3, h4] at e
        exact e
      | cons y r =>
        simp only [chain] at h4 ⊢
        obtain ⟨k1, k2, k3, k4⟩ := h4
        have hpy := hsep.head_ne y (List.mem_cons_of_mem _ (List.mem_cons_self _ _))
        have hby := hsep.tail.head_ne y (List.mem_cons_self _ _)
        have hm : ∀ w, w ≠ p + 8 → w ≠ y + 16 → w ≠ b + 8 → w ≠ b + 16 →
            (my_remove_from_free_list b s).mem w = s.mem w := by
          intro w w1 w2 w3 w4
          apply remove_frame
          · rw [h3]; intro _; exact w1
          · rw [k1]; intro _; exact w2
          · exact w3
          · exact w4
        refine ⟨?_, k2, ?_, ?_⟩
        · have e := remove_pred_next b s (by rw [h3]; exact hp) (by rw [h3]; omega)
            (by rw [h3]; omega) (by rw [h3, k1]; intro _; omega)
          rw [h3, k1] at e
          exact e
        · have e := remove_succ_prev b s (by rw [k1]; exact k2) (by rw [k1]; omega)
            (by rw [k1]; omega) (by rw [h3]; right; omega)
          rw [h3, k1] at e
          exact e
        · apply chain_frame s.mem _ r y _ _ k4
          · apply hm <;> omega
          · intro c hc
            have hpc := hsep.head_ne c (List.mem_cons_of_mem _ (List.mem_cons_of_mem _ hc))
            have hbc := hsep.tail.head_ne c (List.mem_cons_of_mem _ hc)
            have hyc := hsep.tail.tail.head_ne c hc
            constructor <;> apply hm <;> omega
    · have hx2 : x ∈ rest := by
        rcases List.mem_cons.mp hx with e | e
        · exact absurd e.symm hbx
        · exact e
      rw [List.erase_cons_tail (by simpa using hbx)]
      have hn := chain_neighbours s.mem x rest b h4 hx2
      have ih := remove_chain x s rest b h4 hsep.tail h2 hx2
      have hpx := hsep.head_ne x (List.mem_cons_of_mem _ hx2)
      have hbx2 := hsep.tail.head_ne x hx2
      have hfr : ∀ w, (w = p + 8 ∨ w = b + 16) →
          (my_remove_from_free_list x s).mem w = s.mem w := by
        intro w hw
        apply remove_frame
        · intro _
          rcases List.mem_cons.mp hn.1 with e | e
          · rw [e]; omega
          · have hpc := hsep.head_ne _ (List.mem_cons_of_mem _ e)
            have hbc := hsep.tail.head_ne _ e
            omega
        · intro hnz
          rcases hn.2 with e | e
          · exact absurd e hnz
          · have hpc := hsep.head_ne _ (List.mem_cons_of_mem _ e)
            have hbc := hsep.tail.head_ne _ e
            omega
        · omega
        · omega
      simp only [chain]
      refine ⟨?_, h2, ?_, ih⟩
      · rw [hfr _ (Or.inl rfl)]; exact h1
      · rw [hfr _ (Or.inr rfl)]; exact h3

/-- Unlinking touches only `next` words of the origin and of list members, and
`prev` words of list members. -/
theorem remove_frame_nodes (x : Nat) (s : State) (l : List Nat) (p : Nat)
    (hc : chain s.mem p l) (hx : x ∈ l) (w : Nat)
    (h8 : ∀ n ∈ p :: l, w ≠ n + 8) (h16 : ∀ n ∈ l, w ≠ n + 16) :
    (my_remove_from_free_list x s).mem w = s.mem w := by
  have hn := chain_neighbours s.mem x l p hc hx
  apply remove_frame
  · intro _; exact h8 _ hn.1
  · intro hnz
    rcases hn.2 with e | e
    · exact absurd e hnz
    · exact h16 _ e
  · exact h8 x (List.mem_cons_of_mem _ hx)
  · exact h16 x hx

/-- The memory after `my_add_to_free_list`, when the new node does not overlap
the sentinel. -/
theorem add_mem (x : Nat) (s : State) (h1 : s.free_head ≠ x) (h2 : s.free_head ≠ x + 8) :
    (my_add_to_free_list x s).mem =
      store (if s.mem (s.free_head + 8) ≠ 0 then
          store (store (store s.mem (x + 8) (s.mem (s.free_head + 8))) (x + 16) s.free_head)
            (s.mem (s.free_head + 8) + 16) x
        else store (store s.mem (x + 8) (s.mem (s.free_head + 8))) (x + 16) s.free_head)
        (s.free_head + 8) x := by
  have e : store (store s.mem (x + 8) (s.mem (s.free_head + 8))) (x + 16) s.free_head
      (s.free_head + 8) = s.mem (s.free_head + 8) := by
    rw [store_other _ _ _ _ (by omega), store_other _ _ _ _ (by omega)]
  simp only [my_add_to_free_list, e]

theorem add_free_head (x : Nat) (s : State) :
    (my_add_to_free_list x s).free_head = s.free_head := rfl

theorem add_mmap_calls (x : Nat) (s : State) :
    (my_add_to_free_list x s).mmap_calls = s.mmap_calls := rfl

/-- Insertion touches only the links of the new node, the sentinel's `next` and
the old first node's `prev`. -/
theorem add_frame_nodes (x : Nat) (s : State) (l : List Nat)
    (hc : chain s.mem s.free_head l) (h1 : s.free_head ≠ x) (h2 : s.free_head ≠ x + 8)
    (w : Nat) (h8 : w ≠ s.free_head + 8 ∧ w ≠ x + 8) (h16 : ∀ n ∈ x :: l, w ≠ n + 16) :
    (my_add_to_free_list x s).mem w = s.mem w := by
  rw [add_mem x s h1 h2, store_other _ _ _ _ h8.1]
  have hx16 := h16 x (List.mem_cons_self _ _)
  cases l with
  | nil =>
    simp only [chain] at hc
    rw [if_neg (by simp [hc]), store_other _ _ _ _ hx16, store_other _ _ _ _ h8.2]
  | cons b rest =>
    simp only [chain] at hc
    have hb16 := h16 b (List.mem_cons_of_mem _ (List.mem_cons_self _ _))
    rw [hc.1, if_pos hc.2.1, store_other _ _ _ _ hb16, store_other _ _ _ _ hx16,
      store_other _ _ _ _ h8.2]

/-- Insertion at the head of the free list. -/
theorem add_chain (x : Nat) (s : State) (l : List Nat)
    (hc : chain s.mem s.free_head l) (hsep : Sep (s.free_head :: x :: l)) (hx : x ≠ 0) :
    chain (my_add_to_free_list x s).mem s.free_head (x :: l) := by
  have hdx := hsep.head_ne x (List.mem_cons_self _ _)
  have h1 : s.free_head ≠ x := by omega
  have h2 : s.free_head ≠ x + 8 := by omega
  have hm := add_mem x s h1 h2
  simp only [chain]
  refine ⟨by rw [hm, store_same], hx, ?_, ?_⟩
  · rw [hm, store_other _ _ _ _ (by omega)]
    cases l with
    | nil =>
      simp only [chain] at hc
      rw [if_neg (by simp [hc]), store_same]
    | cons b rest =>
      simp only [chain] at hc
      have hxb := hsep.tail.head_ne b (List.mem_cons_self _ _)
      rw [hc.1, if_pos hc.2.1, store_other _ _ _ _ (by omega), store_same]
  · cases l with
    | nil =>
      simp only [chain] at hc ⊢
      rw [hm, store_other _ _ _ _ (by omega), if_neg (by simp [hc]),
        store_other _ _ _ _ (by omega), store_same, hc]
    | cons b rest =>
      simp only [chain] at hc ⊢
      obtain ⟨c1, c2, c3, c4⟩ := hc
      have hxb := hsep.tail.head_ne b (List.mem_cons_self _ _)
      have hdb := hsep.head_ne b (List.mem_cons_of_mem _ (List.mem_cons_self _ _))
      have hval : ∀ w, w ≠ s.free_head + 8 → w ≠ b + 16 → w ≠ x + 16 → w ≠ x + 8 →
          (my_add_to_free_list x s).mem w = s.mem w := by
        intro w w1 w2 w3 w4
        rw [hm, store_other _ _ _ _ w1, c1, if_pos c2, store_other _ _ _ _ w2,
          store_other _ _ _ _ w3, store_other _ _ _ _ w4]
      refine ⟨?_, c2, ?_, ?_⟩
      · rw [hm, store_other _ _ _ _ (by omega), c1, if_pos c2, store_other _ _ _ _ (by omega),
          store_other _ _ _ _ (by omega), store_same]
      · rw [hm, store_other _ _ _ _ (by omega), c1, if_pos c2, store_same]
      · apply chain_frame s.mem _ rest b _ _ c4
        · apply hval <;> omega
        · intro c hcm
          have hdc := hsep.head_ne c (List.mem_cons_of_mem _ (List.mem_cons_of_mem _ hcm))
          have hxc := hsep.tail.head_ne c (List.mem_cons_of_mem _ hcm)
          have hbc := hsep.tail.tail.head_ne c hcm
          constructor <;> apply hval <;> omega

/-! ## Well-formed heaps under the list primitives -/

theorem Disj.symm {a b : Nat × Nat} (h : Disj a b) : Disj b a := Or.symm h

theorem Disj.arith {a b : Nat × Nat} (h : Disj a b) :
    a.1 + 24 + a.2 ≤ b.1 ∨ b.1 + 24 + b.2 ≤ a.1 := h

theorem Disj.ne {a b : Nat × Nat} (h : Disj a b) : a ≠ b := by
  intro e
  subst e
  have := h.arith
  omega

/-- A list is a permutation of one of its members followed by the rest. -/
theorem perm_cons_erase_block : ∀ (l : List (Nat × Nat)) (a : Nat × Nat), a ∈ l →
    l.Perm (a :: l.erase a)
  | [], _, h => by simp at h
  | c :: rest, a, h => by
    by_cases hca : c = a
    · subst hca
      rw [List.erase_cons_head]
    · have h2 : a ∈ rest := by
        rcases List.mem_cons.mp h with e | e
        · exact absurd e.symm hca
        · exact e
      rw [List.erase_cons_tail (by simpa using hca)]
      exact ((perm_cons_erase_block rest a h2).cons c).trans (List.Perm.swap a c _)

/-- Erasing a block commutes with taking header addresses when headers are
distinct. -/
theorem map_fst_erase : ∀ (F : List (Nat × Nat)) (b : Nat × Nat), F.Pairwise Disj → b ∈ F →
    (F.erase b).map Prod.fst = (F.map Prod.fst).erase b.1
  | [], _, _, hb => by simp at hb
  | c :: rest, b, hp, hb => by
    by_cases hcb : c = b
    · subst hcb
      simp
    · have hb2 : b ∈ rest := by
        rcases List.mem_cons.mp hb with e | e
        · exact absurd e.symm hcb
        · exact e
      have hd := ((List.pairwise_cons.mp hp).1 b hb2).arith
      have hne : c.1 ≠ b.1 := by omega
      rw [List.erase_cons_tail (by simpa using hcb), List.map_cons, List.map_cons,
        List.erase_cons_tail (by simpa using hne),
        map_fst_erase rest b (List.pairwise_cons.mp hp).2 hb2]

namespace Rep

variable {s : State} {d : Nat} {F A : List (Nat × Nat)}

theorem apart (h : Rep s d F A) {a c : Nat × Nat} (ha : a ∈ (d, 0) :: (F ++ A))
    (hc : c ∈ (d, 0) :: (F ++ A)) : a = c ∨ Disj a c := by
  by_cases e : a = c
  · exact Or.inl e
  · exact Or.inr (h.disj.forall (fun _ _ hxy => Disj.symm hxy) ha hc e)

theorem cross (h : Rep s d F A) {a c : Nat × Nat} (ha : a ∈ (d, 0) :: F) (hc : c ∈ A) :
    Disj a c := by
  have hp := h.disj
  rw [← List.cons_append, List.pairwise_append] at hp
  exact hp.2.2 a ha c hc

theorem free_pairwise (h : Rep s d F A) : F.Pairwise Disj := by
  have hp := (List.pairwise_cons.mp h.disj).2
  exact (List.pairwise_append.mp hp).1

theorem d_ne_zero (h : Rep s d F A) : d ≠ 0 :=
  (h.bound (d, 0) (List.mem_cons_self _ _)).1

theorem node_block (_h : Rep s d F A) {n : Nat} (hn : n ∈ d :: F.map Prod.fst) :
    ∃ a ∈ (d, 0) :: F, a.1 = n := by
  rcases List.mem_cons.mp hn with e | e
  · exact ⟨(d, 0), List.mem_cons_self _ _, e.symm⟩
  · obtain ⟨a, ha, hae⟩ := List.mem_map.mp e
    exact ⟨a, List.mem_cons_of_mem _ ha, hae⟩

theorem mem_all_of_node {a : Nat × Nat} (ha : a ∈ (d, 0) :: F) : a ∈ (d, 0) :: (F ++ A) := by
  rcases List.mem_cons.mp ha with e | e
  · rw [e]; exact List.mem_cons_self _ _
  · exact List.mem_cons_of_mem _ (List.mem_append_left _ e)

/-- The header addresses of the sentinel and the free blocks are separated. -/
theorem sep_nodes (h : Rep s d F A) : Sep (d :: F.map Prod.fst) := by
  have hp : ((d, 0) :: F).Pairwise Disj := by
    have := h.disj
    rw [← List.cons_append, List.pairwise_append] at this
    exact this.1
  have : List.Pairwise (fun a b => a + 24 ≤ b ∨ b + 24 ≤ a) (List.map Prod.fst ((d, 0) :: F)) :=
    List.Pairwise.map Prod.fst (fun a b hab => by have := hab.arith; omega) hp
  simpa [Sep] using this

/-- A size word of any block is not a link word of a free-list node. -/
theorem size_word (h : Rep s d F A) {c : Nat × Nat} (hc : c ∈ F ++ A) {n : Nat}
    (hn : n ∈ d :: F.map Prod.fst) : c.1 ≠ n + 8 ∧ c.1 ≠ n + 16 := by
  obtain ⟨a, ha, rfl⟩ := h.node_block hn
  rcases h.apart (mem_all_of_node ha) (List.mem_cons_of_mem _ hc) with e | e
  · subst e; omega
  · have := e.arith; omega

/-- The words of an allocated header are not link words of a free-list node. -/
theorem alloc_word (h : Rep s d F A) {c : Nat × Nat} (hc : c ∈ A) {n : Nat}
    (hn : n ∈ d :: F.map Prod.fst) : c.1 + 24 ≤ n ∨ n + 24 ≤ c.1 := by
  obtain ⟨a, ha, rfl⟩ := h.node_block hn
  have := (h.cross ha hc).arith
  omega

theorem congr (h : Rep s d F A) {s2 : State} (h1 : s2.free_head = s.free_head)
    (h2 : s2.mem = s.mem) : Rep s2 d F A :=
  ⟨h1.trans h.head, by rw [h2]; exact h.links, by rw [h2]; exact h.dprev,
    by rw [h2]; exact h.sizes, by rw [h2]; exact h.alinks, h.disj, h.bound⟩

/-- Reordering the blocks that are not on the free list. -/
theorem perm_alloc (h : Rep s d F A) {A2 : List (Nat × Nat)} (hp : A2.Perm A) :
    Rep s d F A2 := by
  have hperm : ((d, 0) :: (F ++ A2)).Perm ((d, 0) :: (F ++ A)) :=
    List.Perm.cons _ (List.Perm.append_left F hp)
  refine ⟨h.head, h.links, h.dprev, ?_, ?_, ?_, ?_⟩
  · intro b hb
    apply h.sizes
    rcases List.mem_append.mp hb with e | e
    · exact List.mem_append_left _ e
    · exact List.mem_append_right _ (hp.mem_iff.mp e)
  · intro b hb
    exact h.alinks b (hp.mem_iff.mp hb)
  · exact (List.Perm.pairwise_iff (fun hxy => Disj.symm hxy) hperm).mpr h.disj
  · intro b hb
    exact h.bound b (hperm.mem_iff.mp hb)

/-- Forgetting blocks that are not on the free list. -/
theorem sub_alloc (h : Rep s d F A) {A2 : List (Nat × Nat)} (hsub : A2.Sublist A) :
    Rep s d F A2 := by
  have hs : ((d, 0) :: (F ++ A2)).Sublist ((d, 0) :: (F ++ A)) :=
    List.Sublist.cons₂ _ (List.Sublist.append_left hsub F)
  refine ⟨h.head, h.links, h.dprev, ?_, ?_, ?_, ?_⟩
  · intro b hb
    apply h.sizes
    rcases List.mem_append.mp hb with e | e
    · exact List.mem_append_left _ e
    · exact List.mem_append_right _ (hsub.subset e)
  · intro b hb
    exact h.alinks b (hsub.subset hb)
  · exact h.disj.sublist hs
  · intro b hb
    exact h.bound b (hs.subset hb)

/-- Unlinking a free block: it joins the blocks that are off the list. -/
theorem remove (h : Rep s d F A) {b : Nat × Nat} (hb : b ∈ F) :
    Rep (my_remove_from_free_list b.1 s) d (F.erase b) (b :: A) := by
  have hb1 : b.1 ∈ F.map Prod.fst := List.mem_map.mpr ⟨b, hb, rfl⟩
  have hperm : ((d, 0) :: (F.erase b ++ b :: A)).Perm ((d, 0) :: (F ++ A)) := by
    apply List.Perm.cons
    have h2 : (b :: (F.erase b ++ A)).Perm (F ++ A) :=
      (perm_cons_erase_block F b hb).symm.append_right A
    exact List.perm_middle.trans h2
  have hfr : ∀ w, (∀ n ∈ d :: F.map Prod.fst, w ≠ n + 8) → (∀ n ∈ F.map Prod.fst, w ≠ n + 16) →
      (my_remove_from_free_list b.1 s).mem w = s.mem w :=
    fun w => remove_frame_nodes b.1 s _ d h.links hb1 w
  have hsep := h.sep_nodes
  refine ⟨h.head, ?_, ?_, ?_, ?_, ?_, ?_⟩
  · rw [map_fst_erase F b h.free_pairwise hb]
    exact remove_chain b.1 s _ d h.links hsep h.d_ne_zero hb1
  · rw [hfr, h.dprev]
    · intro n hn
      rcases List.mem_cons.mp hn with e | e
      · omega
      · have := hsep.head_ne n e; omega
    · intro n hn
      have := hsep.head_ne n hn; omega
  · intro c hc
    have hc2 : c ∈ F ++ A := by
      have := hperm.mem_iff.mp (List.mem_cons_of_mem _ hc)
      rcases List.mem_cons.mp this with e | e
      · exfalso
        have hc3 : c ∈ (d, 0) :: (F.erase b ++ b :: A) := List.mem_cons_of_mem _ hc
        have hnd := (List.Perm.pairwise_iff (fun hxy => Disj.symm hxy) hperm).mpr h.disj
        have := (List.pairwise_cons.mp hnd).1 c hc
        exact this.ne e.symm
      · exact e
    rw [hfr, h.sizes c hc2]
    · intro n hn; exact (h.size_word hc2 hn).1
    · intro n hn; exact (h.size_word hc2 (List.mem_cons_of_mem _ hn)).2
  · intro c hc
    rcases List.mem_cons.mp hc with e | e
    · subst e; exact remove_links_null c.1 s
    · have ha := h.alinks c e
      constructor
      · rw [hfr, ha.1]
        · intro n hn; have := h.alloc_word e hn; omega
        · intro n hn; have := h.alloc_word e (List.mem_cons_of_mem _ hn); omega
      · rw [hfr, ha.2]
        · intro n hn; have := h.alloc_word e hn; omega
        · intro n hn; have := h.alloc_word e (List.mem_cons_of_mem _ hn); omega
  · exact (List.Perm.pairwise_iff (fun hxy => Disj.symm hxy) hperm).mpr h.disj
  · intro c hc
    exact h.bound c (hperm.mem_iff.mp hc)

/-- The non-free blocks other than `b` are disjoint from `b`. -/
theorem erase_alloc (_h : Rep s d F A) {b : Nat × Nat} (hb : b ∈ A) :
    ((d, 0) :: (F ++ b :: A.erase b)).Perm ((d, 0) :: (F ++ A)) :=
  List.Perm.cons _ (List.Perm.append_left F (perm_cons_erase_block A b hb).symm)

theorem move_front (x : Nat × Nat) (F2 A2 : List (Nat × Nat)) :
    ((d, 0) :: (F2 ++ x :: A2)).Perm (x :: (d, 0) :: (F2 ++ A2)) :=
  (List.Perm.cons _ List.perm_middle).trans (List.Perm.swap _ _ _)

theorem others_disj (h : Rep s d F A) {b : Nat × Nat} (hb : b ∈ A) :
    ∀ c ∈ (d, 0) :: (F ++ A.erase b), Disj b c := by
  have hp := (List.Perm.pairwise_iff (fun hxy => Disj.symm hxy)
    ((h.erase_alloc hb).trans (List.Perm.refl _))).mpr h.disj
  have hp2 := (List.Perm.pairwise_iff (fun hxy => Disj.symm hxy)
    (move_front b F (A.erase b))).mp hp
  exact (List.pairwise_cons.mp hp2).1

/-- Linking a block that is off the list at the head of the free list. -/
theorem add (h : Rep s d F A) {b : Nat × Nat} (hb : b ∈ A) :
    Rep (my_add_to_free_list b.1 s) d (b :: F) (A.erase b) := by
  have hperm : ((d, 0) :: ((b :: F) ++ A.erase b)).Perm ((d, 0) :: (F ++ A)) := by
    refine (List.Perm.cons _ ?_).trans (h.erase_alloc hb)
    exact List.perm_middle.symm
  have hod := h.others_disj hb
  have hdb := (hod (d, 0) (List.mem_cons_self _ _)).arith
  have hsepN := h.sep_nodes
  have hsep : Sep (s.free_head :: b.1 :: F.map Prod.fst) := by
    rw [h.head]
    unfold Sep at hsepN ⊢
    rw [List.pairwise_cons] at hsepN ⊢
    refine ⟨?_, List.pairwise_cons.mpr ⟨?_, hsepN.2⟩⟩
    · intro n hn
      rcases List.mem_cons.mp hn with e | e
      · subst e; simp only at hdb; omega
      · exact hsepN.1 n e
    · intro n hn
      have := h.alloc_word hb (List.mem_cons_of_mem _ hn)
      omega
  have hbnz : b.1 ≠ 0 := (h.bound b (List.mem_cons_of_mem _ (List.mem_append_right _ hb))).1
  have hch : chain s.mem s.free_head (F.map Prod.fst) := by rw [h.head]; exact h.links
  have hfr : ∀ w, (w ≠ d + 8 ∧ w ≠ b.1 + 8) → (∀ n ∈ b.1 :: F.map Prod.fst, w ≠ n + 16) →
      (my_add_to_free_list b.1 s).mem w = s.mem w := by
    intro w h8 h16
    apply add_frame_nodes b.1 s _ hch
    · rw [h.head]; simp only at hdb; omega
    · rw [h.head]; simp only at hdb; omega
    · rw [h.head]; exact h8
    · exact h16
  refine ⟨h.head, ?_, ?_, ?_, ?_, ?_, ?_⟩
  · have := add_chain b.1 s _ hch hsep hbnz
    rw [h.head] at this
    exact this
  · rw [hfr, h.dprev]
    · simp only at hdb; omega
    · intro n hn
      rcases List.mem_cons.mp hn with e | e
      · subst e; simp only at hdb; omega
      · have := hsepN.head_ne n e; omega
  · intro c hc
    have hc2 : c ∈ F ++ A := by
      have := hperm.mem_iff.mp (List.mem_cons_of_mem _ hc)
      rcases List.mem_cons.mp this with e | e
      · exfalso
        have hnd := (List.Perm.pairwise_iff (fun hxy => Disj.symm hxy) hperm).mpr h.disj
        exact ((List.pairwise_cons.mp hnd).1 c hc).ne e.symm
      · exact e
    have hcd := (h.apart (List.mem_cons_self _ _) (List.mem_cons_of_mem _ hc2))
    have hcb := (h.apart (List.mem_cons_of_mem _ hc2)
      (List.mem_cons_of_mem _ (List.mem_append_right _ hb)))
    rw [hfr, h.sizes c hc2]
    · rcases hcd with e | e
      · exfalso
        have := (h.bound c (List.mem_cons_of_mem _ hc2)).1
        have hnd := (List.pairwise_cons.mp h.disj).1 c hc2
        exact hnd.ne e
      · rcases hcb with e2 | e2
        · subst e2; have := e.arith; simp only at this; omega
        · have := e.arith; have := e2.arith; simp only at *; omega
    · intro n hn
      rcases List.mem_cons.mp hn with e | e
      · rcases hcb with e2 | e2
        · subst e2; omega
        · have := e2.arith; omega
      · exact (h.size_word hc2 (List.mem_cons_of_mem _ e)).2
  · intro c hc
    have hcA : c ∈ A := List.mem_of_mem_erase hc
    have hbc := (hod c (List.mem_cons_of_mem _ (List.mem_append_right _ hc))).arith
    have hdc := h.alloc_word hcA (List.mem_cons_self _ _)
    have ha := h.alinks c hcA
    constructor
    · rw [hfr, ha.1]
      · omega
      · intro n hn
        rcases List.mem_cons.mp hn with e | e
        · omega
        · have := h.alloc_word hcA (List.mem_cons_of_mem _ e); omega
    · rw [hfr, ha.2]
      · omega
      · intro n hn
        rcases List.mem_cons.mp hn with e | e
        · omega
        · have := h.alloc_word hcA (List.mem_cons_of_mem _ e); omega
  · exact (List.Perm.pairwise_iff (fun hxy => Disj.symm hxy) hperm).mpr h.disj
  · intro c hc
    exact h.bound c (hperm.mem_iff.mp hc)

/-- Overwriting the size word of a block that is off the list. -/
theorem resize (h : Rep s d F A) {b : Nat × Nat} (hb : b ∈ A) (sz : Nat)
    (hd : ∀ c ∈ (d, 0) :: (F ++ A.erase b), Disj (b.1, sz) c)
    (hbd : b.1 + header_size + sz ≤ WORD) :
    Rep { s with mem := store s.mem b.1 sz } d F ((b.1, sz) :: A.erase b) := by
  have hsub : ((d, 0) :: (F ++ A.erase b)).Sublist ((d, 0) :: (F ++ A)) :=
    List.Sublist.cons₂ _ (List.Sublist.append_left (List.erase_sublist b A) F)
  have hne : ∀ c ∈ (d, 0) :: (F ++ A.erase b), b.1 + 24 ≤ c.1 ∨ c.1 + 24 ≤ b.1 := by
    intro c hc
    have := (hd c hc).arith
    simp only at this
    omega
  have hbnz : b.1 ≠ 0 := (h.bound b (List.mem_cons_of_mem _ (List.mem_append_right _ hb))).1
  refine ⟨h.head, ?_, ?_, ?_, ?_, ?_, ?_⟩
  · apply chain_frame s.mem _ _ d _ _ h.links
    · have := hne (d, 0) (List.mem_cons_self _ _)
      exact store_other _ _ _ _ (by simp only at this; omega)
    · intro n hn
      have := h.alloc_word hb (List.mem_cons_of_mem _ hn)
      exact ⟨store_other _ _ _ _ (by omega), store_other _ _ _ _ (by omega)⟩
  · have := hne (d, 0) (List.mem_cons_self _ _)
    show store s.mem b.1 sz (d + 16) = 0
    rw [store_other _ _ _ _ (by simp only at this; omega), h.dprev]
  · intro c hc
    show store s.mem b.1 sz c.1 = c.2
    have hc2 : c = (b.1, sz) ∨ c ∈ F ++ A.erase b := by
      rcases List.mem_append.mp hc with e | e
      · exact Or.inr (List.mem_append_left _ e)
      · rcases List.mem_cons.mp e with e2 | e2
        · exact Or.inl e2
        · exact Or.inr (List.mem_append_right _ e2)
    rcases hc2 with e | e
    · rw [e]; exact store_same _ _ _
    · have := hne c (List.mem_cons_of_mem _ e)
      rw [store_other _ _ _ _ (by omega)]
      apply h.sizes
      exact (List.mem_cons.mp (hsub.subset (List.mem_cons_of_mem _ e))).resolve_left (by
        intro e3
        have := hne (d, 0) (List.mem_cons_self _ _)
        have hnd := (List.pairwise_cons.mp h.disj).1 c (by
          rcases List.mem_append.mp e with e4 | e4
          · exact List.mem_append_left _ e4
          · exact List.mem_append_right _ (List.mem_of_mem_erase e4))
        exact hnd.ne e3.symm)
  · intro c hc
    show store s.mem b.1 sz (c.1 + 8) = 0 ∧ store s.mem b.1 sz (c.1 + 16) = 0
    rcases List.mem_cons.mp hc with e | e
    · rw [e]
      simp only
      rw [store_other _ _ _ _ (by omega), store_other _ _ _ _ (by omega)]
      exact h.alinks b hb
    · have := hne c (List.mem_cons_of_mem _ (List.mem_append_right _ e))
      rw [store_other _ _ _ _ (by omega), store_other _ _ _ _ (by omega)]
      exact h.alinks c (List.mem_of_mem_erase e)
  · apply (List.Perm.pairwise_iff (fun hxy => Disj.symm hxy)
      (move_front (b.1, sz) F (A.erase b))).mpr
    exact List.pairwise_cons.mpr ⟨hd, h.disj.sublist hsub⟩
  · intro c hc
    rcases List.mem_cons.mp ((move_front (b.1, sz) F (A.erase b)).mem_iff.mp hc) with e | e
    · rw [e]; exact ⟨hbnz, hbd⟩
    · exact h.bound c (hsub.subset e)

/-- Writing a fresh header (size, null links) into bytes no block occupies. -/
theorem fresh (h : Rep s d F A) (n sz : Nat) (hn : n ≠ 0)
    (hd : ∀ c ∈ (d, 0) :: (F ++ A), Disj (n, sz) c)
    (hbd : n + header_size + sz ≤ WORD) :
    Rep { s with mem := store (store (store s.mem n sz) (n + 8) 0) (n + 16) 0 } d F
      ((n, sz) :: A) := by
  have hne : ∀ c ∈ (d, 0) :: (F ++ A), n + 24 ≤ c.1 ∨ c.1 + 24 ≤ n := by
    intro c hc
    have := (hd c hc).arith
    simp only at this
    omega
  have hw : ∀ w, (w + 8 ≤ n ∨ n + 24 ≤ w) →
      store (store (store s.mem n sz) (n + 8) 0) (n + 16) 0 w = s.mem w := by
    intro w hw
    rw [store_other _ _ _ _ (by omega), store_other _ _ _ _ (by omega),
      store_other _ _ _ _ (by omega)]
  have hdn := hne (d, 0) (List.mem_cons_self _ _)
  simp only at hdn
  refine ⟨h.head, ?_, ?_, ?_, ?_, ?_, ?_⟩
  · apply chain_frame s.mem _ _ d _ _ h.links
    · exact hw _ (by omega)
    · intro c hc
      obtain ⟨a, ha, rfl⟩ := h.node_block (List.mem_cons_of_mem _ hc)
      have := hne a (mem_all_of_node ha)
      exact ⟨hw _ (by omega), hw _ (by omega)⟩
  · show store (store (store s.mem n sz) (n + 8) 0) (n + 16) 0 (d + 16) = 0
    rw [hw _ (by omega), h.dprev]
  · intro c hc
    show store (store (store s.mem n sz) (n + 8) 0) (n + 16) 0 c.1 = c.2
    have hc2 : c = (n, sz) ∨ c ∈ F ++ A := by
      rcases List.mem_append.mp hc with e | e
      · exact Or.inr (List.mem_append_left _ e)
      · rcases List.mem_cons.mp e with e2 | e2
        · exact Or.inl e2
        · exact Or.inr (List.mem_append_right _ e2)
    rcases hc2 with e | e
    · rw [e]
      simp only
      rw [store_other _ _ _ _ (by omega), store_other _ _ _ _ (by omega), store_same]
    · have := hne c (List.mem_cons_of_mem _ e)
      rw [hw _ (by omega)]
      exact h.sizes c e
  · intro c hc
    show store (store (store s.mem n sz) (n + 8) 0) (n + 16) 0 (c.1 + 8) = 0 ∧
      store (store (store s.mem n sz) (n + 8) 0) (n + 16) 0 (c.1 + 16) = 0
    rcases List.mem_cons.mp hc with e | e
    · rw [e]
      simp only
      rw [store_other _ _ _ _ (by omega), store_same, store_same]
      exact ⟨rfl, rfl⟩
    · have := hne c (List.mem_cons_of_mem _ (List.mem_append_right _ e))
      rw [hw _ (by omega), hw _ (by omega)]
      exact h.alinks c e
  · apply (List.Perm.pairwise_iff (fun hxy => Disj.symm hxy) (move_front (n, sz) F A)).mpr
    exact List.pairwise_cons.mpr ⟨hd, h.disj⟩
  · intro c hc
    rcases List.mem_cons.mp ((move_front (n, sz) F A).mem_iff.mp hc) with e | e
    · rw [e]; exact ⟨hn, hbd⟩
    · exact h.bound c e

end Rep

/-! ## The loops on a well-formed free list -/

/-- The best-fit loop computes `bestFit` on the list of free blocks; it returns
as soon as the fuel exceeds the length of the list. -/
theorem best_fit_loop_spec (size : Nat) (m : Nat → Nat) : ∀ (F : List (Nat × Nat))
    (p fuel : Nat) (best : Option (Nat × Nat)) (md : Nat),
    chain m p (F.map Prod.fst) → (∀ b ∈ F, m b.1 = b.2) →
    (F.length < fuel →
      best_fit_loop size m fuel (m (p + 8)) (hdr best) md = some (hdr (bestFit size F best md))) ∧
    (∀ r, best_fit_loop size m fuel (m (p + 8)) (hdr best) md = some r →
      r = hdr (bestFit size F best md))
  | [], p, fuel, best, md, hc, _ => by
    simp only [List.map_nil, chain] at hc
    cases fuel with
    | zero => simp [best_fit_loop]
    | succ f => simp [best_fit_loop, hc, bestFit]
  | b :: rest, p, fuel, best, md, hc, hs => by
    simp only [List.map_cons, chain] at hc
    obtain ⟨c1, c2, _, c4⟩ := hc
    have hb := hs b (List.mem_cons_self _ _)
    have hs2 : ∀ c ∈ rest, m c.1 = c.2 := fun c hc => hs c (List.mem_cons_of_mem _ hc)
    cases fuel with
    | zero => simp [best_fit_loop]
    | succ f =>
      have ih1 := best_fit_loop_spec size m rest b.1 f (some b) (b.2 - size) c4 hs2
      have ih2 := best_fit_loop_spec size m rest b.1 f best md c4 hs2
      simp only [hdr] at ih1
      rw [c1]
      simp only [best_fit_loop, if_neg c2, hb, bestFit, List.length_cons,
        Nat.add_lt_add_iff_right]
      by_cases h1 : size ≤ b.2
      · simp only [if_pos h1]
        by_cases h2 : b.2 - size < md
        · simp only [if_pos h2]
          by_cases h3 : b.2 - size = 0
          · simp only [if_pos h3, hdr]
            exact ⟨fun _ => trivial, fun r hr => (Option.some.inj hr).symm⟩
          · simp only [if_neg h3]
            exact ih1
        · simp only [if_neg h2]
          exact ih2
      · simp only [if_neg h1]
        exact ih2

/-- The first loop of `my_free` finds the first free block at the candidate
address. -/
theorem find_next_loop_spec (m : Nat → Nat) (target : Nat) : ∀ (F : List (Nat × Nat))
    (p fuel : Nat), chain m p (F.map Prod.fst) →
    (F.length < fuel →
      find_next_loop m target fuel (m (p + 8)) =
        some ((findAt target F).isSome, hdr (findAt target F))) ∧
    (∀ r, find_next_loop m target fuel (m (p + 8)) = some r →
      r = ((findAt target F).isSome, hdr (findAt target F)))
  | [], p, fuel, hc => by
    simp only [List.map_nil, chain] at hc
    cases fuel with
    | zero => simp [find_next_loop]
    | succ f =>
      simp [find_next_loop, hc, findAt, hdr]
  | b :: rest, p, fuel, hc => by
    simp only [List.map_cons, chain] at hc
    obtain ⟨c1, c2, _, c4⟩ := hc
    cases fuel with
    | zero => simp [find_next_loop]
    | succ f =>
      have ih := find_next_loop_spec m target rest b.1 f c4
      rw [c1]
      simp only [find_next_loop, if_neg c2, List.length_cons, Nat.add_lt_add_iff_right]
      by_cases h1 : b.1 = target
      · have e : findAt target (b :: rest) = some b := by
          unfold findAt
          rw [List.find?_cons_of_pos _ (by simpa using h1)]
        rw [e]
        simp only [if_pos h1, Option.isSome_some, hdr]
        exact ⟨fun _ => trivial, fun r hr => (Option.some.inj hr).symm⟩
      · have e : findAt target (b :: rest) = findAt target rest := by
          unfold findAt
          rw [List.find?_cons_of_neg _ (by simpa using h1)]
        rw [e]
        simp only [if_neg h1]
        exact ih

/-- The second loop of `my_free` finds the first free block ending at the
freed header. -/
theorem find_prev_loop_spec (m : Nat → Nat) (target : Nat) (ht : target ≠ 0)
    (ht2 : target < WORD) : ∀ (F : List (Nat × Nat))
    (p fuel : Nat), chain m p (F.map Prod.fst) → (∀ b ∈ F, m b.1 = b.2) →
    (∀ b ∈ F, b.1 + header_size + b.2 ≤ WORD) →
    (F.length < fuel →
      find_prev_loop m target fuel (m (p + 8)) =
        some ((findEndingAt target F).isSome, hdr (findEndingAt target F))) ∧
    (∀ r, find_prev_loop m target fuel (m (p + 8)) = some r →
      r = ((findEndingAt target F).isSome, hdr (findEndingAt target F)))
  | [], p, fuel, hc, _, _ => by
    simp only [List.map_nil, chain] at hc
    cases fuel with
    | zero => simp [find_prev_loop]
    | succ f =>
      simp [find_prev_loop, hc, findEndingAt, hdr]
  | b :: rest, p, fuel, hc, hs, hbd => by
    simp only [List.map_cons, chain] at hc
    obtain ⟨c1, c2, _, c4⟩ := hc
    have hb := hs b (List.mem_cons_self _ _)
    have hbb := hbd b (List.mem_cons_self _ _)
    cases fuel with
    | zero => simp [find_prev_loop]
    | succ f =>
      have ih := find_prev_loop_spec m target ht ht2 rest b.1 f c4
        (fun c hc => hs c (List.mem_cons_of_mem _ hc))
        (fun c hc => hbd c (List.mem_cons_of_mem _ hc))
      rw [c1]
      simp only [find_prev_loop, if_neg c2, List.length_cons, Nat.add_lt_add_iff_right, hb]
      have hiff : add64 (add64 b.1 header_size) b.2 = target ↔ b.1 + header_size + b.2 = target := by
        simp only [add64, WORD, header_size] at *
        omega
      by_cases h1 : b.1 + header_size + b.2 = target
      · have e : findEndingAt target (b :: rest) = some b := by
          unfold findEndingAt
          rw [List.find?_cons_of_pos _ (by simpa using h1)]
        rw [e]
        simp only [if_pos (hiff.mpr h1), Option.isSome_some, hdr]
        exact ⟨fun _ => trivial, fun r hr => (Option.some.inj hr).symm⟩
      · have e : findEndingAt target (b :: rest) = findEndingAt target rest := by
          unfold findEndingAt
          rw [List.find?_cons_of_neg _ (by simpa using h1)]
        rw [e]
        simp only [if_neg (fun hh => h1 (hiff.mp hh))]
        exact ih

/-! ## Refinement: the code implements the block-list operations -/

/-- Invariant of the best-fit scan. -/
theorem bestFit_inv (size : Nat) : ∀ (F : List (Nat × Nat)) (best : Option (Nat × Nat))
    (md : Nat), (∀ b0, best = some b0 → size ≤ b0.2 ∧ b0.2 - size = md) →
    (bestFit size F best md = none →
      best = none ∧ ∀ c ∈ F, size ≤ c.2 → md ≤ c.2 - size) ∧
    (∀ b, bestFit size F best md = some b →
      (b ∈ F ∨ best = some b) ∧ size ≤ b.2 ∧ b.2 - size ≤ md ∧
        ∀ c ∈ F, size ≤ c.2 → b.2 ≤ c.2)
  | [], best, md, hbest => by
    simp only [bestFit]
    refine ⟨fun h => ⟨h, fun c hc => by simp at hc⟩, fun b hb => ?_⟩
    have := hbest b hb
    exact ⟨Or.inr hb, this.1, by omega, fun c hc => by simp at hc⟩
  | a :: rest, best, md, hbest => by
    simp only [bestFit]
    by_cases h1 : size ≤ a.2
    · simp only [if_pos h1]
      by_cases h2 : a.2 - size < md
      · simp only [if_pos h2]
        by_cases h3 : a.2 - size = 0
        · simp only [if_pos h3]
          refine ⟨fun h => by simp at h, fun b hb => ?_⟩
          have e : a = b := Option.some.inj hb
          subst e
          refine ⟨Or.inl (List.mem_cons_self _ _), h1, by omega, fun c _ hc => by omega⟩
        · simp only [if_neg h3]
          have ih := bestFit_inv size rest (some a) (a.2 - size)
            (fun b0 hb0 => by rw [← Option.some.inj hb0]; exact ⟨h1, rfl⟩)
          refine ⟨fun h => by have := (ih.1 h).1; simp at this, fun b hb => ?_⟩
          obtain ⟨i1, i2, i3, i4⟩ := ih.2 b hb
          refine ⟨?_, i2, by omega, ?_⟩
          · rcases i1 with e | e
            · exact Or.inl (List.mem_cons_of_mem _ e)
            · rw [← Option.some.inj e]; exact Or.inl (List.mem_cons_self _ _)
          · intro c hc hcs
            rcases List.mem_cons.mp hc with e | e
            · rw [e]; omega
            · exact i4 c e hcs
      · simp only [if_neg h2]
        have ih := bestFit_inv size rest best md hbest
        refine ⟨fun h => ?_, fun b hb => ?_⟩
        · obtain ⟨i1, i2⟩ := ih.1 h
          refine ⟨i1, fun c hc hcs => ?_⟩
          rcases List.mem_cons.mp hc with e | e
          · rw [e]; omega
          · exact i2 c e hcs
        · obtain ⟨i1, i2, i3, i4⟩ := ih.2 b hb
          refine ⟨?_, i2, i3, ?_⟩
          · rcases i1 with e | e
            · exact Or.inl (List.mem_cons_of_mem _ e)
            · exact Or.inr e
          · intro c hc hcs
            rcases List.mem_cons.mp hc with e | e
            · rw [e]; omega
            · exact i4 c e hcs
    · simp only [if_neg h1]
      have ih := bestFit_inv size rest best md hbest
      refine ⟨fun h => ?_, fun b hb => ?_⟩
      · obtain ⟨i1, i2⟩ := ih.1 h
        refine ⟨i1, fun c hc hcs => ?_⟩
        rcases List.mem_cons.mp hc with e | e
        · rw [e] at hcs; exact absurd hcs h1
        · exact i2 c e hcs
      · obtain ⟨i1, i2, i3, i4⟩ := ih.2 b hb
        refine ⟨?_, i2, i3, ?_⟩
        · rcases i1 with e | e
          · exact Or.inl (List.mem_cons_of_mem _ e)
          · exact Or.inr e
        · intro c hc hcs
          rcases List.mem_cons.mp hc with e | e
          · rw [e] at hcs; exact absurd hcs h1
          · exact i4 c e hcs

/-- A successful scan returns a smallest sufficient free block. -/
theorem bestFit_some {size : Nat} {F : List (Nat × Nat)} {b : Nat × Nat}
    (h : bestFit size F none SIZE_MAX = some b) :
    b ∈ F ∧ size ≤ b.2 ∧ ∀ c ∈ F, size ≤ c.2 → b.2 ≤ c.2 := by
  obtain ⟨i1, i2, _, i4⟩ := (bestFit_inv size F none SIZE_MAX (fun b0 hb0 => by simp at hb0)).2 b h
  refine ⟨?_, i2, i4⟩
  rcases i1 with e | e
  · exact e
  · simp at e

/-- A failed scan means no free block is large enough. -/
theorem bestFit_none {size : Nat} {F : List (Nat × Nat)}
    (hF : ∀ c ∈ F, c.2 < SIZE_MAX) (h : bestFit size F none SIZE_MAX = none) :
    ∀ c ∈ F, c.2 < size := by
  intro c hc
  by_contra hcon
  have := (bestFit_inv size F none SIZE_MAX (fun b0 hb0 => by simp at hb0)).1 h
  have h2 := this.2 c hc (by omega)
  have := hF c hc
  omega

theorem findAt_some {addr : Nat} {F : List (Nat × Nat)} {r : Nat × Nat}
    (h : findAt addr F = some r) : r ∈ F ∧ r.1 = addr := by
  unfold findAt at h
  exact ⟨List.mem_of_find?_eq_some h, by simpa using List.find?_some h⟩

theorem findEndingAt_some {addr : Nat} {F : List (Nat × Nat)} {l : Nat × Nat}
    (h : findEndingAt addr F = some l) : l ∈ F ∧ l.1 + header_size + l.2 = addr := by
  unfold findEndingAt at h
  exact ⟨List.mem_of_find?_eq_some h, by simpa using List.find?_some h⟩

namespace Rep

variable {s : State} {d : Nat} {F A : List (Nat × Nat)}

theorem mem_bound (h : Rep s d F A) {c : Nat × Nat} (hc : c ∈ F ++ A) :
    c.1 ≠ 0 ∧ c.1 + 24 + c.2 ≤ 18446744073709551616 :=
  h.bound c (List.mem_cons_of_mem _ hc)

/-- Handing out a free block (the tail of `my_malloc`). -/
theorem carve_rep (h : Rep s d F A) {b : Nat × Nat} (hb : b ∈ F) {size : Nat}
    (hsz : size ≤ b.2) (hpos : 0 < size) :
    (my_malloc_carve size b.1 s).1 = b.1 + header_size ∧
    Rep (my_malloc_carve size b.1 s).2 d (carve size b F A).1 (carve size b F A).2 ∧
    (my_malloc_carve size b.1 s).2.mmap_calls = s.mmap_calls := by
  have hbb := h.mem_bound (List.mem_append_left A hb)
  have e1 : s.mem b.1 = b.2 := h.sizes b (List.mem_append_left A hb)
  have e2 : sub64 b.2 size = b.2 - size := by
    simp only [sub64, WORD]; omega
  have e3 : add64 b.1 header_size = b.1 + header_size := by
    simp only [add64, WORD, header_size]; omega
  have h1 := h.remove hb
  by_cases hsplit : header_size < b.2 - size
  · have e4 : add64 (b.1 + header_size) size = b.1 + header_size + size := by
      simp only [add64, WORD, header_size] at *; omega
    have e5 : sub64 (b.2 - size) header_size = b.2 - size - header_size := by
      simp only [sub64, WORD, header_size] at *; omega
    simp only [my_malloc_carve, carve, e1, e2, e3, e4, e5, if_pos hsplit]
    refine ⟨trivial, ?_, rfl⟩
    have hod := h1.others_disj (List.mem_cons_self b A)
    rw [List.erase_cons_head] at hod
    have h2 := h1.resize (List.mem_cons_self b A) size
      (by
        rw [List.erase_cons_head]
        intro c hc
        have := (hod c hc).arith
        exact Or.imp (fun x => by simp only [header_size]; omega)
          (fun x => by simp only [header_size]; omega) this)
      (by simp only [WORD, header_size] at *; omega)
    rw [List.erase_cons_head] at h2
    have h3 := h2.fresh (b.1 + header_size + size) (b.2 - size - header_size)
      (by simp only [header_size]; omega)
      (by
        intro c hc
        have hc2 : c = (b.1, size) ∨ c ∈ (d, 0) :: (F.erase b ++ A) := by
          rcases List.mem_cons.mp hc with e | e
          · exact Or.inr (e ▸ List.mem_cons_self _ _)
          · rcases List.mem_append.mp e with e | e
            · exact Or.inr (List.mem_cons_of_mem _ (List.mem_append_left _ e))
            · rcases List.mem_cons.mp e with e | e
              · exact Or.inl e
              · exact Or.inr (List.mem_cons_of_mem _ (List.mem_append_right _ e))
        rcases hc2 with e | e
        · rw [e]
          right
          simp only [header_size]
          omega
        · have := (hod c e).arith
          simp only [header_size] at hsplit
          exact Or.imp (fun x => by simp only [header_size]; omega)
            (fun x => by simp only [header_size]; omega) this)
      (by simp only [WORD, header_size] at *; omega)
    have h4 := h3.add (List.mem_cons_self _ _)
    rw [List.erase_cons_head] at h4
    exact h4
  · simp only [my_malloc_carve, carve, e1, e2, e3, if_neg hsplit]
    exact ⟨trivial, h1, rfl⟩

theorem disj_grow {x c : Nat × Nat} {n : Nat} (h1 : Disj x c) (hn : Disj (x.1 + 24 + x.2, n) c) (t : Nat)
    (ht : t = x.2 + (24 + n)) : Disj (x.1, t) c := by
  have a1 := h1.arith
  have a2 := hn.arith
  simp only at a2
  subst ht
  rcases a1 with a1 | a1 <;> rcases a2 with a2 | a2
  · left; simp only [header_size]; omega
  · left; simp only [header_size]; omega
  · left; simp only [header_size]; omega
  · right; simp only [header_size]; omega

/-- The four-way merge of `my_free`. -/
theorem merge_rep (h : Rep s d F A) {b : Nat × Nat} (hb : b ∈ A) :
    Rep (my_free_merge b.1
        ((findAt (b.1 + header_size + b.2) F).isSome, hdr (findAt (b.1 + header_size + b.2) F))
        ((findEndingAt b.1 F).isSome, hdr (findEndingAt b.1 F)) s)
      d (coalesce b F) (A.erase b) := by
  have hbb := h.mem_bound (List.mem_append_right F hb)
  have hbsz : s.mem b.1 = b.2 := h.sizes b (List.mem_append_right F hb)
  cases hl : findEndingAt b.1 F with
  | none =>
    cases hr : findAt (b.1 + header_size + b.2) F with
    | none =>
      simp only [my_free_merge, coalesce, hl, hr, Option.isSome_none, hdr, Bool.and_self,
        Bool.false_eq_true, if_false]
      exact h.add hb
    | some r =>
      obtain ⟨hrF, hr1⟩ := findAt_some hr
      simp only [my_free_merge, coalesce, hl, hr, Option.isSome_none, Option.isSome_some, hdr,
        Bool.and_false, Bool.false_eq_true, if_false, if_true]
      have h1 := h.remove hrF
      have hrb := h.mem_bound (List.mem_append_left A hrF)
      have hod_r := h1.others_disj (List.mem_cons_self r A)
      rw [List.erase_cons_head] at hod_r
      have h2 : Rep (my_remove_from_free_list r.1 s) d (F.erase r) A :=
        h1.sub_alloc (List.sublist_cons_self r A)
      have hod_b := h2.others_disj hb
      have e1 : (my_remove_from_free_list r.1 s).mem b.1 = b.2 :=
        h2.sizes b (List.mem_append_right _ hb)
      have e2 : (my_remove_from_free_list r.1 s).mem r.1 = r.2 :=
        h1.sizes r (List.mem_append_right _ (List.mem_cons_self r A))
      have e3 : add64 b.2 (add64 header_size r.2) = b.2 + (header_size + r.2) := by
        simp only [add64, WORD, header_size] at *; omega
      rw [e1, e2, e3]
      have h3 := h2.resize hb (b.2 + (header_size + r.2))
        (by
          intro c hc
          apply disj_grow (hod_b c hc) _ _ rfl
          have hc2 : c ∈ (d, 0) :: (F.erase r ++ A) := by
            rcases List.mem_cons.mp hc with e | e
            · exact e ▸ List.mem_cons_self _ _
            · rcases List.mem_append.mp e with e | e
              · exact List.mem_cons_of_mem _ (List.mem_append_left _ e)
              · exact List.mem_cons_of_mem _
                  (List.mem_append_right _ (List.mem_of_mem_erase e))
          have := hod_r c hc2
          simp only [header_size] at hr1
          rw [← hr1]
          exact this)
        (by simp only [WORD, header_size] at *; omega)
      have h4 := h3.add (List.mem_cons_self _ _)
      rw [List.erase_cons_head] at h4
      exact h4
  | some l =>
    obtain ⟨hlF, hl1⟩ := findEndingAt_some hl
    have hlb := h.mem_bound (List.mem_append_left A hlF)
    have hlbne : l ≠ b := (h.cross (List.mem_cons_of_mem _ hlF) hb).ne
    cases hr : findAt (b.1 + header_size + b.2) F with
    | none =>
      simp only [my_free_merge, coalesce, hl, hr, Option.isSome_none, Option.isSome_some, hdr,
        Bool.and_true, Bool.false_eq_true, if_false, if_true]
      have h1 := h.remove hlF
      have hbA : b ∈ l :: A := List.mem_cons_of_mem _ hb
      have hod_b := h1.others_disj hbA
      rw [List.erase_cons_tail (by simpa using hlbne)] at hod_b
      have h2 : Rep (my_remove_from_free_list l.1 s) d (F.erase l) (l :: A.erase b) :=
        h1.sub_alloc (List.Sublist.cons₂ l (List.erase_sublist b A))
      have hod_l := h2.others_disj (List.mem_cons_self l _)
      rw [List.erase_cons_head] at hod_l
      have e1 : (my_remove_from_free_list l.1 s).mem b.1 = b.2 :=
        h1.sizes b (List.mem_append_right _ hbA)
      have e2 : (my_remove_from_free_list l.1 s).mem l.1 = l.2 :=
        h1.sizes l (List.mem_append_right _ (List.mem_cons_self l A))
      have e3 : add64 l.2 (add64 header_size b.2) = l.2 + (header_size + b.2) := by
        simp only [add64, WORD, header_size] at *; omega
      rw [e1, e2, e3]
      have h3 := h2.resize (List.mem_cons_self l _) (l.2 + (header_size + b.2))
        (by
          rw [List.erase_cons_head]
          intro c hc
          apply disj_grow (hod_l c hc) _ _ rfl
          have hc2 : c ∈ (d, 0) :: (F.erase l ++ l :: A.erase b) := by
            rcases List.mem_cons.mp hc with e | e
            · exact e ▸ List.mem_cons_self _ _
            · rcases List.mem_append.mp e with e | e
              · exact List.mem_cons_of_mem _ (List.mem_append_left _ e)
              · exact List.mem_cons_of_mem _
                  (List.mem_append_right _ (List.mem_cons_of_mem _ e))
          have := hod_b c hc2
          simp only [header_size] at hl1
          rw [hl1]
          exact this)
        (by simp only [WORD, header_size] at *; omega)
      rw [List.erase_cons_head] at h3
      have h4 := h3.add (List.mem_cons_self _ _)
      rw [List.erase_cons_head] at h4
      exact h4
    | some r =>
      obtain ⟨hrF, hr1⟩ := findAt_some hr
      have hrb := h.mem_bound (List.mem_append_left A hrF)
      have hrbne : r ≠ b := (h.cross (List.mem_cons_of_mem _ hrF) hb).ne
      have hlr : r ≠ l := by
        intro e
        rw [e] at hr1
        simp only [header_size] at *
        omega
      simp only [my_free_merge, coalesce, hl, hr, Option.isSome_some, hdr,
        Bool.and_true, if_true]
      have h1 := h.remove hlF
      have hrF2 : r ∈ F.erase l := (List.mem_erase_of_ne hlr).mpr hrF
      have h2 := h1.remove hrF2
      have hbA : b ∈ r :: l :: A := List.mem_cons_of_mem _ (List.mem_cons_of_mem _ hb)
      have hod_b := h2.others_disj hbA
      rw [List.erase_cons_tail (by simpa using hrbne),
        List.erase_cons_tail (by simpa using hlbne)] at hod_b
      have hod_r := h2.others_disj (List.mem_cons_self r _)
      rw [List.erase_cons_head] at hod_r
      have h3 : Rep (my_remove_from_free_list r.1 (my_remove_from_free_list l.1 s)) d
          ((F.erase l).erase r) (l :: A.erase b) :=
        h2.sub_alloc (List.Sublist.cons _ (List.Sublist.cons₂ l (List.erase_sublist b A)))
      have hod_l := h3.others_disj (List.mem_cons_self l _)
      rw [List.erase_cons_head] at hod_l
      have e1 : (my_remove_from_free_list r.1 (my_remove_from_free_list l.1 s)).mem b.1 = b.2 :=
        h2.sizes b (List.mem_append_right _ hbA)
      have e2 : (my_remove_from_free_list r.1 (my_remove_from_free_list l.1 s)).mem l.1 = l.2 :=
        h3.sizes l (List.mem_append_right _ (List.mem_cons_self l _))
      have e4 : (my_remove_from_free_list r.1 (my_remove_from_free_list l.1 s)).mem r.1 = r.2 :=
        h2.sizes r (List.mem_append_right _ (List.mem_cons_self r _))
      have e3 : add64 l.2 (add64 (add64 (add64 header_size b.2) header_size) r.2) =
          l.2 + (header_size + b.2 + header_size + r.2) := by
        simp only [add64, WORD, header_size] at *; omega
      rw [e1, e2, e4, e3]
      have h4 := h3.resize (List.mem_cons_self l _) (l.2 + (header_size + b.2 + header_size + r.2))
        (by
          rw [List.erase_cons_head]
          intro c hc
          have hcb : Disj b c := by
            apply hod_b
            rcases List.mem_cons.mp hc with e | e
            · exact e ▸ List.mem_cons_self _ _
            · rcases List.mem_append.mp e with e | e
              · exact List.mem_cons_of_mem _ (List.mem_append_left _ e)
              · exact List.mem_cons_of_mem _ (List.mem_append_right _
                  (List.mem_cons_of_mem _ (List.mem_cons_of_mem _ e)))
          have hcr : Disj r c := by
            apply hod_r
            rcases List.mem_cons.mp hc with e | e
            · exact e ▸ List.mem_cons_self _ _
            · rcases List.mem_append.mp e with e | e
              · exact List.mem_cons_of_mem _ (List.mem_append_left _ e)
              · exact List.mem_cons_of_mem _ (List.mem_append_right _
                  (List.mem_cons_of_mem _ (List.mem_of_mem_erase e)))
          have a1 := (hod_l c hc).arith
          have a2 := hcb.arith
          have a3 := hcr.arith
          have hl2 : l.1 + 24 + l.2 = b.1 := hl1
          have hr2 : r.1 = b.1 + 24 + b.2 := hr1
          rcases a1 with a1 | a1
          · exact Or.inl (by show l.1 + 24 + (l.2 + (24 + b.2 + 24 + r.2)) ≤ c.1; omega)
          · rcases a3 with a3 | a3
            · exact Or.inl (by show l.1 + 24 + (l.2 + (24 + b.2 + 24 + r.2)) ≤ c.1; omega)
            · exact Or.inr (by show c.1 + 24 + c.2 ≤ l.1; omega))
        (by simp only [WORD, header_size] at *; omega)
      rw [List.erase_cons_head] at h4
      have h5 := h4.add (List.mem_cons_self _ _)
      rw [List.erase_cons_head] at h5
      exact h5

end Rep

/-! ## The public operations on a well-formed heap -/

theorem merge_mmap_calls (metadata : Nat) (nxt prv : Bool × Nat) (s : State) :
    (my_free_merge metadata nxt prv s).mmap_calls = s.mmap_calls := by
  unfold my_free_merge
  split_ifs <;> rfl

theorem merge_free_head (metadata : Nat) (nxt prv : Bool × Nat) (s : State) :
    (my_free_merge metadata nxt prv s).free_head = s.free_head := by
  unfold my_free_merge
  split_ifs <;> rfl

theorem bestFit_skip (size : Nat) : ∀ (F : List (Nat × Nat)) (best : Option (Nat × Nat))
    (md : Nat), (∀ c ∈ F, c.2 < size) → bestFit size F best md = best
  | [], _, _, _ => rfl
  | a :: rest, best, md, h => by
    have ha := h a (List.mem_cons_self _ _)
    simp only [bestFit, if_neg (Nat.not_le.mpr ha)]
    exact bestFit_skip size rest best md (fun c hc => h c (List.mem_cons_of_mem _ hc))

/-- After a failed scan the block of a fresh 4096-byte region is the best fit. -/
theorem bestFit_fresh {size : Nat} {F : List (Nat × Nat)} (r : Nat) (hsz : size ≤ 4000)
    (hsmall : ∀ c ∈ F, c.2 < size) :
    bestFit size ((r, 4072) :: F) none SIZE_MAX = some (r, 4072) := by
  have e1 : size ≤ 4072 := by omega
  have e2 : 4072 - size < SIZE_MAX := by simp only [SIZE_MAX]; omega
  have e3 : ¬ (4072 - size = 0) := by omega
  simp only [bestFit, if_pos e1, if_pos e2, if_neg e3]
  exact bestFit_skip size F _ _ hsmall

namespace Rep

variable {s : State} {d : Nat} {F A : List (Nat × Nat)}

/-- The state after `my_initialize` is a well-formed empty heap. -/
theorem init_rep (dummy : Nat) (s : State) (h1 : dummy ≠ 0) (h2 : dummy + header_size ≤ WORD) :
    Rep ( my_initialize dummy s) dummy [] [] := by
  refine ⟨rfl, ?_, ?_, ?_, ?_, ?_, ?_⟩
  · show store (store (store s.mem dummy 0) (dummy + 8) 0) (dummy + 16) 0 (dummy + 8) = 0
    rw [store_other _ _ _ _ (by omega), store_same]
  · show store (store (store s.mem dummy 0) (dummy + 8) 0) (dummy + 16) 0 (dummy + 16) = 0
    rw [store_same]
  · intro b hb; simp at hb
  · intro b hb; simp at hb
  · simp
  · intro b hb
    simp only [List.append_nil, List.mem_singleton] at hb
    rw [hb]
    exact ⟨h1, h2⟩

theorem free_size_lt (h : Rep s d F A) : ∀ c ∈ F, c.2 < SIZE_MAX := by
  intro c hc
  have := h.mem_bound (List.mem_append_left A hc)
  simp only [SIZE_MAX]
  omega

/-- The search of `my_malloc` on a well-formed heap. -/
theorem scan (h : Rep s d F A) (size fuel : Nat) :
    (F.length < fuel →
      best_fit_loop size s.mem fuel (s.mem (s.free_head + 8)) 0 SIZE_MAX =
        some (hdr (bestFit size F none SIZE_MAX))) ∧
    (∀ r, best_fit_loop size s.mem fuel (s.mem (s.free_head + 8)) 0 SIZE_MAX = some r →
      r = hdr (bestFit size F none SIZE_MAX)) := by
  have := best_fit_loop_spec size s.mem F d fuel none SIZE_MAX h.links
    (fun b hb => h.sizes b (List.mem_append_left A hb))
  rw [h.head]
  exact this

/-- The call `my_malloc` when a free block fits: no provider call, the best fit is carved. -/
theorem malloc_hit (h : Rep s d F A) {size : Nat} {b : Nat × Nat}
    (hbf : bestFit size F none SIZE_MAX = some b) (fuel : Nat) (oracle : List Nat) :
    (F.length < fuel → my_malloc fuel size oracle s = some (my_malloc_carve size b.1 s)) ∧
    (∀ r, my_malloc fuel size oracle s = some r → r = my_malloc_carve size b.1 s) := by
  have hsc := h.scan size fuel
  rw [hbf] at hsc
  simp only [hdr] at hsc
  have hbF := (bestFit_some hbf).1
  have hbnz : b.1 ≠ 0 := (h.mem_bound (List.mem_append_left A hbF)).1
  constructor
  · intro hf
    have e := hsc.1 hf
    cases oracle with
    | nil => simp only [my_malloc, e, if_neg hbnz]
    | cons r rest => simp only [my_malloc, e, if_neg hbnz]
  · intro r hr
    cases hl : best_fit_loop size s.mem fuel (s.mem (s.free_head + 8)) 0 SIZE_MAX with
    | none =>
      cases oracle with
      | nil => simp [my_malloc, hl] at hr
      | cons r rest => simp [my_malloc, hl] at hr
    | some v =>
      have hv := hsc.2 v hl
      subst hv
      cases oracle with
      | nil =>
        simp only [my_malloc, hl, if_neg hbnz] at hr
        exact (Option.some.inj hr).symm
      | cons r rest =>
        simp only [my_malloc, hl, if_neg hbnz] at hr
        exact (Option.some.inj hr).symm

theorem buffer_size_small {size : Nat} (h : size ≤ 4000) : buffer_size size = 4096 := by
  have e : add64 size header_size = size + 24 := by
    simp only [add64, WORD, header_size]; omega
  have e2 : ¬ (4096 < size + 24) := by omega
  simp only [buffer_size, e, if_neg e2]
  decide

/-- The region-acquisition branch of `my_malloc` for a request of at most 4000
bytes: a 4096-byte region becomes one free block at the head of the list. -/
theorem acquire (h : Rep s d F A) {size : Nat} (hsz : size ≤ 4000) (r : Nat) (hr : r ≠ 0)
    (hrb : r + 4096 ≤ WORD) (hfresh : ∀ c ∈ (d, 0) :: (F ++ A), Disj (r, 4072) c) :
    Rep (my_malloc_acquire size r s) d ((r, 4072) :: F) A ∧
    (my_malloc_acquire size r s).mmap_calls = (r, 4096) :: s.mmap_calls := by
  have e1 : sub64 4096 header_size = 4072 := by decide
  simp only [my_malloc_acquire, buffer_size_small hsz, e1]
  refine ⟨?_, rfl⟩
  have h0 : Rep { s with mmap_calls := (r, 4096) :: s.mmap_calls } d F A := h.congr rfl rfl
  have h1 := h0.fresh r 4072 hr hfresh (by simp only [WORD, header_size] at *; omega)
  have h2 := h1.add (List.mem_cons_self _ _)
  rw [List.erase_cons_head] at h2
  exact h2

/-- The call `my_malloc` when no free block fits (requests of at most 4000 bytes): one
region is acquired and the retry carves its block. -/
theorem malloc_miss (h : Rep s d F A) {size : Nat} (hsz : size ≤ 4000)
    (hbf : bestFit size F none SIZE_MAX = none) (r : Nat) (hr : r ≠ 0)
    (hrb : r + 4096 ≤ WORD) (hfresh : ∀ c ∈ (d, 0) :: (F ++ A), Disj (r, 4072) c)
    (fuel : Nat) (oracle : List Nat) :
    (F.length + 1 < fuel → my_malloc fuel size (r :: oracle) s =
      some (my_malloc_carve size r (my_malloc_acquire size r s))) ∧
    (∀ x, my_malloc fuel size (r :: oracle) s = some x →
      x = my_malloc_carve size r (my_malloc_acquire size r s)) := by
  have hsc := h.scan size fuel
  rw [hbf] at hsc
  simp only [hdr] at hsc
  have hacq := (h.acquire hsz r hr hrb hfresh).1
  have hsmall := bestFit_none h.free_size_lt hbf
  have hbf2 := bestFit_fresh r hsz hsmall
  have hhit := hacq.malloc_hit hbf2 fuel oracle
  constructor
  · intro hf
    have e := hsc.1 (by omega)
    simp only [my_malloc, e, if_true]
    exact hhit.1 (by simpa using hf)
  · intro x hx
    cases hl : best_fit_loop size s.mem fuel (s.mem (s.free_head + 8)) 0 SIZE_MAX with
    | none => simp [my_malloc, hl] at hx
    | some v =>
      have hv := hsc.2 v hl
      subst hv
      simp only [my_malloc, hl, if_true] at hx
      exact hhit.2 x hx

/-- After a failed scan `my_malloc` continues on the heap extended by a region. -/
theorem miss_unfold (h : Rep s d F A) {size : Nat}
    (hbf : bestFit size F none SIZE_MAX = none) {fuel r : Nat} {oracle : List Nat}
    {x : Nat × State} (hx : my_malloc fuel size (r :: oracle) s = some x) :
    my_malloc fuel size oracle (my_malloc_acquire size r s) = some x := by
  have hsc := h.scan size fuel
  rw [hbf] at hsc
  simp only [hdr] at hsc
  cases hl : best_fit_loop size s.mem fuel (s.mem (s.free_head + 8)) 0 SIZE_MAX with
  | none => simp [my_malloc, hl] at hx
  | some v =>
    have hv := hsc.2 v hl
    subst hv
    simp only [my_malloc, hl, if_true] at hx
    exact hx

theorem findAt_wrap (h : Rep s d F A) {b : Nat × Nat} (hb : b ∈ A) :
    findAt (add64 (add64 b.1 header_size) b.2) F = findAt (b.1 + header_size + b.2) F := by
  have hbb := h.mem_bound (List.mem_append_right F hb)
  by_cases hw : b.1 + 24 + b.2 = 18446744073709551616
  · have e1 : add64 (add64 b.1 header_size) b.2 = 0 := by
      simp only [add64, WORD, header_size]; omega
    have n1 : findAt 0 F = none := by
      unfold findAt
      rw [List.find?_eq_none]
      intro c hc
      have := (h.mem_bound (List.mem_append_left A hc)).1
      simpa using this
    have n2 : findAt (b.1 + header_size + b.2) F = none := by
      unfold findAt
      rw [List.find?_eq_none]
      intro c hc
      have := (h.mem_bound (List.mem_append_left A hc)).2
      simp only [header_size, beq_iff_eq]
      omega
    rw [e1, n1, n2]
  · have e1 : add64 (add64 b.1 header_size) b.2 = b.1 + header_size + b.2 := by
      simp only [add64, WORD, header_size]; omega
    rw [e1]

/-- The call `my_free` of an allocated block on a well-formed heap. -/
theorem free_run (h : Rep s d F A) {b : Nat × Nat} (hb : b ∈ A) (hpos : 0 < b.2) (fuel : Nat) :
    (F.length < fuel → my_free fuel (b.1 + header_size) s = some (my_free_merge b.1
        ((findAt (b.1 + header_size + b.2) F).isSome, hdr (findAt (b.1 + header_size + b.2) F))
        ((findEndingAt b.1 F).isSome, hdr (findEndingAt b.1 F)) s)) ∧
    (∀ x, my_free fuel (b.1 + header_size) s = some x → x = my_free_merge b.1
        ((findAt (b.1 + header_size + b.2) F).isSome, hdr (findAt (b.1 + header_size + b.2) F))
        ((findEndingAt b.1 F).isSome, hdr (findEndingAt b.1 F)) s) := by
  have hbb := h.mem_bound (List.mem_append_right F hb)
  have e1 : sub64 (b.1 + header_size) header_size = b.1 := by
    simp only [sub64, WORD, header_size]; omega
  have e2 : s.mem b.1 = b.2 := h.sizes b (List.mem_append_right F hb)
  have hn := find_next_loop_spec s.mem (add64 (add64 b.1 header_size) b.2) F d fuel h.links
  rw [h.findAt_wrap hb] at hn
  have hp := find_prev_loop_spec s.mem b.1 hbb.1 (by simp only [WORD]; omega) F d fuel h.links
    (fun c hc => h.sizes c (List.mem_append_left A hc))
    (fun c hc => (h.mem_bound (List.mem_append_left A hc)).2)
  simp only [my_free, e1, e2, h.head]
  constructor
  · intro hf
    rw [hn.1 hf, hp.1 hf]
  · intro x hx
    cases h1 : find_next_loop s.mem (add64 (add64 b.1 header_size) b.2) fuel (s.mem (d + 8)) with
    | none => simp [h1] at hx
    | some v =>
      cases h2 : find_prev_loop s.mem b.1 fuel (s.mem (d + 8)) with
      | none => simp [h1, h2] at hx
      | some w =>
        rw [hn.2 v h1] at h1
        rw [hp.2 w h2] at h2
        simp only [h1, h2] at hx
        exact (Option.some.inj hx).symm

end Rep

/-! ## Geometry of the block lists -/

theorem extentSum_cons (b : Nat × Nat) (l : List (Nat × Nat)) :
    extentSum (b :: l) = 24 + b.2 + extentSum l := by
  simp [extentSum, header_size]

theorem extentSum_append (l1 l2 : List (Nat × Nat)) :
    extentSum (l1 ++ l2) = extentSum l1 + extentSum l2 := by
  simp [extentSum]

theorem extentSum_perm {l1 l2 : List (Nat × Nat)} (h : l1.Perm l2) :
    extentSum l1 = extentSum l2 :=
  (h.map _).sum_eq

theorem extentSum_erase {l : List (Nat × Nat)} {b : Nat × Nat} (h : b ∈ l) :
    extentSum l = 24 + b.2 + extentSum (l.erase b) := by
  rw [extentSum_perm (perm_cons_erase_block l b h), extentSum_cons]

/-- A property of blocks preserved by splitting is preserved by `carve`. -/
theorem carve_forall (P : Nat × Nat → Prop) {size : Nat} {b : Nat × Nat}
    {F A : List (Nat × Nat)}
    (hsplit : 24 < b.2 - size → P (b.1, size) ∧ P (b.1 + 24 + size, b.2 - size - 24))
    (hF : ∀ c ∈ F ++ A, P c) (hb : b ∈ F) :
    ∀ c ∈ (carve size b F A).1 ++ (carve size b F A).2, P c := by
  intro c hc
  unfold carve at hc
  by_cases hs : header_size < b.2 - size
  · simp only [if_pos hs] at hc
    have hs2 := hsplit hs
    rcases List.mem_append.mp hc with e | e
    · rcases List.mem_cons.mp e with e | e
      · rw [e]; exact hs2.2
      · exact hF c (List.mem_append_left _ (List.mem_of_mem_erase e))
    · rcases List.mem_cons.mp e with e | e
      · rw [e]; exact hs2.1
      · exact hF c (List.mem_append_right _ e)
  · simp only [if_neg hs] at hc
    rcases List.mem_append.mp hc with e | e
    · exact hF c (List.mem_append_left _ (List.mem_of_mem_erase e))
    · rcases List.mem_cons.mp e with e | e
      · rw [e]; exact hF b (List.mem_append_left _ hb)
      · exact hF c (List.mem_append_right _ e)

theorem carve_sum {size : Nat} {b : Nat × Nat} {F A : List (Nat × Nat)} (hb : b ∈ F)
    (hsz : size ≤ b.2) :
    extentSum ((carve size b F A).1 ++ (carve size b F A).2) = extentSum (F ++ A) := by
  unfold carve
  rw [extentSum_append F A, extentSum_erase hb]
  by_cases hs : header_size < b.2 - size
  · simp only [if_pos hs, extentSum_append, extentSum_cons]
    simp only [header_size] at hs ⊢
    omega
  · simp only [if_neg hs, extentSum_append, extentSum_cons]
    omega

/-- A property of blocks preserved by merging adjacent blocks is preserved by
`coalesce`. -/
theorem coalesce_forall (P : Nat × Nat → Prop)
    (hmerge : ∀ x y : Nat × Nat, P x → P y → x.1 + 24 + x.2 = y.1 → P (x.1, x.2 + (24 + y.2)))
    {b : Nat × Nat} {F : List (Nat × Nat)} (hF : ∀ c ∈ F, P c) (hb : P b) :
    ∀ c ∈ coalesce b F, P c := by
  intro c hc
  unfold coalesce at hc
  cases hl : findEndingAt b.1 F with
  | none =>
    cases hr : findAt (b.1 + header_size + b.2) F with
    | none =>
      simp only [hl, hr] at hc
      rcases List.mem_cons.mp hc with e | e
      · rw [e]; exact hb
      · exact hF c e
    | some r =>
      obtain ⟨hrF, hr1⟩ := findAt_some hr
      simp only [hl, hr] at hc
      rcases List.mem_cons.mp hc with e | e
      · rw [e]; exact hmerge b r hb (hF r hrF) hr1.symm
      · exact hF c (List.mem_of_mem_erase e)
  | some l =>
    obtain ⟨hlF, hl1⟩ := findEndingAt_some hl
    cases hr : findAt (b.1 + header_size + b.2) F with
    | none =>
      simp only [hl, hr] at hc
      rcases List.mem_cons.mp hc with e | e
      · rw [e]; exact hmerge l b (hF l hlF) hb hl1
      · exact hF c (List.mem_of_mem_erase e)
    | some r =>
      obtain ⟨hrF, hr1⟩ := findAt_some hr
      simp only [hl, hr] at hc
      rcases List.mem_cons.mp hc with e | e
      · rw [e]
        have h1 := hmerge l b (hF l hlF) hb hl1
        have h2 := hmerge (l.1, l.2 + (24 + b.2)) r h1 (hF r hrF)
          (by simp only [header_size] at hl1 hr1 ⊢; omega)
        have e2 : l.2 + (header_size + b.2 + header_size + r.2) =
            l.2 + (24 + b.2) + (24 + r.2) := by simp only [header_size]; omega
        rw [e2]
        exact h2
      · exact hF c (List.mem_of_mem_erase (List.mem_of_mem_erase e))

theorem coalesce_sum {b : Nat × Nat} {F : List (Nat × Nat)} :
    extentSum (coalesce b F) = 24 + b.2 + extentSum F := by
  unfold coalesce
  cases hl : findEndingAt b.1 F with
  | none =>
    cases hr : findAt (b.1 + header_size + b.2) F with
    | none => simp only [extentSum_cons]
    | some r =>
      obtain ⟨hrF, _⟩ := findAt_some hr
      simp only [extentSum_cons, extentSum_erase hrF, header_size]
      omega
  | some l =>
    obtain ⟨hlF, hl1⟩ := findEndingAt_some hl
    cases hr : findAt (b.1 + header_size + b.2) F with
    | none =>
      simp only [extentSum_cons, extentSum_erase hlF, header_size]
      omega
    | some r =>
      obtain ⟨hrF, hr1⟩ := findAt_some hr
      have hlr : r ≠ l := by
        intro e
        rw [e] at hr1
        simp only [header_size] at *
        omega
      have hrF2 : r ∈ F.erase l := (List.mem_erase_of_ne hlr).mpr hrF
      simp only [extentSum_cons, extentSum_erase hlF, extentSum_erase hrF2, header_size]
      omega

theorem Covered.mono {regions : List (Nat × Nat)} {lo hi lo2 hi2 : Nat}
    (h : Covered regions lo hi) (h1 : lo ≤ lo2) (h2 : hi2 ≤ hi) : Covered regions lo2 hi2 :=
  fun x hx1 hx2 => h x (by omega) (by omega)

theorem Covered.union {regions : List (Nat × Nat)} {lo mid hi : Nat}
    (h1 : Covered regions lo mid) (h2 : Covered regions mid hi) : Covered regions lo hi := by
  intro x hx1 hx2
  by_cases hm : x < mid
  · exact h1 x hx1 hm
  · exact h2 x (by omega) hx2

theorem Covered.cons {regions : List (Nat × Nat)} {lo hi : Nat} (r : Nat × Nat)
    (h : Covered regions lo hi) : Covered (r :: regions) lo hi := by
  intro x hx1 hx2
  obtain ⟨q, hq, hq2⟩ := h x hx1 hx2
  exact ⟨q, List.mem_cons_of_mem _ hq, hq2⟩

/-! ## The invariant of reachable states -/

theorem carve_free_head (size b : Nat) (s : State) :
    (my_malloc_carve size b s).2.free_head = s.free_head := by
  unfold my_malloc_carve
  simp only
  split_ifs <;> rfl

theorem carve_mmap_calls (size b : Nat) (s : State) :
    (my_malloc_carve size b s).2.mmap_calls = s.mmap_calls := by
  unfold my_malloc_carve
  simp only
  split_ifs <;> rfl

/-- Without provider answers `my_malloc` makes no provider call. -/
theorem malloc_nil_calls {fuel size : Nat} {s : State} {x : Nat × State}
    (h : my_malloc fuel size [] s = some x) :
    x.2.mmap_calls = s.mmap_calls ∧ x.2.free_head = s.free_head := by
  simp only [my_malloc] at h
  cases hl : best_fit_loop size s.mem fuel (s.mem (s.free_head + 8)) 0 SIZE_MAX with
  | none => simp [hl] at h
  | some v =>
    simp only [hl] at h
    by_cases hv : v = 0
    · simp [hv] at h
    · simp only [if_neg hv] at h
      rw [← Option.some.inj h]
      exact ⟨carve_mmap_calls _ _ _, carve_free_head _ _ _⟩

/-- Removing the allocated block with a given header from the list of blocks. -/
theorem erase_blockOf : ∀ (L : List (Nat × Nat × Nat)) (a : Nat × Nat × Nat),
    (L.map blockOf).Pairwise Disj → a ∈ L →
    (L.map blockOf).erase (blockOf a) = (L.filter (fun x => x.1 != a.1)).map blockOf
  | [], _, _, h => by simp at h
  | c :: rest, a, hp, h => by
    rw [List.map_cons, List.pairwise_cons] at hp
    by_cases hca : c.1 = a.1
    · have hcb : blockOf c = blockOf a := by
        rcases List.mem_cons.mp h with e | e
        · rw [e]
        · have := (hp.1 (blockOf a) (List.mem_map.mpr ⟨a, e, rfl⟩)).arith
          simp only [blockOf] at this
          omega
      rw [List.map_cons, hcb, List.erase_cons_head,
        List.filter_cons_of_neg (by simpa using hca)]
      have : List.filter (fun x => x.1 != a.1) rest = rest := by
        rw [List.filter_eq_self]
        intro x hx
        have := (hp.1 (blockOf x) (List.mem_map.mpr ⟨x, hx, rfl⟩)).arith
        simp only [blockOf] at this
        simp only [bne_iff_ne, ne_eq]
        omega
      rw [this]
    · have ha2 : a ∈ rest := by
        rcases List.mem_cons.mp h with e | e
        · rw [e] at hca; exact absurd rfl hca
        · exact e
      have hne : blockOf c ≠ blockOf a := by
        intro e
        simp only [blockOf, Prod.mk.injEq] at e
        exact hca e.1
      rw [List.map_cons, List.erase_cons_tail (by simpa using hne),
        List.filter_cons_of_pos (by simpa using hca), List.map_cons,
        erase_blockOf rest a hp.2 ha2]

theorem filter_ptrOf (L : List (Nat × Nat × Nat)) (h : Nat) :
    (L.map ptrOf).filter (fun x => x.1 != h + header_size) =
      (L.filter (fun x => x.1 != h)).map ptrOf := by
  rw [List.filter_map]
  congr 1
  apply List.filter_congr
  intro x _
  simp [ptrOf, header_size]

/-- A fresh region is disjoint from every block covered by the old regions. -/
theorem fresh_region {d : Nat} {regions : List (Nat × Nat)} {r : Nat}
    (hp : ProviderOK d ((r, 4096) :: regions)) {c : Nat × Nat}
    (hc : Covered regions c.1 (c.1 + header_size + c.2)) : Disj (r, 4072) c := by
  have hpw := (List.pairwise_cons.mp hp.1).1
  obtain ⟨q, hq, hq1, hq2⟩ := hc c.1 (Nat.le_refl _) (by simp only [header_size]; omega)
  have hdq := hpw q hq
  simp only at hdq
  by_cases hlt : c.1 < r
  · right
    show c.1 + 24 + c.2 ≤ r
    by_contra hcon
    obtain ⟨q2, hq2m, hq21, hq22⟩ := hc r (by omega) (by simp only [header_size]; omega)
    have := hpw q2 hq2m
    simp only at this
    omega
  · left
    show r + 24 + 4072 ≤ c.1
    omega

namespace Inv

theorem init_inv (dummy : Nat) (s : State) (h1 : dummy ≠ 0) (h2 : dummy + header_size ≤ WORD)
    (h3 : s.mmap_calls = []) : Inv ⟨ my_initialize dummy s, []⟩ dummy [] [] := by
  have hc : ( my_initialize dummy s).mmap_calls = [] := h3
  refine ⟨Rep.init_rep dummy s h1 h2, rfl, ?_, ?_, ?_, ?_, ?_, ?_, ?_⟩
  · intro a ha; simp at ha
  · show ProviderOK dummy ( my_initialize dummy s).mmap_calls
    rw [hc]
    exact ⟨List.Pairwise.nil, fun r hr => by simp at hr⟩
  · intro b hb; simp at hb
  · show extentSum _ = (( my_initialize dummy s).mmap_calls.map Prod.snd).sum
    rw [hc]
    rfl
  · intro b hb; simp at hb
  · intro _ b hb; simp at hb
  · intro _ b hb; simp at hb

theorem carve_snd (size : Nat) (b : Nat × Nat) (F : List (Nat × Nat))
    (L : List (Nat × Nat × Nat)) :
    (carve size b F (L.map blockOf)).2 = (carveLive size b L).map blockOf := by
  unfold carve carveLive
  by_cases hs : header_size < b.2 - size
  · simp only [if_pos hs, List.map_cons, blockOf]
  · simp only [if_neg hs, List.map_cons, blockOf]

/-- Handing out a free block preserves the invariant. -/
theorem carve_step {sys : Sys} {d : Nat} {F : List (Nat × Nat)} {L : List (Nat × Nat × Nat)}
    (h : Inv sys d F L) {b : Nat × Nat} (hb : b ∈ F) {size : Nat} (hsz : size ≤ b.2)
    (hpos : 0 < size) (h8 : size % 8 = 0) :
    Inv ⟨(my_malloc_carve size b.1 sys.heap).2,
        ((my_malloc_carve size b.1 sys.heap).1, size) :: sys.live⟩ d
      (carve size b F (L.map blockOf)).1 (carveLive size b L) := by
  obtain ⟨c1, c2, c3⟩ := h.rep.carve_rep hb hsz hpos
  have hbb := h.rep.mem_bound (List.mem_append_left _ hb)
  have hall : ∀ (P : Nat × Nat → Prop),
      (24 < b.2 - size → P (b.1, size) ∧ P (b.1 + 24 + size, b.2 - size - 24)) →
      (∀ c ∈ F ++ L.map blockOf, P c) →
      ∀ c ∈ (carve size b F (L.map blockOf)).1 ++ (carveLive size b L).map blockOf, P c := by
    intro P h1 h2
    rw [← carve_snd]
    exact carve_forall P h1 h2 hb
  refine ⟨?_, ?_, ?_, ?_, ?_, ?_, ?_, ?_, ?_⟩
  · rw [← carve_snd]; exact c2
  · show (_, size) :: sys.live = (carveLive size b L).map ptrOf
    rw [c1, h.live]
    simp only [carveLive, List.map_cons, ptrOf]
  · intro a ha
    rcases List.mem_cons.mp ha with e | e
    · rw [e]
      simp only
      refine ⟨hpos, ?_⟩
      split_ifs
      · exact Nat.le_refl _
      · exact hsz
    · exact h.req a e
  · show ProviderOK d (my_malloc_carve size b.1 sys.heap).2.mmap_calls
    rw [c3]; exact h.provider
  · show ∀ c ∈ _, Covered (my_malloc_carve size b.1 sys.heap).2.mmap_calls _ _
    rw [c3]
    apply hall (fun c => Covered sys.heap.mmap_calls c.1 (c.1 + header_size + c.2)) _ h.covered
    intro hs
    have := h.covered b (List.mem_append_left _ hb)
    simp only [header_size] at this ⊢
    exact ⟨this.mono (Nat.le_refl _) (by omega), this.mono (by omega) (by omega)⟩
  · show extentSum _ = ((my_malloc_carve size b.1 sys.heap).2.mmap_calls.map Prod.snd).sum
    rw [c3, ← carve_snd, carve_sum hb hsz]
    exact h.total
  · apply hall (fun c => c.2 % 8 = 0) _ h.size8
    intro hs
    have := h.size8 b (List.mem_append_left _ hb)
    simp only
    omega
  · show (∀ r ∈ (my_malloc_carve size b.1 sys.heap).2.mmap_calls, r.1 % 8 = 0) → _
    rw [c3]
    intro hr
    apply hall (fun c => c.1 % 8 = 0) _ (h.addr8 hr)
    intro hs
    have := h.addr8 hr b (List.mem_append_left _ hb)
    simp only
    omega
  · show NonAdjacent (my_malloc_carve size b.1 sys.heap).2.mmap_calls → ∀ c ∈ _,
      ∃ r ∈ (my_malloc_carve size b.1 sys.heap).2.mmap_calls, _
    rw [c3]
    intro hna
    apply hall (fun c => ∃ r ∈ sys.heap.mmap_calls,
      r.1 ≤ c.1 ∧ c.1 + header_size + c.2 ≤ r.1 + r.2) _ (h.inside hna)
    intro hs
    obtain ⟨r, hr, hr1, hr2⟩ := h.inside hna b (List.mem_append_left _ hb)
    simp only [header_size] at hr2 ⊢
    exact ⟨⟨r, hr, hr1, by omega⟩, ⟨r, hr, by omega, by omega⟩⟩

/-- Acquiring a region (requests of at most 4000 bytes) preserves the
invariant, when the provider's answer is acceptable. -/
theorem acquire_step {sys : Sys} {d : Nat} {F : List (Nat × Nat)}
    {L : List (Nat × Nat × Nat)} (h : Inv sys d F L) {size : Nat} (hsz : size ≤ 4000)
    (r : Nat) (hp : ProviderOK d ((r, 4096) :: sys.heap.mmap_calls)) :
    Inv ⟨my_malloc_acquire size r sys.heap, sys.live⟩ d ((r, 4072) :: F) L := by
  have hr := hp.2 (r, 4096) (List.mem_cons_self _ _)
  simp only at hr
  have hfresh : ∀ c ∈ (d, 0) :: (F ++ L.map blockOf), Disj (r, 4072) c := by
    intro c hc
    rcases List.mem_cons.mp hc with e | e
    · rw [e]
      have := hr.2.2
      simp only [header_size] at this
      rcases this with t | t
      · exact Or.inl (by show r + 24 + 4072 ≤ d; omega)
      · exact Or.inr (by show d + 24 + 0 ≤ r; omega)
    · exact fresh_region hp (h.covered c e)
  obtain ⟨a1, a2⟩ := h.rep.acquire hsz r hr.1 hr.2.1 hfresh
  have hnew : Covered ((r, 4096) :: sys.heap.mmap_calls) r (r + header_size + 4072) := by
    intro x hx1 hx2
    exact ⟨(r, 4096), List.mem_cons_self _ _, hx1, by simp only [header_size] at hx2 ⊢; omega⟩
  refine ⟨a1, h.live, h.req, ?_, ?_, ?_, ?_, ?_, ?_⟩
  · show ProviderOK d (my_malloc_acquire size r sys.heap).mmap_calls
    rw [a2]; exact hp
  · show ∀ c ∈ _, Covered (my_malloc_acquire size r sys.heap).mmap_calls _ _
    rw [a2]
    intro c hc
    rcases List.mem_cons.mp hc with e | e
    · rw [e]; exact hnew
    · exact (h.covered c e).cons _
  · show extentSum _ = ((my_malloc_acquire size r sys.heap).mmap_calls.map Prod.snd).sum
    rw [a2, List.cons_append, extentSum_cons, List.map_cons, List.sum_cons, h.total]
    show 24 + 4072 + _ = 4096 + _
    omega
  · intro c hc
    rcases List.mem_cons.mp hc with e | e
    · rw [e]; show 4072 % 8 = 0; decide
    · exact h.size8 c e
  · show (∀ q ∈ (my_malloc_acquire size r sys.heap).mmap_calls, q.1 % 8 = 0) → _
    rw [a2]
    intro hq c hc
    rcases List.mem_cons.mp hc with e | e
    · rw [e]; exact hq (r, 4096) (List.mem_cons_self _ _)
    · exact h.addr8 (fun q hqm => hq q (List.mem_cons_of_mem _ hqm)) c e
  · show NonAdjacent (my_malloc_acquire size r sys.heap).mmap_calls → ∀ c ∈ _,
      ∃ q ∈ (my_malloc_acquire size r sys.heap).mmap_calls, _
    rw [a2]
    intro hna c hc
    rcases List.mem_cons.mp hc with e | e
    · rw [e]
      exact ⟨(r, 4096), List.mem_cons_self _ _, Nat.le_refl _, by simp only [header_size]; omega⟩
    · obtain ⟨q, hq, hq2⟩ := h.inside (List.pairwise_cons.mp hna).2 c e
      exact ⟨q, List.mem_cons_of_mem _ hq, hq2⟩

/-- Adjacent blocks inside regions lie in the same region when no two regions
are adjacent. -/
theorem same_region {d : Nat} {regions : List (Nat × Nat)} (hp : ProviderOK d regions)
    (hna : NonAdjacent regions) {x y : Nat × Nat}
    (hx : ∃ r ∈ regions, r.1 ≤ x.1 ∧ x.1 + header_size + x.2 ≤ r.1 + r.2)
    (hy : ∃ r ∈ regions, r.1 ≤ y.1 ∧ y.1 + header_size + y.2 ≤ r.1 + r.2)
    (hadj : x.1 + 24 + x.2 = y.1) :
    ∃ r ∈ regions, r.1 ≤ x.1 ∧ x.1 + header_size + (x.2 + (24 + y.2)) ≤ r.1 + r.2 := by
  obtain ⟨r1, hr1, a1, a2⟩ := hx
  obtain ⟨r2, hr2, b1, b2⟩ := hy
  simp only [header_size] at *
  by_cases e : r1 = r2
  · subst e
    exact ⟨r1, hr1, a1, by omega⟩
  · exfalso
    have p1 := hp.1.forall (fun _ _ hxy => Or.symm hxy) hr1 hr2 e
    have p2 := hna.forall (fun _ _ hxy => And.symm hxy) hr1 hr2 e
    simp only at p1 p2
    omega

/-- Freeing an allocated block preserves the invariant. -/
theorem free_step {sys : Sys} {d : Nat} {F : List (Nat × Nat)} {L : List (Nat × Nat × Nat)}
    (h : Inv sys d F L) {a : Nat × Nat × Nat} (ha : a ∈ L) :
    Inv ⟨my_free_merge a.1
          ((findAt (a.1 + header_size + a.2.1) F).isSome,
            hdr (findAt (a.1 + header_size + a.2.1) F))
          ((findEndingAt a.1 F).isSome, hdr (findEndingAt a.1 F)) sys.heap,
        sys.live.filter (fun x => x.1 != a.1 + header_size)⟩ d
      (coalesce (blockOf a) F) (L.filter (fun x => x.1 != a.1)) := by
  have hbA : blockOf a ∈ L.map blockOf := List.mem_map.mpr ⟨a, ha, rfl⟩
  have hrep := h.rep.merge_rep hbA
  have hpwA : (L.map blockOf).Pairwise Disj :=
    (List.pairwise_append.mp (List.pairwise_cons.mp h.rep.disj).2).2.1
  rw [erase_blockOf L a hpwA ha] at hrep
  have hsubL : ∀ c ∈ (L.filter (fun x => x.1 != a.1)).map blockOf, c ∈ L.map blockOf := by
    intro c hc
    obtain ⟨x, hx, hxe⟩ := List.mem_map.mp hc
    exact List.mem_map.mpr ⟨x, (List.mem_filter.mp hx).1, hxe⟩
  have hall : ∀ (P : Nat × Nat → Prop),
      (∀ x y : Nat × Nat, P x → P y → x.1 + 24 + x.2 = y.1 → P (x.1, x.2 + (24 + y.2))) →
      (∀ c ∈ F ++ L.map blockOf, P c) →
      ∀ c ∈ coalesce (blockOf a) F ++ (L.filter (fun x => x.1 != a.1)).map blockOf, P c := by
    intro P h1 h2 c hc
    rcases List.mem_append.mp hc with e | e
    · exact coalesce_forall P h1 (fun c hc => h2 c (List.mem_append_left _ hc))
        (h2 _ (List.mem_append_right _ hbA)) c e
    · exact h2 c (List.mem_append_right _ (hsubL c e))
  have hcalls := merge_mmap_calls a.1
    ((findAt (a.1 + header_size + a.2.1) F).isSome, hdr (findAt (a.1 + header_size + a.2.1) F))
    ((findEndingAt a.1 F).isSome, hdr (findEndingAt a.1 F)) sys.heap
  refine ⟨hrep, ?_, ?_, ?_, ?_, ?_, ?_, ?_, ?_⟩
  · show sys.live.filter _ = _
    rw [h.live, filter_ptrOf]
  · intro x hx
    exact h.req x (List.mem_filter.mp hx).1
  · show ProviderOK d (my_free_merge _ _ _ _).mmap_calls
    rw [hcalls]; exact h.provider
  · show ∀ c ∈ _, Covered (my_free_merge _ _ _ _).mmap_calls _ _
    rw [hcalls]
    apply hall (fun c => Covered sys.heap.mmap_calls c.1 (c.1 + header_size + c.2)) _ h.covered
    intro x y hx hy hadj
    simp only [header_size] at hx hy ⊢
    rw [← hadj] at hy
    exact (hx.union hy).mono (Nat.le_refl _) (by omega)
  · show extentSum _ = ((my_free_merge _ _ _ _).mmap_calls.map Prod.snd).sum
    rw [hcalls, ← h.total, extentSum_append, extentSum_append, coalesce_sum,
      ← erase_blockOf L a hpwA ha, extentSum_erase hbA]
    omega
  · apply hall (fun c => c.2 % 8 = 0) _ h.size8
    intro x y hx hy _
    simp only at hx hy ⊢
    omega
  · show (∀ r ∈ (my_free_merge _ _ _ _).mmap_calls, r.1 % 8 = 0) → _
    rw [hcalls]
    intro hr
    apply hall (fun c => c.1 % 8 = 0) _ (h.addr8 hr)
    intro x y hx _ _
    exact hx
  · show NonAdjacent (my_free_merge _ _ _ _).mmap_calls → ∀ c ∈ _,
      ∃ r ∈ (my_free_merge _ _ _ _).mmap_calls, _
    rw [hcalls]
    intro hna
    apply hall (fun c => ∃ r ∈ sys.heap.mmap_calls,
      r.1 ≤ c.1 ∧ c.1 + header_size + c.2 ≤ r.1 + r.2) _ (h.inside hna)
    intro x y hx hy hadj
    exact same_region h.provider hna hx hy hadj

end Inv

/-! ## Reachable states satisfy the invariant -/

namespace Inv

variable {sys : Sys} {d : Nat} {F : List (Nat × Nat)} {L : List (Nat × Nat × Nat)}

theorem free_head (h : Inv sys d F L) : sys.heap.free_head = d := h.rep.head

/-- A call of `my_malloc` that returns, from a state satisfying the invariant:
the chosen block `b` comes from the free list `F0`, which is the free list of
the state or that list extended by the block of a new region. -/
theorem malloc_step (h : Inv sys d F L) {fuel size region ptr : Nat} {s2 : State}
    (hpos : 0 < size) (h8 : size % 8 = 0) (hsz : size ≤ 4000)
    (hm : my_malloc fuel size [region] sys.heap = some (ptr, s2))
    (hp : ProviderOK s2.free_head s2.mmap_calls) :
    ∃ b F0, b ∈ F0 ∧ size ≤ b.2 ∧ ptr = b.1 + header_size ∧
      (F0 = F ∨ F0 = (region, 4072) :: F) ∧
      Inv ⟨s2, (ptr, size) :: sys.live⟩ d
        (carve size b F0 (L.map blockOf)).1 (carveLive size b L) := by
  cases hbf : bestFit size F none SIZE_MAX with
  | some b =>
    obtain ⟨hbF, hbs, _⟩ := bestFit_some hbf
    have e := (h.rep.malloc_hit hbf fuel [region]).2 _ hm
    have hst := h.carve_step hbF hbs hpos h8
    rw [← e] at hst
    exact ⟨b, F, hbF, hbs, by rw [← (h.rep.carve_rep hbF hbs hpos).1, ← e], Or.inl rfl, hst⟩
  | none =>
    have hm2 := h.rep.miss_unfold hbf hm
    obtain ⟨k1, k2⟩ := malloc_nil_calls hm2
    have hcalls : s2.mmap_calls = (region, 4096) :: sys.heap.mmap_calls := by
      rw [show s2.mmap_calls = (my_malloc_acquire size region sys.heap).mmap_calls from k1]
      show (region, buffer_size size) :: sys.heap.mmap_calls = _
      rw [Rep.buffer_size_small hsz]
    have hfh : s2.free_head = d := by
      rw [show s2.free_head = (my_malloc_acquire size region sys.heap).free_head from k2]
      exact h.rep.head
    rw [hcalls, hfh] at hp
    have h1 := h.acquire_step hsz region hp
    have hsmall := bestFit_none h.rep.free_size_lt hbf
    have hbf2 := bestFit_fresh region hsz hsmall
    have e := (h1.rep.malloc_hit hbf2 fuel []).2 _ hm2
    have hmem : (region, 4072) ∈ (region, 4072) :: F := List.mem_cons_self _ _
    have hst := h1.carve_step hmem (by show size ≤ 4072; omega) hpos h8
    rw [← e] at hst
    refine ⟨(region, 4072), (region, 4072) :: F, hmem, by show size ≤ 4072; omega, ?_,
      Or.inr rfl, hst⟩
    rw [← (h1.rep.carve_rep hmem (by show size ≤ 4072; omega) hpos).1, ← e]

/-- A call of `my_free` on a live pointer that returns, from a state satisfying
the invariant. -/
theorem free_call (h : Inv sys d F L) {fuel ptr size : Nat} {s2 : State}
    (hl : (ptr, size) ∈ sys.live) (hf : my_free fuel ptr sys.heap = some s2) :
    ∃ a ∈ L, ptr = a.1 + header_size ∧
      Inv ⟨s2, sys.live.filter (fun x => x.1 != ptr)⟩ d
        (coalesce (blockOf a) F) (L.filter (fun x => x.1 != a.1)) := by
  rw [h.live] at hl
  obtain ⟨a, ha, hae⟩ := List.mem_map.mp hl
  have hp : ptr = a.1 + header_size := by
    simp only [ptrOf, Prod.mk.injEq] at hae
    exact hae.1.symm
  have hbA : blockOf a ∈ L.map blockOf := List.mem_map.mpr ⟨a, ha, rfl⟩
  have hreq := h.req a ha
  subst hp
  have e := (h.rep.free_run hbA (by show 0 < a.2.1; omega) fuel).2 s2 hf
  have hst := h.free_step ha
  rw [e]
  exact ⟨a, ha, rfl, hst⟩

end Inv

/-- Every reachable state satisfies the invariant. -/
theorem reachable_inv {sys : Sys} (h : Reachable sys) : ∃ d F L, Inv sys d F L := by
  induction h with
  | init dummy s h1 h2 h3 => exact ⟨dummy, [], [], Inv.init_inv dummy s h1 h2 h3⟩
  | malloc sys fuel size region ptr s2 _ hpos h8 hsz hm hp ih =>
    obtain ⟨d, F, L, hinv⟩ := ih
    obtain ⟨b, F0, _, _, _, _, hst⟩ := hinv.malloc_step hpos h8 hsz hm hp
    exact ⟨d, _, _, hst⟩
  | free sys fuel ptr size s2 _ hl hf ih =>
    obtain ⟨d, F, L, hinv⟩ := ih
    obtain ⟨a, _, _, hst⟩ := hinv.free_call hl hf
    exact ⟨d, _, _, hst⟩

/-! ## Reading the free list back from memory -/

theorem free_list_walk_spec (m : Nat → Nat) : ∀ (F : List (Nat × Nat)) (p fuel : Nat),
    chain m p (F.map Prod.fst) → (∀ b ∈ F, m b.1 = b.2) → F.length < fuel →
    free_list_walk m fuel (m (p + 8)) = some F
  | [], p, fuel, hc, _, hf => by
    simp only [List.map_nil, chain] at hc
    cases fuel with
    | zero => simp at hf
    | succ f => simp [free_list_walk, hc]
  | b :: rest, p, fuel, hc, hs, hf => by
    simp only [List.map_cons, chain] at hc
    obtain ⟨c1, c2, _, c4⟩ := hc
    cases fuel with
    | zero => simp at hf
    | succ f =>
      have ih := free_list_walk_spec m rest b.1 f c4
        (fun c hc => hs c (List.mem_cons_of_mem _ hc))
        (by simpa using hf)
      rw [c1]
      simp only [free_list_walk, if_neg c2, ih, hs b (List.mem_cons_self _ _)]

/-- On a well-formed heap the free list read from memory is `F`. -/
theorem Rep.free_list_eq {s : State} {d : Nat} {F A : List (Nat × Nat)} (h : Rep s d F A)
    {fuel : Nat} (hf : F.length < fuel) : free_list fuel s = some F := by
  unfold free_list
  rw [h.head]
  exact free_list_walk_spec s.mem F d fuel h.links
    (fun b hb => h.sizes b (List.mem_append_left A hb)) hf

/-! ## Finding the neighbours of a block -/

theorem same_header {F : List (Nat × Nat)} (hpw : F.Pairwise Disj) {a c : Nat × Nat}
    (ha : a ∈ F) (hc : c ∈ F) (h : a.1 = c.1) : a = c := by
  by_contra hne
  have := (hpw.forall (fun _ _ hxy => Disj.symm hxy) ha hc hne).arith
  omega

theorem same_end {F : List (Nat × Nat)} (hpw : F.Pairwise Disj) {a c : Nat × Nat}
    (ha : a ∈ F) (hc : c ∈ F) (h : a.1 + 24 + a.2 = c.1 + 24 + c.2) : a = c := by
  by_contra hne
  have := (hpw.forall (fun _ _ hxy => Disj.symm hxy) ha hc hne).arith
  omega

theorem findAt_of_mem {F : List (Nat × Nat)} (hpw : F.Pairwise Disj) {r : Nat × Nat}
    {addr : Nat} (hr : r ∈ F) (h1 : r.1 = addr) : findAt addr F = some r := by
  cases hf : findAt addr F with
  | none =>
    unfold findAt at hf
    rw [List.find?_eq_none] at hf
    exact absurd (by simpa using h1) (hf r hr)
  | some q =>
    obtain ⟨hq, hq1⟩ := findAt_some hf
    rw [same_header hpw hq hr (hq1.trans h1.symm)]

theorem findAt_of_not_mem {F : List (Nat × Nat)} {addr : Nat} (h : ∀ c ∈ F, c.1 ≠ addr) :
    findAt addr F = none := by
  unfold findAt
  rw [List.find?_eq_none]
  intro c hc
  simpa using h c hc

theorem findEndingAt_of_mem {F : List (Nat × Nat)} (hpw : F.Pairwise Disj) {l : Nat × Nat}
    {addr : Nat} (hl : l ∈ F) (h1 : l.1 + header_size + l.2 = addr) :
    findEndingAt addr F = some l := by
  cases hf : findEndingAt addr F with
  | none =>
    unfold findEndingAt at hf
    rw [List.find?_eq_none] at hf
    exact absurd (by simpa using h1) (hf l hl)
  | some q =>
    obtain ⟨hq, hq1⟩ := findEndingAt_some hf
    rw [same_end hpw hq hl (hq1.trans h1.symm)]

theorem findEndingAt_of_not_mem {F : List (Nat × Nat)} {addr : Nat}
    (h : ∀ c ∈ F, c.1 + header_size + c.2 ≠ addr) : findEndingAt addr F = none := by
  unfold findEndingAt
  rw [List.find?_eq_none]
  intro c hc
  simpa using h c hc

/-- The block the scan of `my_malloc` returns is the result of `bestFit`. -/
theorem Rep.chosen {s : State} {d : Nat} {F A : List (Nat × Nat)} (h : Rep s d F A)
    {size fuel : Nat} {b : Nat × Nat} (hb : b ∈ F)
    (hch : best_fit_loop size s.mem fuel (s.mem (s.free_head + 8)) 0 SIZE_MAX = some b.1) :
    bestFit size F none SIZE_MAX = some b := by
  have e := (h.scan size fuel).2 b.1 hch
  have hbnz := (h.mem_bound (List.mem_append_left A hb)).1
  cases hbf : bestFit size F none SIZE_MAX with
  | none => rw [hbf] at e; exact absurd e hbnz
  | some q =>
    rw [hbf] at e
    simp only [hdr] at e
    rw [same_header h.free_pairwise (bestFit_some hbf).1 hb e.symm]

/-- Creating a free block in unused bytes. -/
theorem Rep.insert {s : State} {d : Nat} {F A : List (Nat × Nat)} (h : Rep s d F A)
    (n sz : Nat) (hn : n ≠ 0) (hd : ∀ c ∈ (d, 0) :: (F ++ A), Disj (n, sz) c)
    (hbd : n + header_size + sz ≤ WORD) : Rep (exInsert n sz s) d ((n, sz) :: F) A := by
  have h1 := h.fresh n sz hn hd hbd
  have h2 := h1.add (List.mem_cons_self _ _)
  rw [List.erase_cons_head] at h2
  exact h2

/-- Creating an allocated block in unused bytes. -/
theorem Rep.place {s : State} {d : Nat} {F A : List (Nat × Nat)} (h : Rep s d F A)
    (n sz : Nat) (hn : n ≠ 0) (hd : ∀ c ∈ (d, 0) :: (F ++ A), Disj (n, sz) c)
    (hbd : n + header_size + sz ≤ WORD) : Rep (exPlace n sz s) d F ((n, sz) :: A) :=
  h.fresh n sz hn hd hbd

/-- After `coalesce` one free block covers the bytes of the freed block. -/
theorem coalesce_covers (b : Nat × Nat) (F : List (Nat × Nat)) :
    ∃ c ∈ coalesce b F, c.1 ≤ b.1 ∧ b.1 + header_size + b.2 ≤ c.1 + header_size + c.2 := by
  unfold coalesce
  cases hl : findEndingAt b.1 F with
  | none =>
    cases hr : findAt (b.1 + header_size + b.2) F with
    | none => exact ⟨b, List.mem_cons_self _ _, Nat.le_refl _, Nat.le_refl _⟩
    | some r =>
      refine ⟨_, List.mem_cons_self _ _, Nat.le_refl _, ?_⟩
      simp only [header_size]; omega
  | some l =>
    obtain ⟨_, hl1⟩ := findEndingAt_some hl
    simp only [header_size] at hl1
    cases hr : findAt (b.1 + header_size + b.2) F with
    | none =>
      refine ⟨_, List.mem_cons_self _ _, ?_, ?_⟩
      · show l.1 ≤ b.1; omega
      · simp only [header_size]; omega
    | some r =>
      refine ⟨_, List.mem_cons_self _ _, ?_, ?_⟩
      · show l.1 ≤ b.1; omega
      · simp only [header_size]; omega

theorem coalesce_both {b l r : Nat × Nat} {F : List (Nat × Nat)} (hpw : F.Pairwise Disj)
    (hl : l ∈ F) (hr : r ∈ F) (hl1 : l.1 + header_size + l.2 = b.1)
    (hr1 : r.1 = b.1 + header_size + b.2) :
    coalesce b F =
      (l.1, l.2 + (header_size + b.2 + header_size + r.2)) :: (F.erase l).erase r := by
  unfold coalesce
  rw [findEndingAt_of_mem hpw hl hl1, findAt_of_mem hpw hr hr1]

theorem coalesce_right {b r : Nat × Nat} {F : List (Nat × Nat)} (hpw : F.Pairwise Disj)
    (hr : r ∈ F) (hr1 : r.1 = b.1 + header_size + b.2)
    (hno : ∀ c ∈ F, c.1 + header_size + c.2 ≠ b.1) :
    coalesce b F = (b.1, b.2 + (header_size + r.2)) :: F.erase r := by
  unfold coalesce
  rw [findEndingAt_of_not_mem hno, findAt_of_mem hpw hr hr1]

theorem coalesce_left {b l : Nat × Nat} {F : List (Nat × Nat)} (hpw : F.Pairwise Disj)
    (hl : l ∈ F) (hl1 : l.1 + header_size + l.2 = b.1)
    (hno : ∀ c ∈ F, c.1 ≠ b.1 + header_size + b.2) :
    coalesce b F = (l.1, l.2 + (header_size + b.2)) :: F.erase l := by
  unfold coalesce
  rw [findEndingAt_of_mem hpw hl hl1, findAt_of_not_mem hno]

theorem coalesce_neither {b : Nat × Nat} {F : List (Nat × Nat)}
    (hno1 : ∀ c ∈ F, c.1 + header_size + c.2 ≠ b.1)
    (hno2 : ∀ c ∈ F, c.1 ≠ b.1 + header_size + b.2) : coalesce b F = b :: F := by
  unfold coalesce
  rw [findEndingAt_of_not_mem hno1, findAt_of_not_mem hno2]

/-- The call `my_free` of an allocated block on a well-formed heap, with enough fuel. -/
theorem Rep.free_spec {s : State} {d : Nat} {F A : List (Nat × Nat)} (h : Rep s d F A)
    {b : Nat × Nat} (hb : b ∈ A) (hpos : 0 < b.2) {fuel : Nat} (hf : F.length < fuel) :
    ∃ s2, my_free fuel (b.1 + header_size) s = some s2 ∧ Rep s2 d (coalesce b F) (A.erase b) ∧
      s2.mmap_calls = s.mmap_calls :=
  ⟨_, (h.free_run hb hpos fuel).1 hf, h.merge_rep hb, merge_mmap_calls _ _ _ _⟩

/-- The call `my_malloc` with a fitting free block whose leftover exceeds a header. -/
theorem Rep.malloc_split {s : State} {d : Nat} {F A : List (Nat × Nat)} (h : Rep s d F A)
    {size : Nat} {b : Nat × Nat} (hpos : 0 < size)
    (hbf : bestFit size F none SIZE_MAX = some b) (hrem : header_size < b.2 - size)
    (fuel : Nat) (oracle : List Nat) (hf : F.length < fuel) :
    ∃ s2, my_malloc fuel size oracle s = some (b.1 + header_size, s2) ∧
      Rep s2 d ((b.1 + header_size + size, b.2 - size - header_size) :: F.erase b)
        ((b.1, size) :: A) ∧
      s2.mmap_calls = s.mmap_calls := by
  obtain ⟨hbF, hbs, _⟩ := bestFit_some hbf
  obtain ⟨c1, c2, c3⟩ := h.carve_rep hbF hbs hpos
  have hcarve : carve size b F A =
      ((b.1 + header_size + size, b.2 - size - header_size) :: F.erase b, (b.1, size) :: A) := by
    unfold carve
    rw [if_pos hrem]
  rw [hcarve] at c2
  exact ⟨_, by rw [(h.malloc_hit hbf fuel oracle).1 hf, ← c1], c2, c3⟩

/-- The call `my_malloc` of at most 4000 bytes when no free block fits and the provider
answers with a fresh region. -/
theorem Rep.malloc_fresh {s : State} {d : Nat} {F A : List (Nat × Nat)} (h : Rep s d F A)
    {size : Nat} (hpos : 0 < size) (hsz : size ≤ 4000)
    (hbf : bestFit size F none SIZE_MAX = none) (r : Nat) (hr : r ≠ 0)
    (hrb : r + 4096 ≤ WORD) (hfresh : ∀ c ∈ (d, 0) :: (F ++ A), Disj (r, 4072) c)
    (fuel : Nat) (oracle : List Nat) (hf : F.length + 1 < fuel) :
    ∃ s2, my_malloc fuel size (r :: oracle) s = some (r + header_size, s2) ∧
      Rep s2 d ((r + header_size + size, 4072 - size - header_size) :: F) ((r, size) :: A) ∧
      s2.mmap_calls = (r, 4096) :: s.mmap_calls := by
  obtain ⟨a1, a2⟩ := h.acquire hsz r hr hrb hfresh
  have hmem : (r, 4072) ∈ (r, 4072) :: F := List.mem_cons_self _ _
  obtain ⟨c1, c2, c3⟩ := a1.carve_rep hmem (by show size ≤ 4072; omega) hpos
  have hcarve : carve size (r, 4072) ((r, 4072) :: F) A =
      ((r + header_size + size, 4072 - size - header_size) :: F, (r, size) :: A) := by
    unfold carve
    rw [if_pos (by show header_size < 4072 - size; simp only [header_size]; omega),
      List.erase_cons_head]
  rw [hcarve] at c2
  refine ⟨_, ?_, c2, by rw [c3, a2]⟩
  rw [(h.malloc_miss hsz hbf r hr hrb hfresh fuel oracle).1 hf, ← c1]

/-! ## Facts about the example heaps -/

theorem outcome_eq {o : Option (Nat × State)} (h : o.isSome = true) :
    o = some ((outcome o).1, (outcome o).2) := by
  cases o with
  | none => simp at h
  | some x => rfl

theorem getD_eq {o : Option State} (h : o.isSome = true) : o = some (o.getD exHeap0) := by
  cases o with
  | none => simp at h
  | some x => rfl

theorem exReach0 : Reachable ⟨exHeap0, []⟩ :=
  Reachable.init 16 ⟨0, fun _ => 0, []⟩ (by decide) (by decide) rfl

theorem exReach1 : Reachable ⟨exCall1.2, [(exCall1.1, 4000)]⟩ :=
  Reachable.malloc ⟨exHeap0, []⟩ 4 4000 4096 exCall1.1 exCall1.2 exReach0
    (by decide) (by decide) (by decide) (outcome_eq (by decide))
    (by unfold ProviderOK; decide)

theorem exReach2 : Reachable ⟨exCall2.2, [(exCall2.1, 4000), (exCall1.1, 4000)]⟩ :=
  Reachable.malloc ⟨exCall1.2, [(exCall1.1, 4000)]⟩ 4 4000 8192 exCall2.1 exCall2.2 exReach1
    (by decide) (by decide) (by decide) (outcome_eq (by decide))
    (by unfold ProviderOK; decide)

theorem exReach3 : Reachable ⟨exFree2, [(exCall1.1, 4000)]⟩ :=
  Reachable.free ⟨exCall2.2, [(exCall2.1, 4000), (exCall1.1, 4000)]⟩ 4 exCall2.1 4000 exFree2
    exReach2 (by decide) (getD_eq (by decide))

theorem ProviderOK.drop_head {d : Nat} {r : Nat × Nat} {regions : List (Nat × Nat)}
    (h : ProviderOK d (r :: regions)) : ProviderOK d regions :=
  ⟨(List.pairwise_cons.mp h.1).2, fun q hq => h.2 q (List.mem_cons_of_mem _ hq)⟩

namespace Inv

variable {sys : Sys} {d : Nat} {F : List (Nat × Nat)} {L : List (Nat × Nat × Nat)}

/-- The record of provider calls after a `my_malloc` call that returns. -/
theorem calls_after (h : Inv sys d F L) {fuel size region ptr : Nat} {s2 : State}
    (hsz : size ≤ 4000) (hm : my_malloc fuel size [region] sys.heap = some (ptr, s2)) :
    s2.free_head = d ∧
    (s2.mmap_calls = sys.heap.mmap_calls ∨
      s2.mmap_calls = (region, 4096) :: sys.heap.mmap_calls) := by
  cases hbf : bestFit size F none SIZE_MAX with
  | some b =>
    have e := (h.rep.malloc_hit hbf fuel [region]).2 _ hm
    have e2 : s2 = (my_malloc_carve size b.1 sys.heap).2 := by rw [← e]
    rw [e2, carve_free_head, carve_mmap_calls]
    exact ⟨h.rep.head, Or.inl rfl⟩
  | none =>
    have hm2 := h.rep.miss_unfold hbf hm
    obtain ⟨k1, k2⟩ := malloc_nil_calls hm2
    refine ⟨?_, Or.inr ?_⟩
    · rw [show s2.free_head = (my_malloc_acquire size region sys.heap).free_head from k2]
      exact h.rep.head
    · rw [show s2.mmap_calls = (my_malloc_acquire size region sys.heap).mmap_calls from k1]
      show (region, buffer_size size) :: sys.heap.mmap_calls = _
      rw [Rep.buffer_size_small hsz]

/-- If the provider's next answer is acceptable, so is the record of calls
after `my_malloc`. -/
theorem provider_after (h : Inv sys d F L) {fuel size region ptr : Nat} {s2 : State}
    (hsz : size ≤ 4000) (hm : my_malloc fuel size [region] sys.heap = some (ptr, s2))
    (hprov : ProviderOK d ((region, 4096) :: sys.heap.mmap_calls)) :
    ProviderOK s2.free_head s2.mmap_calls := by
  obtain ⟨k1, k2⟩ := h.calls_after hsz hm
  rw [k1]
  rcases k2 with e | e
  · rw [e]; exact hprov.drop_head
  · rw [e]; exact hprov

/-- With enough fuel `my_malloc` returns, if the provider's next answer is
acceptable. -/
theorem malloc_total (h : Inv sys d F L) {size region : Nat} (hsz : size ≤ 4000)
    (hprov : ProviderOK d ((region, 4096) :: sys.heap.mmap_calls)) (fuel : Nat)
    (hf : F.length + 1 < fuel) : (my_malloc fuel size [region] sys.heap).isSome = true := by
  cases hbf : bestFit size F none SIZE_MAX with
  | some b =>
    rw [(h.rep.malloc_hit hbf fuel [region]).1 (by omega)]
    rfl
  | none =>
    have hr := hprov.2 (region, 4096) (List.mem_cons_self _ _)
    simp only at hr
    have hfresh : ∀ c ∈ (d, 0) :: (F ++ L.map blockOf), Disj (region, 4072) c := by
      intro c hc
      rcases List.mem_cons.mp hc with e | e
      · rw [e]
        have := hr.2.2
        simp only [header_size] at this
        rcases this with t | t
        · exact Or.inl (by show region + 24 + 4072 ≤ d; omega)
        · exact Or.inr (by show d + 24 + 0 ≤ region; omega)
      · exact fresh_region hprov (h.covered c e)
    rw [(h.rep.malloc_miss hsz hbf region hr.1 hr.2.1 hfresh fuel []).1 hf]
    rfl

/-- With enough fuel `my_free` of a live pointer returns. -/
theorem free_total (h : Inv sys d F L) {ptr size : Nat} (hl : (ptr, size) ∈ sys.live)
    (fuel : Nat) (hf : F.length < fuel) : (my_free fuel ptr sys.heap).isSome = true := by
  rw [h.live] at hl
  obtain ⟨a, ha, hae⟩ := List.mem_map.mp hl
  have hp : ptr = a.1 + header_size := by
    simp only [ptrOf, Prod.mk.injEq] at hae
    exact hae.1.symm
  have hbA : blockOf a ∈ L.map blockOf := List.mem_map.mpr ⟨a, ha, rfl⟩
  have hreq := h.req a ha
  subst hp
  have e := (h.rep.free_run hbA (by show 0 < a.2.1; omega) fuel).1 hf
  simp only [blockOf] at e
  rw [e]
  rfl

end Inv

theorem exRep0 : Rep exHeap0 16 [] [] :=
  Rep.init_rep 16 ⟨0, fun _ => 0, []⟩ (by decide) (by decide)

theorem exRepSizes : Rep exHeapSizes 16 [(3000, 16), (2000, 64), (1000, 32)] [] :=
  ((exRep0.insert 1000 32 (by decide) (by unfold Disj; decide) (by decide)).insert 2000 64
    (by decide) (by unfold Disj; decide) (by decide)).insert 3000 16
    (by decide) (by unfold Disj; decide) (by decide)

theorem exRepBig : Rep exHeapBig 16 [(1000, 104)] [] :=
  exRep0.insert 1000 104 (by decide) (by unfold Disj; decide) (by decide)

theorem exRepMerge : Rep exHeapMerge 16 [(2032, 64), (1000, 976)] [(2000, 8)] :=
  ((exRep0.insert 1000 976 (by decide) (by unfold Disj; decide) (by decide)).place 2000 8
    (by decide) (by unfold Disj; decide) (by decide)).insert 2032 64
    (by decide) (by unfold Disj; decide) (by decide)

/-! ## Sequences of calls -/

theorem ProviderOK.sublist {d : Nat} {l1 l2 : List (Nat × Nat)} (h : ProviderOK d l2)
    (hs : l1.Sublist l2) : ProviderOK d l1 :=
  ⟨h.1.sublist hs, fun q hq => h.2 q (hs.subset hq)⟩

theorem ProviderOK.perm {d : Nat} {l1 l2 : List (Nat × Nat)} (h : ProviderOK d l2)
    (hp : l1.Perm l2) : ProviderOK d l1 :=
  ⟨(List.Perm.pairwise_iff (fun hxy => Or.symm hxy) hp).mpr h.1,
    fun q hq => h.2 q (hp.mem_iff.mp hq)⟩

theorem carve_length (size : Nat) {b : Nat × Nat} {F : List (Nat × Nat)} (A : List (Nat × Nat))
    (hb : b ∈ F) :
    (carve size b F A).1.length ≤ F.length := by
  have hl := List.length_erase_of_mem hb
  have hlp : 0 < F.length := List.length_pos_of_mem hb
  unfold carve
  split_ifs
  · simp only [List.length_cons, hl]; omega
  · simp only [hl]; omega

theorem coalesce_length (b : Nat × Nat) (F : List (Nat × Nat)) :
    (coalesce b F).length ≤ F.length + 1 := by
  unfold coalesce
  have h1 : ∀ x : Nat × Nat, (F.erase x).length ≤ F.length :=
    fun x => (List.erase_sublist x F).length_le
  have h2 : ∀ x y : Nat × Nat, ((F.erase x).erase y).length ≤ F.length :=
    fun x y => Nat.le_trans (List.erase_sublist y _).length_le (h1 x)
  cases findEndingAt b.1 F <;> cases findAt (b.1 + header_size + b.2) F <;>
    simp only [List.length_cons]
  · exact Nat.le_refl _
  · exact Nat.succ_le_succ (h1 _)
  · exact Nat.succ_le_succ (h1 _)
  · exact Nat.succ_le_succ (h2 _ _)

theorem extentSum_eq : ∀ (l : List (Nat × Nat)),
    extentSum l = header_size * l.length + (l.map Prod.snd).sum
  | [] => rfl
  | b :: rest => by
    rw [extentSum_cons, extentSum_eq rest]
    simp only [header_size, List.length_cons, List.map_cons, List.sum_cons]
    omega

namespace Inv

variable {sys : Sys} {d : Nat} {F : List (Nat × Nat)} {L : List (Nat × Nat × Nat)}

theorem live_nodup (h : Inv sys d F L) : (sys.live.map Prod.fst).Nodup := by
  have hpw : (L.map blockOf).Pairwise Disj :=
    (List.pairwise_append.mp (List.pairwise_cons.mp h.rep.disj).2).2.1
  rw [h.live, List.map_map]
  unfold List.Nodup
  rw [List.pairwise_map] at hpw ⊢
  refine hpw.imp ?_
  intro a c hac
  have := hac.arith
  simp only [blockOf, Function.comp, ptrOf, header_size] at this ⊢
  omega

/-- A sequence of `my_malloc` calls from a state satisfying the invariant, when
all the provider's answers are acceptable together. -/
theorem malloc_all_spec : ∀ (reqs : List (Nat × Nat)) (sys : Sys) (F : List (Nat × Nat))
    (L : List (Nat × Nat × Nat)), Inv sys d F L →
    (∀ q ∈ reqs, 0 < q.1 ∧ q.1 % 8 = 0 ∧ q.1 ≤ 4000) →
    ProviderOK d (reqs.map (fun q => (q.2, 4096)) ++ sys.heap.mmap_calls) →
    ∀ fuel, F.length + reqs.length + 1 < fuel →
    ∃ ptrs s1 live1 F1 L1, malloc_all fuel reqs sys.heap = some (ptrs, s1) ∧
      Inv ⟨s1, live1⟩ d F1 L1 ∧
      (live1.map Prod.fst).Perm (ptrs ++ sys.live.map Prod.fst) ∧
      F1.length ≤ F.length + reqs.length ∧ ptrs.length = reqs.length
  | [], sys, F, L, h, _, _, fuel, _ =>
    ⟨[], sys.heap, sys.live, F, L, rfl, h, List.Perm.refl _, Nat.le_refl _, rfl⟩
  | q :: rest, sys, F, L, h, hval, hprov, fuel, hf => by
    have hq := hval q (List.mem_cons_self _ _)
    have hp1 : ProviderOK d ((q.2, 4096) :: sys.heap.mmap_calls) := by
      apply hprov.sublist
      rw [List.map_cons, List.cons_append]
      exact List.Sublist.cons₂ _ (List.sublist_append_right _ _)
    have hsome := h.malloc_total hq.2.2 hp1 fuel
      (by simp only [List.length_cons] at hf; omega)
    cases hm : my_malloc fuel q.1 [q.2] sys.heap with
    | none => rw [hm] at hsome; simp at hsome
    | some r =>
      have hm2 : my_malloc fuel q.1 [q.2] sys.heap = some (r.1, r.2) := hm
      have hp2 := h.provider_after hq.2.2 hm2 hp1
      obtain ⟨b, F0, hb, _, _, hF0, hst⟩ := h.malloc_step hq.1 hq.2.1 hq.2.2 hm2 hp2
      have hlen : (carve q.1 b F0 (L.map blockOf)).1.length ≤ F.length + 1 := by
        have := carve_length q.1 (L.map blockOf) hb
        rcases hF0 with e | e
        · rw [e] at this ⊢; omega
        · rw [e] at this ⊢; simpa using this
      have hp3 : ProviderOK d (rest.map (fun q => (q.2, 4096)) ++ r.2.mmap_calls) := by
        rcases (h.calls_after hq.2.2 hm2).2 with e | e
        · rw [e]
          apply hprov.sublist
          rw [List.map_cons, List.cons_append]
          exact List.sublist_cons_self _ _
        · rw [e]
          apply hprov.perm
          rw [List.map_cons, List.cons_append]
          exact List.perm_middle
      obtain ⟨ptrs, s1, live1, F1, L1, k1, k2, k3, k4, k5⟩ :=
        malloc_all_spec rest ⟨r.2, (r.1, q.1) :: sys.live⟩ _ _ hst
          (fun x hx => hval x (List.mem_cons_of_mem _ hx)) hp3 fuel
          (by simp only [List.length_cons] at hf; omega)
      refine ⟨r.1 :: ptrs, s1, live1, F1, L1, ?_, k2, ?_, ?_, ?_⟩
      · simp only [malloc_all, hm, k1]
      · refine k3.trans ?_
        simp only [List.map_cons, List.cons_append]
        exact List.perm_middle
      · simp only [List.length_cons]; omega
      · simp only [List.length_cons, k5]

/-- A sequence of `my_free` calls on distinct live pointers. -/
theorem free_all_spec : ∀ (order : List Nat) (sys : Sys) (F : List (Nat × Nat))
    (L : List (Nat × Nat × Nat)), Inv sys d F L → order.Nodup →
    (∀ p ∈ order, p ∈ sys.live.map Prod.fst) →
    ∀ fuel, F.length + order.length < fuel →
    ∃ s2 live2 F2 L2, free_all fuel order sys.heap = some s2 ∧
      Inv ⟨s2, live2⟩ d F2 L2 ∧ (∀ x ∈ live2, x ∈ sys.live ∧ x.1 ∉ order) ∧
      F2.length ≤ F.length + order.length
  | [], sys, F, L, h, _, _, fuel, _ =>
    ⟨sys.heap, sys.live, F, L, rfl, h, fun x hx => ⟨hx, by simp⟩, Nat.le_refl _⟩
  | p :: rest, sys, F, L, h, hnd, hlive, fuel, hf => by
    obtain ⟨x, hx, hx1⟩ := List.mem_map.mp (hlive p (List.mem_cons_self _ _))
    have hx2 : (p, x.2) ∈ sys.live := by rw [← hx1]; exact hx
    have hsome := h.free_total hx2 fuel (by simp only [List.length_cons] at hf; omega)
    cases hm : my_free fuel p sys.heap with
    | none => rw [hm] at hsome; simp at hsome
    | some s1 =>
      obtain ⟨a, _, _, hst⟩ := h.free_call hx2 hm
      have hlen := coalesce_length (blockOf a) F
      have hnd2 := List.nodup_cons.mp hnd
      obtain ⟨s2, live2, F2, L2, k1, k2, k3, k4⟩ :=
        free_all_spec rest ⟨s1, sys.live.filter (fun y => y.1 != p)⟩ _ _ hst hnd2.2
          (fun p2 hp2 => by
            obtain ⟨y, hy, hy1⟩ := List.mem_map.mp (hlive p2 (List.mem_cons_of_mem _ hp2))
            refine List.mem_map.mpr ⟨y, List.mem_filter.mpr ⟨hy, ?_⟩, hy1⟩
            simp only [bne_iff_ne, ne_eq]
            intro e
            rw [hy1] at e
            rw [e] at hp2
            exact hnd2.1 hp2)
          fuel (by simp only [List.length_cons] at hf; omega)
      refine ⟨s2, live2, F2, L2, ?_, k2, ?_, ?_⟩
      · simp only [free_all, hm, k1]
      · intro y hy
        obtain ⟨y1, y2⟩ := k3 y hy
        obtain ⟨y3, y4⟩ := List.mem_filter.mp y1
        refine ⟨y3, ?_⟩
        simp only [bne_iff_ne, ne_eq] at y4
        simp only [List.mem_cons, not_or]
        exact ⟨y4, y2⟩
      · simp only [List.length_cons]; omega

end Inv

/-! ## The size of an acquired region -/

/-- Clearing the low 12 bits of a 64-bit word. -/
theorem and_page_mask (x : Nat) (h : x < 18446744073709551616) :
    x &&& 18446744073709547520 = x / 4096 * 4096 := by
  apply Nat.eq_of_testBit_eq
  intro i
  have hm : (18446744073709547520 : Nat) = 2 ^ 12 * (2 ^ 52 - 1) := by norm_num
  have h4 : (4096 : Nat) = 2 ^ 12 := by norm_num
  rw [Nat.testBit_and, hm, h4, Nat.mul_comm (x / 2 ^ 12), Nat.testBit_mul_pow_two,
    Nat.testBit_mul_pow_two, Nat.testBit_two_pow_sub_one, ← Nat.shiftRight_eq_div_pow,
    Nat.testBit_shiftRight]
  by_cases hi : 12 ≤ i
  · have e : 12 + (i - 12) = i := by omega
    rw [e]
    simp only [ge_iff_le, hi, decide_True, Bool.true_and]
    by_cases h2 : i - 12 < 52
    · simp [h2]
    · simp only [h2, decide_False, Bool.and_false]
      have : x < 2 ^ i := by
        calc x < 2 ^ 64 := by norm_num; exact h
          _ ≤ 2 ^ i := Nat.pow_le_pow_right (by norm_num) (by omega)
      rw [Nat.testBit_lt_two_pow this]
  · simp [hi]

/-- The byte count passed to the provider, when the computation does not wrap. -/
theorem buffer_size_eq (size : Nat) (h : size + header_size + 4095 < WORD) :
    buffer_size size =
      ((if 4096 < size + 24 then size + 24 else 4096) + 4095) / 4096 * 4096 := by
  simp only [header_size, WORD] at h
  have e1 : add64 size header_size = size + 24 := by
    simp only [add64, WORD, header_size]; omega
  have e2 : add64 (if 4096 < size + 24 then size + 24 else 4096) 4095 =
      (if 4096 < size + 24 then size + 24 else 4096) + 4095 := by
    simp only [add64, WORD]
    split_ifs <;> omega
  simp only [buffer_size, e1, e2]
  apply and_page_mask
  split_ifs <;> omega

/-- The memory written by the region-acquisition branch before the new block
is inserted in the free list. -/
theorem acquire_unfold (size metadata : Nat) (s : State) :
    my_malloc_acquire size metadata s =
      my_add_to_free_list metadata
        { free_head := s.free_head
          mem := store (store (store s.mem metadata (sub64 (buffer_size size) header_size))
            (metadata + 8) 0) (metadata + 16) 0
          mmap_calls := (metadata, buffer_size size) :: s.mmap_calls } := rfl

/-- When the scan finds nothing, `my_malloc` consumes one provider answer and
retries on the extended heap. -/
theorem malloc_on_miss {size fuel : Nat} {s : State}
    (hmiss : best_fit_loop size s.mem fuel (s.mem (s.free_head + 8)) 0 SIZE_MAX = some 0)
    (region : Nat) (oracle : List Nat) :
    my_malloc fuel size (region :: oracle) s =
      my_malloc fuel size oracle (my_malloc_acquire size region s) := by
  simp only [my_malloc, hmiss, if_true]

theorem malloc_on_miss_nil {size fuel : Nat} {s : State}
    (hmiss : best_fit_loop size s.mem fuel (s.mem (s.free_head + 8)) 0 SIZE_MAX = some 0) :
    my_malloc fuel size [] s = none := by
  simp only [my_malloc, hmiss, if_true]

/-! ## Facts about the list and the two scans -/

/-- In a list every `next` link that is not null leads to a later node whose
`prev` points back. -/
theorem chain_back (m : Nat → Nat) : ∀ (l : List Nat) (p : Nat), chain m p l →
    ∀ a ∈ p :: l, m (a + 8) = 0 ∨ (m (a + 8) ∈ l ∧ m (m (a + 8) + 16) = a)
  | [], p, h, a, ha => by
    simp only [chain] at h
    simp only [List.mem_singleton] at ha
    subst ha
    exact Or.inl h
  | b :: rest, p, h, a, ha => by
    simp only [chain] at h
    obtain ⟨h1, _, h3, h4⟩ := h
    rcases List.mem_cons.mp ha with e | e
    · subst e
      right
      rw [h1]
      exact ⟨List.mem_cons_self _ _, h3⟩
    · rcases chain_back m rest b h4 a e with r | ⟨r1, r2⟩
      · exact Or.inl r
      · exact Or.inr ⟨List.mem_cons_of_mem _ r1, r2⟩

theorem Sep.nodup {l : List Nat} (h : Sep l) : l.Nodup := by
  unfold Sep at h
  unfold List.Nodup
  refine h.imp ?_
  intro a b hab e
  omega

/-- Once the difference is zero the full scan keeps its candidate. -/
theorem bestFitFull_zero (size : Nat) : ∀ (F : List (Nat × Nat)) (best : Option (Nat × Nat)),
    bestFitFull size F best 0 = best
  | [], _ => rfl
  | a :: rest, best => by
    simp only [bestFitFull, Nat.not_lt_zero, if_false, ite_self]
    exact bestFitFull_zero size rest best

/-- The scan with the early exit computes the same candidate as the full scan. -/
theorem bestFit_eq_full (size : Nat) : ∀ (F : List (Nat × Nat)) (best : Option (Nat × Nat))
    (md : Nat), bestFit size F best md = bestFitFull size F best md
  | [], _, _ => rfl
  | a :: rest, best, md => by
    simp only [bestFit, bestFitFull]
    by_cases h1 : size ≤ a.2
    · rw [if_pos h1, if_pos h1]
      by_cases h2 : a.2 - size < md
      · rw [if_pos h2, if_pos h2]
        by_cases h3 : a.2 - size = 0
        · rw [if_pos h3, h3, bestFitFull_zero]
        · rw [if_neg h3]
          exact bestFit_eq_full size rest _ _
      · rw [if_neg h2, if_neg h2]
        exact bestFit_eq_full size rest _ _
    · rw [if_neg h1, if_neg h1]
      exact bestFit_eq_full size rest _ _

/-- The full scan keeps its candidate when no block improves on it. -/
theorem bestFitFull_keep (size : Nat) : ∀ (F : List (Nat × Nat)) (best : Option (Nat × Nat))
    (md : Nat), (∀ c ∈ F, size ≤ c.2 → md ≤ c.2 - size) → bestFitFull size F best md = best
  | [], _, _, _ => rfl
  | a :: rest, best, md, h => by
    have ha := h a (List.mem_cons_self _ _)
    have hr := bestFitFull_keep size rest best md (fun c hc => h c (List.mem_cons_of_mem _ hc))
    simp only [bestFitFull]
    by_cases h1 : size ≤ a.2
    · rw [if_pos h1, if_neg (by have := ha h1; omega)]
      exact hr
    · rw [if_neg h1]
      exact hr

/-- The full scan selects the first block, in list order, among those that
attain the smallest difference below the running minimum. -/
theorem bestFitFull_first (size : Nat) : ∀ (F : List (Nat × Nat)) (best : Option (Nat × Nat))
    (md : Nat), (∃ c ∈ F, size ≤ c.2 ∧ c.2 - size < md) →
    ∃ pre b post, F = pre ++ b :: post ∧ bestFitFull size F best md = some b ∧
      size ≤ b.2 ∧ b.2 - size < md ∧
      (∀ c ∈ pre, size ≤ c.2 → b.2 < c.2) ∧ (∀ c ∈ post, size ≤ c.2 → b.2 ≤ c.2)
  | [], _, _, h => by
    obtain ⟨c, hc, _⟩ := h
    simp at hc
  | a :: rest, best, md, h => by
    simp only [bestFitFull]
    by_cases h1 : size ≤ a.2 ∧ a.2 - size < md
    · rw [if_pos h1.1, if_pos h1.2]
      by_cases h2 : ∃ c ∈ rest, size ≤ c.2 ∧ c.2 - size < a.2 - size
      · obtain ⟨pre, b, post, e, r, b1, b2, b3, b4⟩ :=
          bestFitFull_first size rest (some a) (a.2 - size) h2
        refine ⟨a :: pre, b, post, by rw [e]; rfl, r, b1, by omega, ?_, b4⟩
        intro c hc hcs
        rcases List.mem_cons.mp hc with e2 | e2
        · subst e2; omega
        · exact b3 c e2 hcs
      · refine ⟨[], a, rest, rfl, ?_, h1.1, h1.2, fun c hc => by simp at hc, ?_⟩
        · apply bestFitFull_keep
          intro c hc hcs
          by_contra hcon
          exact h2 ⟨c, hc, hcs, by omega⟩
        · intro c hc hcs
          by_contra hcon
          exact h2 ⟨c, hc, hcs, by omega⟩
    · have e : (if size ≤ a.2 then
          if a.2 - size < md then bestFitFull size rest (some a) (a.2 - size)
          else bestFitFull size rest best md
        else bestFitFull size rest best md) = bestFitFull size rest best md := by
        by_cases h3 : size ≤ a.2
        · rw [if_pos h3, if_neg (fun h4 => h1 ⟨h3, h4⟩)]
        · rw [if_neg h3]
      rw [e]
      have h2 : ∃ c ∈ rest, size ≤ c.2 ∧ c.2 - size < md := by
        obtain ⟨c, hc, c1, c2⟩ := h
        rcases List.mem_cons.mp hc with e2 | e2
        · subst e2; exact absurd ⟨c1, c2⟩ h1
        · exact ⟨c, e2, c1, c2⟩
      obtain ⟨pre, b, post, e3, r, b1, b2, b3, b4⟩ := bestFitFull_first size rest best md h2
      refine ⟨a :: pre, b, post, by rw [e3]; rfl, r, b1, b2, ?_, b4⟩
      intro c hc hcs
      rcases List.mem_cons.mp hc with e2 | e2
      · subst e2
        by_contra hcon
        exact h1 ⟨hcs, by omega⟩
      · exact b3 c e2 hcs

/-- The loop without the early exit computes the full scan of the list. -/
theorem best_fit_loop_full_spec (size : Nat) (m : Nat → Nat) : ∀ (F : List (Nat × Nat))
    (p fuel : Nat) (best : Option (Nat × Nat)) (md : Nat),
    chain m p (F.map Prod.fst) → (∀ b ∈ F, m b.1 = b.2) → F.length < fuel →
    best_fit_loop_full size m fuel (m (p + 8)) (hdr best) md =
      some (hdr (bestFitFull size F best md))
  | [], p, fuel, best, md, hc, _, hf => by
    simp only [List.map_nil, chain] at hc
    cases fuel with
    | zero => simp at hf
    | succ f => simp [best_fit_loop_full, hc, bestFitFull]
  | b :: rest, p, fuel, best, md, hc, hs, hf => by
    simp only [List.map_cons, chain] at hc
    obtain ⟨c1, c2, _, c4⟩ := hc
    have hb := hs b (List.mem_cons_self _ _)
    have hs2 : ∀ c ∈ rest, m c.1 = c.2 := fun c hc => hs c (List.mem_cons_of_mem _ hc)
    cases fuel with
    | zero => simp at hf
    | succ f =>
      have hf2 : rest.length < f := by simpa using hf
      have r1 := best_fit_loop_full_spec size m rest b.1 f (some b) (b.2 - size) c4 hs2 hf2
      have r2 := best_fit_loop_full_spec size m rest b.1 f best md c4 hs2 hf2
      simp only [hdr] at r1
      rw [c1]
      simp only [best_fit_loop_full, bestFitFull, if_neg c2, hb]
      by_cases h1 : size ≤ b.2
      · rw [if_pos h1, if_pos h1]
        by_cases h2 : b.2 - size < md
        · rw [if_pos h2, if_pos h2]; exact r1
        · rw [if_neg h2, if_neg h2]; exact r2
      · rw [if_neg h1, if_neg h1]; exact r2

theorem Sep.apart_nodes {l : List Nat} (h : Sep l) {a b : Nat} (ha : a ∈ l) (hb : b ∈ l) :
    a = b ∨ a + 24 ≤ b ∨ b + 24 ≤ a := by
  by_cases e : a = b
  · exact Or.inl e
  · right
    unfold Sep at h
    exact h.forall (fun x y hxy => by omega) ha hb e

/-- The words written by `my_add_to_free_list`. -/
theorem add_frame (x : Nat) (s : State) (l : List Nat)
    (hc : chain s.mem s.free_head l) (h1 : s.free_head ≠ x) (h2 : s.free_head ≠ x + 8)
    (w : Nat) (w1 : w ≠ s.free_head + 8) (w2 : w ≠ x + 8) (w3 : w ≠ x + 16)
    (w4 : ∀ b ∈ l.head?, w ≠ b + 16) :
    (my_add_to_free_list x s).mem w = s.mem w := by
  rw [add_mem x s h1 h2, store_other _ _ _ _ w1]
  cases l with
  | nil =>
    simp only [chain] at hc
    rw [if_neg (by simp [hc]), store_other _ _ _ _ w3, store_other _ _ _ _ w2]
  | cons b rest =>
    simp only [chain] at hc
    have hb16 := w4 b (by simp)
    rw [if_pos (by rw [hc.1]; exact hc.2.1), hc.1, store_other _ _ _ _ hb16,
      store_other _ _ _ _ w3, store_other _ _ _ _ w2]

namespace Inv

variable {sys : Sys} {d : Nat} {F : List (Nat × Nat)} {L : List (Nat × Nat × Nat)}

/-- The blocks of the live pointers are the allocated blocks of the invariant. -/
theorem live_blocks (h : Inv sys d F L) :
    sys.live.map (fun p => (p.1 - header_size, sys.heap.mem (p.1 - header_size))) =
      L.map blockOf := by
  rw [h.live, List.map_map]
  apply List.map_congr_left
  intro a ha
  have hs := h.rep.sizes (blockOf a) (List.mem_append_right _ (List.mem_map.mpr ⟨a, ha, rfl⟩))
  simp only [blockOf] at hs
  simp only [Function.comp, ptrOf, blockOf, Nat.add_sub_cancel, hs]

theorem all_blocks_eq (h : Inv sys d F L) : all_blocks F sys = F ++ L.map blockOf := by
  unfold all_blocks
  rw [h.live_blocks]

/-- The header of a live pointer is not a node of the free list, and its links
are null. -/
theorem live_off_list (h : Inv sys d F L) : ∀ p ∈ sys.live,
    header_size ≤ p.1 ∧ p.1 - header_size ∉ sys.heap.free_head :: F.map Prod.fst ∧
    sys.heap.mem (p.1 - header_size + 8) = 0 ∧ sys.heap.mem (p.1 - header_size + 16) = 0 := by
  intro p hp
  rw [h.live] at hp
  obtain ⟨a, ha, rfl⟩ := List.mem_map.mp hp
  have hbA : blockOf a ∈ L.map blockOf := List.mem_map.mpr ⟨a, ha, rfl⟩
  have hl := h.rep.alinks _ hbA
  simp only [ptrOf, blockOf, Nat.add_sub_cancel] at hl ⊢
  refine ⟨Nat.le_add_left _ _, ?_, hl⟩
  intro hmem
  rw [h.rep.head] at hmem
  obtain ⟨c, hc, hce⟩ := h.rep.node_block hmem
  have := (h.rep.cross hc hbA).arith
  simp only [blockOf] at this
  omega

end Inv

/-! ## The layout invariant is preserved by the operations -/

/-- Two blocks of a family of non-overlapping blocks are equal or apart. -/
theorem pairwise_apart {B : List (Nat × Nat)} (h : B.Pairwise Disj) {a c : Nat × Nat}
    (ha : a ∈ B) (hc : c ∈ B) : a = c ∨ a.1 + 24 + a.2 ≤ c.1 ∨ c.1 + 24 + c.2 ≤ a.1 := by
  by_cases e : a = c
  · exact Or.inl e
  · exact Or.inr (h.forall (fun _ _ hxy => Disj.symm hxy) ha hc e).arith

theorem pairwise_nodup {B : List (Nat × Nat)} (h : B.Pairwise Disj) : B.Nodup := by
  unfold List.Nodup
  exact h.imp (fun hab => hab.ne)

/-- Every header of a block is still the header of a block after `carve`. -/
theorem carve_headers (size : Nat) {b : Nat × Nat} {F : List (Nat × Nat)}
    (A : List (Nat × Nat)) (hb : b ∈ F) :
    ∀ x ∈ F ++ A, ∃ y ∈ (carve size b F A).1 ++ (carve size b F A).2, y.1 = x.1 := by
  intro x hx
  unfold carve
  by_cases hxb : x = b
  · subst hxb
    by_cases hs : header_size < x.2 - size
    · rw [if_pos hs]
      exact ⟨(x.1, size), List.mem_append_right _ (List.mem_cons_self _ _), rfl⟩
    · rw [if_neg hs]
      exact ⟨x, List.mem_append_right _ (List.mem_cons_self _ _), rfl⟩
  · have hmem : x ∈ F.erase b ∨ x ∈ A := by
      rcases List.mem_append.mp hx with e | e
      · exact Or.inl ((List.mem_erase_of_ne hxb).mpr e)
      · exact Or.inr e
    by_cases hs : header_size < b.2 - size
    · rw [if_pos hs]
      rcases hmem with e | e
      · exact ⟨x, List.mem_append_left _ (List.mem_cons_of_mem _ e), rfl⟩
      · exact ⟨x, List.mem_append_right _ (List.mem_cons_of_mem _ e), rfl⟩
    · rw [if_neg hs]
      rcases hmem with e | e
      · exact ⟨x, List.mem_append_left _ e, rfl⟩
      · exact ⟨x, List.mem_append_right _ (List.mem_cons_of_mem _ e), rfl⟩

/-- The free blocks after `carve`: old free blocks and the remainder of a split. -/
theorem carve_free_mem {size : Nat} {b : Nat × Nat} {F A : List (Nat × Nat)} :
    ∀ c ∈ (carve size b F A).1,
      c ∈ F ∨ (24 < b.2 - size ∧ c = (b.1 + 24 + size, b.2 - size - 24)) := by
  intro c hc
  unfold carve at hc
  by_cases hs : header_size < b.2 - size
  · rw [if_pos hs] at hc
    rcases List.mem_cons.mp hc with e | e
    · exact Or.inr ⟨hs, e⟩
    · exact Or.inl (List.mem_of_mem_erase e)
  · rw [if_neg hs] at hc
    exact Or.inl (List.mem_of_mem_erase hc)

theorem carve_rest_mem {size : Nat} {b : Nat × Nat} {F A : List (Nat × Nat)}
    (hs : 24 < b.2 - size) : (b.1 + 24 + size, b.2 - size - 24) ∈ (carve size b F A).1 := by
  have hs2 : header_size < b.2 - size := hs
  unfold carve
  rw [if_pos hs2]
  exact List.mem_cons_self _ _

namespace Geo

variable {regions F A : List (Nat × Nat)}

theorem init_geo : Geo [] [] [] :=
  ⟨fun r hr => by simp at hr, fun b hb => by simp at hb, fun _ r hr => by simp at hr,
    fun _ a ha => by simp at ha⟩

/-- Handing out a free block preserves the layout invariant. -/
theorem carve_geo (g : Geo regions F A) (hpw : (F ++ A).Pairwise Disj) {b : Nat × Nat}
    (hb : b ∈ F) (size : Nat) :
    Geo regions (carve size b F A).1 (carve size b F A).2 := by
  have hkept := carve_headers size A hb
  have hnew : ∀ c ∈ (carve size b F A).1 ++ (carve size b F A).2,
      c ∈ F ++ A ∨ (24 < b.2 - size ∧
        (c = (b.1, size) ∨ c = (b.1 + 24 + size, b.2 - size - 24))) := by
    apply carve_forall (fun c => c ∈ F ++ A ∨ (24 < b.2 - size ∧
        (c = (b.1, size) ∨ c = (b.1 + 24 + size, b.2 - size - 24))))
    · intro hs
      exact ⟨Or.inr ⟨hs, Or.inl rfl⟩, Or.inr ⟨hs, Or.inr rfl⟩⟩
    · intro c hc
      exact Or.inl hc
    · exact hb
  have hold : ∀ c ∈ F ++ A,
      (∃ y ∈ (carve size b F A).1 ++ (carve size b F A).2, y.1 = blockEnd c) ∨
      (∃ r ∈ regions, r.1 + r.2 = blockEnd c) := by
    intro c hc
    rcases g.tiled c hc with ⟨x, hx, hxe⟩ | hr
    · obtain ⟨y, hy, hy1⟩ := hkept x hx
      exact Or.inl ⟨y, hy, hy1.trans hxe⟩
    · exact Or.inr hr
  have hpF : F.Pairwise Disj := (List.pairwise_append.mp hpw).1
  refine ⟨g.rsize, ?_, ?_, ?_⟩
  · intro c hc
    rcases hnew c hc with e | ⟨hs, e | e⟩
    · exact hold c e
    · left
      refine ⟨_, List.mem_append_left _ (carve_rest_mem hs), ?_⟩
      rw [e]
      rfl
    · have hbe : blockEnd c = blockEnd b := by
        rw [e]
        simp only [blockEnd, header_size]
        omega
      rw [hbe]
      exact hold b (List.mem_append_left _ hb)
  · intro hna r hr
    obtain ⟨x, hx, hx1⟩ := g.first hna r hr
    obtain ⟨y, hy, hy1⟩ := hkept x hx
    exact ⟨y, hy, hy1.trans hx1⟩
  · intro hna x hx y hy heq
    rcases carve_free_mem x hx with ex | ⟨hs, ex⟩
    · rcases carve_free_mem y hy with ey | ⟨hs, ey⟩
      · exact g.noadj hna x ex y ey heq
      · rw [ey] at heq
        simp only [blockEnd, header_size] at heq
        rcases pairwise_apart hpF ex hb with e | e
        · rw [e] at heq
          omega
        · omega
    · have hbe : blockEnd x = blockEnd b := by
        rw [ex]
        simp only [blockEnd, header_size]
        omega
      rw [hbe] at heq
      rcases carve_free_mem y hy with ey | ⟨_, ey⟩
      · exact g.noadj hna b hb y ey heq
      · rw [ey] at heq
        simp only [blockEnd, header_size] at heq
        omega

/-- Acquiring a region of 4096 bytes preserves the layout invariant. -/
theorem acquire_geo (g : Geo regions F A) {d r : Nat}
    (hp : ProviderOK d ((r, 4096) :: regions))
    (hin : NonAdjacent regions → ∀ b ∈ F ++ A,
      ∃ q ∈ regions, q.1 ≤ b.1 ∧ b.1 + header_size + b.2 ≤ q.1 + q.2) :
    Geo ((r, 4096) :: regions) ((r, 4072) :: F) A := by
  have hdis := (List.pairwise_cons.mp hp.1).1
  refine ⟨?_, ?_, ?_, ?_⟩
  · intro q hq
    rcases List.mem_cons.mp hq with e | e
    · rw [e]
    · exact g.rsize q e
  · intro c hc
    rw [List.cons_append] at hc
    rcases List.mem_cons.mp hc with e | e
    · right
      refine ⟨(r, 4096), List.mem_cons_self _ _, ?_⟩
      rw [e]
      rfl
    · rcases g.tiled c e with ⟨x, hx, hxe⟩ | ⟨q, hq, hqe⟩
      · exact Or.inl ⟨x, by rw [List.cons_append]; exact List.mem_cons_of_mem _ hx, hxe⟩
      · exact Or.inr ⟨q, List.mem_cons_of_mem _ hq, hqe⟩
  · intro hna q hq
    rcases List.mem_cons.mp hq with e | e
    · exact ⟨(r, 4072), by rw [List.cons_append]; exact List.mem_cons_self _ _, by rw [e]⟩
    · obtain ⟨x, hx, hx1⟩ := g.first (List.pairwise_cons.mp hna).2 q e
      exact ⟨x, by rw [List.cons_append]; exact List.mem_cons_of_mem _ hx, hx1⟩
  · intro hna x hx y hy heq
    have hna1 := (List.pairwise_cons.mp hna).1
    have hna2 := (List.pairwise_cons.mp hna).2
    rcases List.mem_cons.mp hx with ex | ex
    · rcases List.mem_cons.mp hy with ey | ey
      · rw [ex, ey] at heq
        simp only [blockEnd, header_size] at heq
        omega
      · obtain ⟨q, hq, q1, q2⟩ := hin hna2 y (List.mem_append_left _ ey)
        have a1 := hdis q hq
        have a2 := hna1 q hq
        rw [ex] at heq
        simp only [blockEnd, header_size] at heq q2 a1 a2
        omega
    · rcases List.mem_cons.mp hy with ey | ey
      · obtain ⟨q, hq, q1, q2⟩ := hin hna2 x (List.mem_append_left _ ex)
        have a1 := hdis q hq
        have a2 := hna1 q hq
        rw [ey] at heq
        simp only [blockEnd, header_size] at heq q2 a1 a2
        omega
      · exact g.noadj hna2 x ex y ey heq

end Geo

theorem findAt_none {addr : Nat} {F : List (Nat × Nat)} (h : findAt addr F = none) :
    ∀ c ∈ F, c.1 ≠ addr := by
  unfold findAt at h
  rw [List.find?_eq_none] at h
  intro c hc
  simpa using h c hc

theorem findEndingAt_none {addr : Nat} {F : List (Nat × Nat)}
    (h : findEndingAt addr F = none) : ∀ c ∈ F, blockEnd c ≠ addr := by
  unfold findEndingAt at h
  rw [List.find?_eq_none] at h
  intro c hc
  simpa [blockEnd] using h c hc

/-- Membership in a family of non-overlapping blocks after erasing the block
with a given header. -/
theorem mem_erase_hdr {F : List (Nat × Nat)} (hpw : F.Pairwise Disj) {r : Nat × Nat}
    (hr : r ∈ F) (c : Nat × Nat) : c ∈ F.erase r ↔ c ∈ F ∧ c.1 ≠ r.1 := by
  rw [(pairwise_nodup hpw).mem_erase_iff]
  constructor
  · rintro ⟨h1, h2⟩
    exact ⟨h2, fun e => h1 (same_header hpw h2 hr e)⟩
  · rintro ⟨h1, h2⟩
    exact ⟨fun e => h2 (by rw [e]), h1⟩

/-- Membership in a family of non-overlapping blocks after erasing the block
with a given end. -/
theorem mem_erase_end {F : List (Nat × Nat)} (hpw : F.Pairwise Disj) {l : Nat × Nat}
    (hl : l ∈ F) (c : Nat × Nat) : c ∈ F.erase l ↔ c ∈ F ∧ blockEnd c ≠ blockEnd l := by
  rw [(pairwise_nodup hpw).mem_erase_iff]
  constructor
  · rintro ⟨h1, h2⟩
    exact ⟨h2, fun e => h1 (same_end hpw h2 hl e)⟩
  · rintro ⟨h1, h2⟩
    exact ⟨fun e => h2 (by rw [e]), h1⟩

/-- The free list after `coalesce`: the merged block `m` followed by the free
blocks that are not adjacent to the freed block. -/
theorem coalesce_shape (b : Nat × Nat) {F : List (Nat × Nat)} (hpw : F.Pairwise Disj) :
    ∃ m F2, coalesce b F = m :: F2 ∧
      (∀ c, c ∈ F2 ↔ c ∈ F ∧ blockEnd c ≠ b.1 ∧ c.1 ≠ blockEnd b) ∧
      m.1 ≤ b.1 ∧ blockEnd b ≤ blockEnd m ∧
      ((m.1 = b.1 ∧ ∀ c ∈ F, blockEnd c ≠ b.1) ∨ (∃ l ∈ F, blockEnd l = b.1 ∧ m.1 = l.1)) ∧
      ((blockEnd m = blockEnd b ∧ ∀ c ∈ F, c.1 ≠ blockEnd b) ∨
        (∃ r ∈ F, r.1 = blockEnd b ∧ blockEnd m = blockEnd r)) := by
  cases hl : findEndingAt b.1 F with
  | none =>
    have nl := findEndingAt_none hl
    cases hr : findAt (b.1 + header_size + b.2) F with
    | none =>
      have nr := findAt_none hr
      refine ⟨b, F, by unfold coalesce; rw [hl, hr], ?_, Nat.le_refl _, Nat.le_refl _,
        Or.inl ⟨rfl, nl⟩, Or.inl ⟨rfl, nr⟩⟩
      intro c
      exact ⟨fun h => ⟨h, nl c h, nr c h⟩, fun h => h.1⟩
    | some r =>
      obtain ⟨r1, r2⟩ := findAt_some hr
      refine ⟨(b.1, b.2 + (header_size + r.2)), F.erase r, by unfold coalesce; rw [hl, hr],
        ?_, Nat.le_refl _, ?_, Or.inl ⟨rfl, nl⟩, Or.inr ⟨r, r1, r2, ?_⟩⟩
      · intro c
        rw [mem_erase_hdr hpw r1, r2]
        exact ⟨fun h => ⟨h.1, nl c h.1, h.2⟩, fun h => ⟨h.1, h.2.2⟩⟩
      · simp only [blockEnd, header_size]
        omega
      · simp only [blockEnd, header_size] at r2 ⊢
        omega
  | some l =>
    obtain ⟨l1, l2⟩ := findEndingAt_some hl
    have l3 : blockEnd l = b.1 := l2
    cases hr : findAt (b.1 + header_size + b.2) F with
    | none =>
      have nr := findAt_none hr
      refine ⟨(l.1, l.2 + (header_size + b.2)), F.erase l, by unfold coalesce; rw [hl, hr],
        ?_, ?_, ?_, Or.inr ⟨l, l1, l3, rfl⟩, Or.inl ⟨?_, nr⟩⟩
      · intro c
        rw [mem_erase_end hpw l1, l3]
        exact ⟨fun h => ⟨h.1, h.2, nr c h.1⟩, fun h => ⟨h.1, h.2.1⟩⟩
      · simp only [blockEnd, header_size] at l3 ⊢
        omega
      · simp only [blockEnd, header_size] at l3 ⊢
        omega
      · simp only [blockEnd, header_size] at l3 ⊢
        omega
    | some r =>
      obtain ⟨r1, r2⟩ := findAt_some hr
      have hrl : r ∈ F.erase l := by
        rw [mem_erase_end hpw l1]
        refine ⟨r1, ?_⟩
        simp only [blockEnd, header_size] at l3 r2 ⊢
        omega
      have hpw2 : (F.erase l).Pairwise Disj := hpw.sublist (List.erase_sublist l F)
      refine ⟨(l.1, l.2 + (header_size + b.2 + header_size + r.2)), (F.erase l).erase r,
        by unfold coalesce; rw [hl, hr], ?_, ?_, ?_, Or.inr ⟨l, l1, l3, rfl⟩,
        Or.inr ⟨r, r1, r2, ?_⟩⟩
      · intro c
        rw [mem_erase_hdr hpw2 hrl, mem_erase_end hpw l1, l3, r2]
        exact ⟨fun h => ⟨h.1.1, h.1.2, h.2⟩, fun h => ⟨⟨h.1, h.2.1⟩, h.2.2⟩⟩
      · simp only [blockEnd, header_size] at l3 ⊢
        omega
      · simp only [blockEnd, header_size] at l3 r2 ⊢
        omega
      · simp only [blockEnd, header_size] at l3 r2 ⊢
        omega

/-- A block inside a region does not end where another region starts, when the
regions are disjoint and no two of them are adjacent. -/
theorem region_start_not_end {d : Nat} {regions : List (Nat × Nat)}
    (hp : ProviderOK d regions) (hna : NonAdjacent regions) {q : Nat × Nat} (hq : q ∈ regions)
    {c : Nat × Nat}
    (hc : ∃ r ∈ regions, r.1 ≤ c.1 ∧ c.1 + header_size + c.2 ≤ r.1 + r.2) :
    blockEnd c ≠ q.1 := by
  obtain ⟨r, hr, r1, r2⟩ := hc
  intro e
  simp only [blockEnd, header_size] at e r2
  by_cases hqr : q = r
  · subst hqr
    omega
  · have p1 := hp.1.forall (fun _ _ hxy => Or.symm hxy) hq hr hqr
    have p2 := hna.forall (fun _ _ hxy => And.symm hxy) hq hr hqr
    simp only at p1 p2
    omega

/-- Freeing an allocated block preserves the layout invariant. -/
theorem Geo.coalesce_geo {regions F A : List (Nat × Nat)} (g : Geo regions F A)
    (hpw : (F ++ A).Pairwise Disj) {b : Nat × Nat} (hb : b ∈ A) {d : Nat}
    (hp : ProviderOK d regions)
    (hin : NonAdjacent regions → ∀ c ∈ F ++ A,
      ∃ q ∈ regions, q.1 ≤ c.1 ∧ c.1 + header_size + c.2 ≤ q.1 + q.2) :
    Geo regions (coalesce b F) (A.erase b) := by
  have hpF : F.Pairwise Disj := (List.pairwise_append.mp hpw).1
  have hpA : A.Pairwise Disj := (List.pairwise_append.mp hpw).2.1
  have hFA : ∀ x ∈ F, ∀ y ∈ A, x.1 + 24 + x.2 ≤ y.1 ∨ y.1 + 24 + y.2 ≤ x.1 :=
    fun x hx y hy => ((List.pairwise_append.mp hpw).2.2 x hx y hy).arith
  have hAmem : ∀ c, c ∈ A.erase b ↔ c ≠ b ∧ c ∈ A := fun c =>
    (pairwise_nodup hpA).mem_erase_iff
  obtain ⟨m, F2, e, hmem, hm1, hm2, hleft, hright⟩ := coalesce_shape b hpF
  rw [e]
  have hkept : ∀ x ∈ F ++ A, x.1 ≠ blockEnd b → (x.1 = b.1 → ∀ c ∈ F, blockEnd c ≠ b.1) →
      ∃ y ∈ (m :: F2) ++ A.erase b, y.1 = x.1 := by
    intro x hx h1 h2
    rcases List.mem_append.mp hx with hxF | hxA
    · by_cases hxe : blockEnd x = b.1
      · rcases hleft with ⟨_, nl⟩ | ⟨l, hl, l1, l2⟩
        · exact absurd hxe (nl x hxF)
        · have : x = l := same_end hpF hxF hl (hxe.trans l1.symm)
          exact ⟨m, List.mem_append_left _ (List.mem_cons_self _ _), by rw [this, l2]⟩
      · exact ⟨x, List.mem_append_left _ (List.mem_cons_of_mem _ ((hmem x).mpr ⟨hxF, hxe, h1⟩)),
          rfl⟩
    · by_cases hxb : x = b
      · have nl := h2 (by rw [hxb])
        rcases hleft with ⟨m1, _⟩ | ⟨l, hl, l1, _⟩
        · exact ⟨m, List.mem_append_left _ (List.mem_cons_self _ _), by rw [m1, hxb]⟩
        · exact absurd l1 (nl l hl)
      · exact ⟨x, List.mem_append_right _ ((hAmem x).mpr ⟨hxb, hxA⟩), rfl⟩
  have hold : ∀ c ∈ F ++ A, c ≠ b → (c ∈ F → blockEnd c ≠ b.1) →
      (∃ y ∈ (m :: F2) ++ A.erase b, y.1 = blockEnd c) ∨
      (∃ r ∈ regions, r.1 + r.2 = blockEnd c) := by
    intro c hc hcb hce
    rcases g.tiled c hc with ⟨x, hx, hxe⟩ | hr
    · left
      have h1 : x.1 ≠ blockEnd b := by
        intro e1
        rw [hxe] at e1
        simp only [blockEnd, header_size] at e1
        rcases List.mem_append.mp hc with hcF | hcA
        · have := hFA c hcF b hb
          omega
        · rcases pairwise_apart hpA hcA hb with e2 | e2
          · exact hcb e2
          · omega
      have h2 : x.1 = b.1 → ∀ l ∈ F, blockEnd l ≠ b.1 := by
        intro e1 l hl e2
        rw [hxe] at e1
        rcases List.mem_append.mp hc with hcF | hcA
        · exact hce hcF e1
        · have := hFA l hl c hcA
          simp only [blockEnd, header_size] at e1 e2
          omega
      obtain ⟨y, hy, hy1⟩ := hkept x hx h1 h2
      exact ⟨y, hy, hy1.trans hxe⟩
    · exact Or.inr hr
  refine ⟨g.rsize, ?_, ?_, ?_⟩
  · intro c hc
    rcases List.mem_append.mp hc with hcF | hcA
    · rcases List.mem_cons.mp hcF with ec | ec
      · rw [ec]
        rcases hright with ⟨m2, nr⟩ | ⟨r, hr, r1, r2⟩
        · rw [m2]
          rcases g.tiled b (List.mem_append_right _ hb) with ⟨x, hx, hxe⟩ | hreg
          · left
            rcases List.mem_append.mp hx with hxF | hxA
            · exact absurd hxe (nr x hxF)
            · refine ⟨x, List.mem_append_right _ ((hAmem x).mpr ⟨?_, hxA⟩), hxe⟩
              intro e1
              rw [e1] at hxe
              simp only [blockEnd, header_size] at hxe
              omega
          · exact Or.inr hreg
        · rw [r2]
          rcases g.tiled r (List.mem_append_left _ hr) with ⟨x, hx, hxe⟩ | hreg
          · left
            have h1 : x.1 ≠ blockEnd b := by
              rw [hxe, ← r1]
              simp only [blockEnd, header_size]
              omega
            have h2 : x.1 = b.1 → ∀ l ∈ F, blockEnd l ≠ b.1 := by
              intro e1
              rw [hxe] at e1
              simp only [blockEnd, header_size] at e1 r1
              omega
            obtain ⟨y, hy, hy1⟩ := hkept x hx h1 h2
            exact ⟨y, hy, hy1.trans hxe⟩
          · exact Or.inr hreg
      · obtain ⟨c1, c2, _⟩ := (hmem c).mp ec
        apply hold c (List.mem_append_left _ c1) _ (fun _ => c2)
        intro e1
        have := hFA c c1 b hb
        rw [e1] at this
        omega
    · obtain ⟨c1, c2⟩ := (hAmem c).mp hcA
      apply hold c (List.mem_append_right _ c2) c1
      intro hcF
      have := hFA c hcF c c2
      omega
  · intro hna q hq
    obtain ⟨x, hx, hx1⟩ := g.first hna q hq
    have h1 : x.1 ≠ blockEnd b := by
      rw [hx1]
      exact (region_start_not_end hp hna hq (hin hna b (List.mem_append_right _ hb))).symm
    have h2 : x.1 = b.1 → ∀ l ∈ F, blockEnd l ≠ b.1 := by
      intro e1 l hl
      rw [← e1, hx1]
      exact region_start_not_end hp hna hq (hin hna l (List.mem_append_left _ hl))
    obtain ⟨y, hy, hy1⟩ := hkept x hx h1 h2
    exact ⟨y, hy, hy1.trans hx1⟩
  · intro hna x hx y hy heq
    rcases List.mem_cons.mp hx with ex | ex
    · rw [ex] at heq
      rcases List.mem_cons.mp hy with ey | ey
      · rw [ey] at heq
        simp only [blockEnd, header_size] at heq hm2
        omega
      · obtain ⟨y1, _, y3⟩ := (hmem y).mp ey
        rcases hright with ⟨m2, _⟩ | ⟨r, hr, _, r2⟩
        · rw [m2] at heq
          exact y3 heq.symm
        · rw [r2] at heq
          exact g.noadj hna r hr y y1 heq
    · obtain ⟨x1, x2, _⟩ := (hmem x).mp ex
      rcases List.mem_cons.mp hy with ey | ey
      · rw [ey] at heq
        rcases hleft with ⟨m1, _⟩ | ⟨l, hl, _, l2⟩
        · rw [m1] at heq
          exact x2 heq
        · rw [l2] at heq
          exact g.noadj hna x x1 l hl heq
      · exact g.noadj hna x x1 y ((hmem y).mp ey).1 heq

/-! ## Reachable states satisfy the layout invariant -/

namespace Inv

variable {sys : Sys} {d : Nat} {F : List (Nat × Nat)} {L : List (Nat × Nat × Nat)}

theorem blocks_pairwise (h : Inv sys d F L) : (F ++ L.map blockOf).Pairwise Disj :=
  (List.pairwise_cons.mp h.rep.disj).2

/-- A call of `my_malloc` that returns preserves the invariant together with
the layout invariant. -/
theorem malloc_geo (h : Inv sys d F L) (g : Geo sys.heap.mmap_calls F (L.map blockOf))
    {fuel size region ptr : Nat} {s2 : State}
    (hpos : 0 < size) (h8 : size % 8 = 0) (hsz : size ≤ 4000)
    (hm : my_malloc fuel size [region] sys.heap = some (ptr, s2))
    (hp : ProviderOK s2.free_head s2.mmap_calls) :
    ∃ F2 L2, Inv ⟨s2, (ptr, size) :: sys.live⟩ d F2 L2 ∧
      Geo s2.mmap_calls F2 (L2.map blockOf) := by
  cases hbf : bestFit size F none SIZE_MAX with
  | some b =>
    obtain ⟨hbF, hbs, _⟩ := bestFit_some hbf
    have e := (h.rep.malloc_hit hbf fuel [region]).2 _ hm
    have hst := h.carve_step hbF hbs hpos h8
    rw [← e] at hst
    have hs2 : s2 = (my_malloc_carve size b.1 sys.heap).2 := by rw [← e]
    have hcalls : s2.mmap_calls = sys.heap.mmap_calls := by rw [hs2, carve_mmap_calls]
    have g2 := g.carve_geo h.blocks_pairwise hbF size
    rw [carve_snd, ← hcalls] at g2
    exact ⟨_, _, hst, g2⟩
  | none =>
    have hm2 := h.rep.miss_unfold hbf hm
    obtain ⟨k1, k2⟩ := malloc_nil_calls hm2
    have hacq : (my_malloc_acquire size region sys.heap).mmap_calls =
        (region, 4096) :: sys.heap.mmap_calls := by
      show (region, buffer_size size) :: sys.heap.mmap_calls = _
      rw [Rep.buffer_size_small hsz]
    have hcalls : s2.mmap_calls = (region, 4096) :: sys.heap.mmap_calls := by
      rw [show s2.mmap_calls = (my_malloc_acquire size region sys.heap).mmap_calls from k1]
      exact hacq
    have hfh : s2.free_head = d := by
      rw [show s2.free_head = (my_malloc_acquire size region sys.heap).free_head from k2]
      exact h.rep.head
    rw [hcalls, hfh] at hp
    have h1 := h.acquire_step hsz region hp
    have g1 : Geo ((region, 4096) :: sys.heap.mmap_calls) ((region, 4072) :: F)
        (L.map blockOf) := g.acquire_geo hp h.inside
    have hsmall := bestFit_none h.rep.free_size_lt hbf
    have hbf2 := bestFit_fresh region hsz hsmall
    have e := (h1.rep.malloc_hit hbf2 fuel []).2 _ hm2
    have hmem : (region, 4072) ∈ (region, 4072) :: F := List.mem_cons_self _ _
    have hst := h1.carve_step hmem (by show size ≤ 4072; omega) hpos h8
    rw [← e] at hst
    have g2 := g1.carve_geo h1.blocks_pairwise hmem size
    rw [carve_snd, ← hcalls] at g2
    exact ⟨_, _, hst, g2⟩

/-- A call of `my_free` on a live pointer that returns preserves the invariant
together with the layout invariant. -/
theorem free_geo (h : Inv sys d F L) (g : Geo sys.heap.mmap_calls F (L.map blockOf))
    {fuel ptr size : Nat} {s2 : State}
    (hl : (ptr, size) ∈ sys.live) (hf : my_free fuel ptr sys.heap = some s2) :
    ∃ F2 L2, Inv ⟨s2, sys.live.filter (fun x => x.1 != ptr)⟩ d F2 L2 ∧
      Geo s2.mmap_calls F2 (L2.map blockOf) := by
  obtain ⟨a, ha, hptr, hst⟩ := h.free_call hl hf
  have hbA : blockOf a ∈ L.map blockOf := List.mem_map.mpr ⟨a, ha, rfl⟩
  have hreq := h.req a ha
  subst hptr
  have e := (h.rep.free_run hbA (by show 0 < a.2.1; omega) fuel).2 s2 hf
  have hcalls : s2.mmap_calls = sys.heap.mmap_calls := by rw [e, merge_mmap_calls]
  have hpwA : (L.map blockOf).Pairwise Disj := (List.pairwise_append.mp h.blocks_pairwise).2.1
  have g2 := g.coalesce_geo h.blocks_pairwise hbA h.provider h.inside
  rw [erase_blockOf L a hpwA ha, ← hcalls] at g2
  exact ⟨_, _, hst, g2⟩

end Inv

/-- Every reachable state satisfies the invariant and the layout invariant. -/
theorem reachable_geo {sys : Sys} (h : Reachable sys) :
    ∃ d F L, Inv sys d F L ∧ Geo sys.heap.mmap_calls F (L.map blockOf) := by
  induction h with
  | init dummy s h1 h2 h3 =>
    refine ⟨dummy, [], [], Inv.init_inv dummy s h1 h2 h3, ?_⟩
    have hc : ( my_initialize dummy s).mmap_calls = [] := h3
    show Geo ( my_initialize dummy s).mmap_calls [] []
    rw [hc]
    exact Geo.init_geo
  | malloc sys fuel size region ptr s2 _ hpos h8 hsz hm hp ih =>
    obtain ⟨d, F, L, hinv, g⟩ := ih
    obtain ⟨F2, L2, hst, g2⟩ := hinv.malloc_geo g hpos h8 hsz hm hp
    exact ⟨d, F2, L2, hst, g2⟩
  | free sys fuel ptr size s2 _ hl hf ih =>
    obtain ⟨d, F, L, hinv, g⟩ := ih
    obtain ⟨F2, L2, hst, g2⟩ := hinv.free_geo g hl hf
    exact ⟨d, F2, L2, hst, g2⟩

/-! ## Blocks and their regions -/

/-- Two regions that share a byte are the same region. -/
theorem region_unique {d : Nat} {regions : List (Nat × Nat)} (hp : ProviderOK d regions)
    {q r : Nat × Nat} (hq : q ∈ regions) (hr : r ∈ regions) (x : Nat)
    (h1 : q.1 ≤ x ∧ x < q.1 + q.2) (h2 : r.1 ≤ x ∧ x < r.1 + r.2) : q = r := by
  by_contra hne
  have := hp.1.forall (fun _ _ hxy => Or.symm hxy) hq hr hne
  simp only at this
  omega

/-- A block that starts where a block of region `r` ends lies in `r` too, when
no two regions are adjacent. -/
theorem next_in_region {d : Nat} {regions : List (Nat × Nat)} (hp : ProviderOK d regions)
    (hna : NonAdjacent regions) {r q : Nat × Nat} (hr : r ∈ regions) (hq : q ∈ regions)
    {b c : Nat × Nat} (hb : r.1 ≤ b.1 ∧ blockEnd b ≤ r.1 + r.2)
    (hc : q.1 ≤ c.1 ∧ blockEnd c ≤ q.1 + q.2) (hadj : c.1 = blockEnd b) : q = r := by
  by_contra hne
  have p1 := hp.1.forall (fun _ _ hxy => Or.symm hxy) hq hr hne
  have p2 := hna.forall (fun _ _ hxy => And.symm hxy) hq hr hne
  simp only [blockEnd, header_size] at *
  omega

/-- A block of region `r` that ends where a region ends, ends where `r` ends. -/
theorem end_in_region {d : Nat} {regions : List (Nat × Nat)} (hp : ProviderOK d regions)
    {r q : Nat × Nat} (hr : r ∈ regions) (hq : q ∈ regions) (hq2 : q.2 = 4096)
    {b : Nat × Nat} (hb : r.1 ≤ b.1 ∧ blockEnd b ≤ r.1 + r.2)
    (hend : q.1 + q.2 = blockEnd b) : q = r := by
  by_contra hne
  have p1 := hp.1.forall (fun _ _ hxy => Or.symm hxy) hq hr hne
  simp only [blockEnd, header_size] at *
  omega

theorem exReach4 : Reachable ⟨exFree1, []⟩ :=
  Reachable.free ⟨exCall1.2, [(exCall1.1, 4000)]⟩ 4 exCall1.1 4000 exFree1
    exReach1 (by decide) (getD_eq (by decide))

namespace Inv

variable {sys : Sys} {d : Nat} {F : List (Nat × Nat)} {L : List (Nat × Nat × Nat)}

/-- When no two regions are adjacent, every block lies in a region and is
followed there by another block or by the end of the region. -/
theorem block_next (h : Inv sys d F L) (g : Geo sys.heap.mmap_calls F (L.map blockOf))
    (hna : NonAdjacent sys.heap.mmap_calls) : ∀ b ∈ F ++ L.map blockOf,
    ∃ r ∈ sys.heap.mmap_calls, r.1 ≤ b.1 ∧ blockEnd b ≤ r.1 + r.2 ∧
      ((∃ c ∈ F ++ L.map blockOf, c.1 = blockEnd b ∧ r.1 ≤ c.1 ∧ blockEnd c ≤ r.1 + r.2) ∨
        r.1 + r.2 = blockEnd b) := by
  intro b hb
  obtain ⟨r, hr, r1, r2⟩ := h.inside hna b hb
  refine ⟨r, hr, r1, r2, ?_⟩
  rcases g.tiled b hb with ⟨c, hc, hce⟩ | ⟨q, hq, hqe⟩
  · left
    obtain ⟨q, hq, q1, q2⟩ := h.inside hna c hc
    have e := next_in_region h.provider hna hr hq ⟨r1, r2⟩ ⟨q1, q2⟩ hce
    rw [e] at q1 q2
    exact ⟨c, hc, hce, q1, q2⟩
  · right
    have e := end_in_region h.provider hr hq (g.rsize q hq) ⟨r1, r2⟩ hqe
    rw [← e]
    exact hqe

/-- When nothing is allocated and no two regions are adjacent, the free blocks
are the regions, one block per region. -/
theorem all_free (h : Inv sys d F []) (g : Geo sys.heap.mmap_calls F [])
    (hna : NonAdjacent sys.heap.mmap_calls) :
    F.Perm (sys.heap.mmap_calls.map (fun r => (r.1, r.2 - header_size))) := by
  have hpF : F.Pairwise Disj := h.rep.free_pairwise
  have hfill : ∀ b ∈ F, ∃ r ∈ sys.heap.mmap_calls,
      r.1 ≤ b.1 ∧ blockEnd b ≤ r.1 + r.2 ∧ r.1 + r.2 = blockEnd b := by
    intro b hb
    obtain ⟨r, hr, r1, r2, hnext⟩ := h.block_next g hna b (by simpa using hb)
    rcases hnext with ⟨c, hc, hce, _⟩ | he
    · exact absurd hce.symm (g.noadj hna b hb c (by simpa using hc))
    · exact ⟨r, hr, r1, r2, he⟩
  have hstart : ∀ q ∈ sys.heap.mmap_calls, (q.1, q.2 - header_size) ∈ F := by
    intro q hq
    obtain ⟨x, hx, hx1⟩ := g.first hna q hq
    have hxF : x ∈ F := by simpa using hx
    obtain ⟨r, hr, r1, r2, r3⟩ := hfill x hxF
    have hq2 := g.rsize q hq
    have e : q = r := by
      apply region_unique h.provider hq hr x.1
      · omega
      · simp only [blockEnd, header_size] at r2
        omega
    have hxe : x = (q.1, q.2 - header_size) := by
      rw [← e] at r3
      simp only [blockEnd, header_size] at r3 ⊢
      apply Prod.ext
      · exact hx1
      · show x.2 = q.2 - 24
        omega
    rw [← hxe]
    exact hxF
  apply (List.perm_ext_iff_of_nodup (pairwise_nodup hpF) ?_).mpr
  · intro b
    constructor
    · intro hb
      obtain ⟨r, hr, r1, r2, r3⟩ := hfill b hb
      have hx := hstart r hr
      have hr2 := g.rsize r hr
      have e : (r.1, r.2 - header_size) = b := by
        apply same_end hpF hx hb
        simp only [blockEnd, header_size] at r3 ⊢
        omega
      exact List.mem_map.mpr ⟨r, hr, e⟩
    · intro hb
      obtain ⟨q, hq, hqe⟩ := List.mem_map.mp hb
      rw [← hqe]
      exact hstart q hq
  · unfold List.Nodup
    rw [List.pairwise_map]
    refine h.provider.1.imp_of_mem ?_
    intro q r hq hr hqr e
    have hq2 := g.rsize q hq
    have hr2 := g.rsize r hr
    simp only [Prod.mk.injEq] at e
    omega

end Inv

/-! ## Main theorems -/

/-- C1 (non-overlap of live allocations): in every reachable state the live
pointers are pairwise distinct, and for two distinct live pointers `p` and `q`
returned for requests of `s` and `t` bytes the ranges `[p, p + s)` and
`[q, q + t)` are disjoint. -/
theorem live_allocations_disjoint (sys : Sys) (h : Reachable sys) :
    (sys.live.map Prod.fst).Nodup ∧
    ∀ p s q t, (p, s) ∈ sys.live → (q, t) ∈ sys.live → p ≠ q → p + s ≤ q ∨ q + t ≤ p := by
  obtain ⟨d, F, L, hinv⟩ := reachable_inv h
  have hpw : (L.map blockOf).Pairwise Disj :=
    (List.pairwise_append.mp (List.pairwise_cons.mp hinv.rep.disj).2).2.1
  constructor
  · rw [hinv.live, List.map_map]
    unfold List.Nodup
    rw [List.pairwise_map] at hpw ⊢
    refine hpw.imp ?_
    intro a c hac
    have := hac.arith
    simp only [blockOf, Function.comp, ptrOf, header_size] at this ⊢
    omega
  · intro p s q t hp hq hne
    rw [hinv.live] at hp hq
    obtain ⟨a, ha, hae⟩ := List.mem_map.mp hp
    obtain ⟨c, hc, hce⟩ := List.mem_map.mp hq
    simp only [ptrOf, Prod.mk.injEq, header_size] at hae hce
    have hra := hinv.req a ha
    have hrc := hinv.req c hc
    have hbne : blockOf a ≠ blockOf c := by
      intro e
      simp only [blockOf, Prod.mk.injEq] at e
      omega
    have hd := hpw.forall (fun _ _ hxy => Disj.symm hxy)
      (List.mem_map.mpr ⟨a, ha, rfl⟩) (List.mem_map.mpr ⟨c, hc, rfl⟩) hbne
    have := hd.arith
    simp only [blockOf] at this
    omega

theorem live_allocations_disjoint_witness :
    exCall2.1 + 4000 ≤ exCall1.1 ∨ exCall1.1 + 4000 ≤ exCall2.1 :=
  (live_allocations_disjoint ⟨exCall2.2, [(exCall2.1, 4000), (exCall1.1, 4000)]⟩ exReach2).2
    exCall2.1 4000 exCall1.1 4000 (by decide) (by decide) (by decide)

/-- C4 (8-byte alignment): when every region handed out by the page provider
starts at a multiple of 8, every pointer returned by `my_malloc` from a
reachable state, for a request that is a positive multiple of 8, is a multiple
of 8. -/
theorem malloc_pointer_aligned (sys : Sys) (h : Reachable sys) (fuel size region ptr : Nat)
    (s2 : State) (hpos : 0 < size) (h8 : size % 8 = 0) (hsz : size ≤ 4000)
    (hm : my_malloc fuel size [region] sys.heap = some (ptr, s2))
    (hp : ProviderOK s2.free_head s2.mmap_calls)
    (hal : ∀ r ∈ s2.mmap_calls, r.1 % 8 = 0) : ptr % 8 = 0 := by
  obtain ⟨d, F, L, hinv⟩ := reachable_inv h
  obtain ⟨b, F0, _, _, hptr, _, hst⟩ := hinv.malloc_step hpos h8 hsz hm hp
  have := hst.addr8 hal (blockOf (b.1, (if header_size < b.2 - size then size else b.2), size))
    (List.mem_append_right _ (List.mem_map.mpr ⟨_, List.mem_cons_self _ _, rfl⟩))
  simp only [blockOf, header_size] at this hptr
  omega

theorem malloc_pointer_aligned_witness : exCall2.1 % 8 = 0 :=
  malloc_pointer_aligned ⟨exCall1.2, [(exCall1.1, 4000)]⟩ exReach1 4 4000 8192 exCall2.1
    exCall2.2 (by decide) (by decide) (by decide) (outcome_eq (by decide))
    (by unfold ProviderOK; decide) (by decide)

/-- C10 (idempotent reinitialisation): from any state `my_initialize` makes
`free_head` refer to the sentinel, gives the sentinel size 0 and null links,
leaves an empty free list, and a second call changes nothing. -/
theorem initialize_idempotent (dummy : Nat) (s : State) :
    ( my_initialize dummy s).free_head = dummy ∧
    ( my_initialize dummy s).mem dummy = 0 ∧
    ( my_initialize dummy s).mem (dummy + 8) = 0 ∧
    ( my_initialize dummy s).mem (dummy + 16) = 0 ∧
    (∀ fuel, 0 < fuel → free_list fuel ( my_initialize dummy s) = some []) ∧
    my_initialize dummy ( my_initialize dummy s) = my_initialize dummy s := by
  have e8 : ( my_initialize dummy s).mem (dummy + 8) = 0 := by
    show store (store (store s.mem dummy 0) (dummy + 8) 0) (dummy + 16) 0 (dummy + 8) = 0
    rw [store_other _ _ _ _ (by omega), store_same]
  refine ⟨rfl, ?_, e8, ?_, ?_, ?_⟩
  · show store (store (store s.mem dummy 0) (dummy + 8) 0) (dummy + 16) 0 dummy = 0
    rw [store_other _ _ _ _ (by omega), store_other _ _ _ _ (by omega), store_same]
  · show store (store (store s.mem dummy 0) (dummy + 8) 0) (dummy + 16) 0 (dummy + 16) = 0
    rw [store_same]
  · intro fuel hf
    cases fuel with
    | zero => simp at hf
    | succ f =>
      unfold free_list
      have e : ( my_initialize dummy s).free_head = dummy := rfl
      rw [e, e8]
      simp [free_list_walk]
  · show State.mk dummy _ s.mmap_calls = State.mk dummy _ s.mmap_calls
    congr 1
    funext a
    simp only [ my_initialize, store]
    split_ifs <;> rfl

theorem initialize_idempotent_witness :
    my_initialize 16 ( my_initialize 16 exHeap0) = my_initialize 16 exHeap0 :=
  (initialize_idempotent 16 exHeap0).2.2.2.2.2

/-- C3, amended (at least `size` usable bytes): from a reachable state, for a
request that is a positive multiple of 8 and at most 4000 and an acceptable
provider answer, `my_malloc` returns when given enough fuel, and every pointer
it returns is `hd + header_size` for a block header `hd` whose size field after
the call is at least the request, so that `[ptr, ptr + size)` lies inside the
block's usable memory.  Every byte of the block lies in some region obtained
from the provider; the block lies inside one region when no two regions are
address-adjacent. -/
theorem malloc_usable_bytes (sys : Sys) (h : Reachable sys) (size region : Nat)
    (hpos : 0 < size) (h8 : size % 8 = 0) (hsz : size ≤ 4000)
    (hprov : ProviderOK sys.heap.free_head ((region, 4096) :: sys.heap.mmap_calls)) :
    (∃ n, ∀ fuel, n < fuel → (my_malloc fuel size [region] sys.heap).isSome = true) ∧
    ∀ fuel ptr s2, my_malloc fuel size [region] sys.heap = some (ptr, s2) →
      ∃ hd, ptr = hd + header_size ∧ size ≤ s2.mem hd ∧
        ptr + size ≤ hd + header_size + s2.mem hd ∧
        Covered s2.mmap_calls hd (hd + header_size + s2.mem hd) ∧
        (NonAdjacent s2.mmap_calls →
          ∃ r ∈ s2.mmap_calls, r.1 ≤ hd ∧ hd + header_size + s2.mem hd ≤ r.1 + r.2) := by
  obtain ⟨d, F, L, hinv⟩ := reachable_inv h
  rw [hinv.free_head] at hprov
  refine ⟨⟨F.length + 1, fun fuel hf => hinv.malloc_total hsz hprov fuel hf⟩, ?_⟩
  intro fuel ptr s2 hm
  have hp := hinv.provider_after hsz hm hprov
  obtain ⟨b, F0, _, _, hptr, _, hst⟩ := hinv.malloc_step hpos h8 hsz hm hp
  have hmem : blockOf (b.1, (if header_size < b.2 - size then size else b.2), size) ∈
      (carve size b F0 (L.map blockOf)).1 ++ (carveLive size b L).map blockOf :=
    List.mem_append_right _ (List.mem_map.mpr ⟨_, List.mem_cons_self _ _, rfl⟩)
  have hsize := hst.rep.sizes _ hmem
  have hreq := hst.req _ (List.mem_cons_self _ _)
  have hcov := hst.covered _ hmem
  have hins := fun hna => hst.inside hna _ hmem
  simp only [blockOf] at hsize hreq hcov hins
  refine ⟨b.1, hptr, ?_, ?_, ?_, ?_⟩
  · show size ≤ s2.mem b.1
    rw [hsize]; exact hreq.2
  · rw [hptr]
    show b.1 + header_size + size ≤ b.1 + header_size + s2.mem b.1
    rw [hsize]
    have := hreq.2
    omega
  · show Covered s2.mmap_calls b.1 (b.1 + header_size + s2.mem b.1)
    rw [hsize]; exact hcov
  · intro hna
    show ∃ r ∈ s2.mmap_calls, r.1 ≤ b.1 ∧ b.1 + header_size + s2.mem b.1 ≤ r.1 + r.2
    rw [hsize]; exact hins hna

theorem malloc_usable_bytes_witness :
    ∃ hd, exCall2.1 = hd + header_size ∧ 4000 ≤ exCall2.2.mem hd ∧
      exCall2.1 + 4000 ≤ hd + header_size + exCall2.2.mem hd ∧
      Covered exCall2.2.mmap_calls hd (hd + header_size + exCall2.2.mem hd) ∧
      (NonAdjacent exCall2.2.mmap_calls →
        ∃ r ∈ exCall2.2.mmap_calls, r.1 ≤ hd ∧
          hd + header_size + exCall2.2.mem hd ≤ r.1 + r.2) :=
  (malloc_usable_bytes ⟨exCall1.2, [(exCall1.1, 4000)]⟩ exReach1 4000 8192 (by decide)
    (by decide) (by decide) (by unfold ProviderOK; decide)).2 4 exCall2.1 exCall2.2
    (outcome_eq (by decide))

/-- C3, as stated, fails: after two 4000-byte objects in the adjacent regions
at 4096 and 8192 and the release of the second, a request of 64 bytes returns
8144, and the range `[8144, 8208)` is inside neither region. -/
theorem malloc_usable_bytes_counterexample :
    Reachable ⟨exFree2, [(exCall1.1, 4000)]⟩ ∧
    my_malloc 4 64 [12288] exFree2 = some (8144, exCall3.2) ∧
    ProviderOK exCall3.2.free_head exCall3.2.mmap_calls ∧
    exCall3.2.mmap_calls = [(8192, 4096), (4096, 4096)] ∧
    64 ≤ exCall3.2.mem (8144 - header_size) ∧
    ¬ ∃ r ∈ exCall3.2.mmap_calls, r.1 ≤ 8144 ∧ 8144 + 64 ≤ r.1 + r.2 := by
  refine ⟨exReach3, ?_, by unfold ProviderOK; decide, by decide, by decide, by decide⟩
  have e : exCall3.1 = 8144 := by decide
  rw [← e]
  exact outcome_eq (by decide)

/-- C2 (best-fit selection): on a well-formed heap, for a positive request
that some free block can satisfy, there is a free block `b` with
`size ≤ b.size`, minimal among the free blocks that fit, such that `my_malloc`
(given enough fuel, whatever the provider would answer) returns
`b.header + header_size`; afterwards `b` is off the free list. -/
theorem best_fit_selection {s : State} {d : Nat} {F A : List (Nat × Nat)} (h : Rep s d F A)
    (size : Nat) (hpos : 0 < size) (hex : ∃ c ∈ F, size ≤ c.2) :
    ∃ b ∈ F, size ≤ b.2 ∧ (∀ c ∈ F, size ≤ c.2 → b.2 ≤ c.2) ∧
      ∀ fuel oracle, F.length < fuel →
        ∃ s2, my_malloc fuel size oracle s = some (b.1 + header_size, s2) ∧
          ∃ fl, free_list fuel s2 = some fl ∧ ∀ c ∈ fl, c.1 ≠ b.1 := by
  cases hbf : bestFit size F none SIZE_MAX with
  | none =>
    obtain ⟨c, hc, hcs⟩ := hex
    have := bestFit_none h.free_size_lt hbf c hc
    omega
  | some b =>
    obtain ⟨hbF, hbs, hmin⟩ := bestFit_some hbf
    refine ⟨b, hbF, hbs, hmin, ?_⟩
    intro fuel oracle hf
    obtain ⟨c1, c2, _⟩ := h.carve_rep hbF hbs hpos
    refine ⟨(my_malloc_carve size b.1 s).2, ?_, (carve size b F A).1, ?_, ?_⟩
    · rw [(h.malloc_hit hbf fuel oracle).1 hf, ← c1]
    · apply c2.free_list_eq
      unfold carve
      have hl := List.length_erase_of_mem hbF
      have hlp : 0 < F.length := List.length_pos_of_mem hbF
      split_ifs
      · simp only [List.length_cons, hl]; omega
      · simp only [hl]; omega
    · intro c hc
      have hmem : ∃ q ∈ (carve size b F A).2, q.1 = b.1 := by
        unfold carve
        split_ifs
        · exact ⟨(b.1, size), List.mem_cons_self _ _, rfl⟩
        · exact ⟨b, List.mem_cons_self _ _, rfl⟩
      obtain ⟨q, hq, hq1⟩ := hmem
      have := (c2.cross (List.mem_cons_of_mem _ hc) hq).arith
      omega

theorem best_fit_selection_witness :
    ∃ s2, my_malloc 4 24 [] exHeapSizes = some (1024, s2) := by
  obtain ⟨b, hb, h1, h2, h3⟩ :=
    best_fit_selection exRepSizes 24 (by decide) ⟨(1000, 32), by decide, by decide⟩
  obtain ⟨s2, hs2, _⟩ := h3 4 [] (by decide)
  have h32 := h2 (1000, 32) (by decide) (by decide)
  simp only [List.mem_cons, List.mem_singleton, List.not_mem_nil, or_false] at hb
  rcases hb with rfl | rfl | rfl
  · simp at h1
  · simp at h32
  · exact ⟨s2, hs2⟩

/-- C5 (no split at or below the threshold): on a well-formed heap, for a
positive request that some free block can satisfy, the scan of `my_malloc`
(given enough fuel) chooses a free block `b`; when `b.size - size` is at most
`header_size` (equality included), the call returns `b.header + header_size`,
the size field of `b` keeps its value, no provider call is made, and the free
list afterwards is the previous one with `b` removed. -/
theorem no_split_below_threshold {s : State} {d : Nat} {F A : List (Nat × Nat)}
    (h : Rep s d F A) (size : Nat) (hpos : 0 < size) (hfit : ∃ c ∈ F, size ≤ c.2) :
    ∃ b ∈ F,
      (∀ fuel, F.length < fuel →
        best_fit_loop size s.mem fuel (s.mem (s.free_head + 8)) 0 SIZE_MAX = some b.1) ∧
      (b.2 - size ≤ header_size → ∀ fuel oracle, F.length < fuel →
        ∃ s2, my_malloc fuel size oracle s = some (b.1 + header_size, s2) ∧
          s2.mem b.1 = b.2 ∧ s2.mmap_calls = s.mmap_calls ∧
          (∀ f2, F.length ≤ f2 → free_list f2 s2 = some (F.erase b)) ∧
          Rep s2 d (F.erase b) (b :: A)) := by
  cases hbf : bestFit size F none SIZE_MAX with
  | none =>
    obtain ⟨c, hc, hcs⟩ := hfit
    have := bestFit_none h.free_size_lt hbf c hc
    omega
  | some b =>
    obtain ⟨hb, hbs, _⟩ := bestFit_some hbf
    refine ⟨b, hb, ?_, ?_⟩
    · intro fuel hf
      have := (h.scan size fuel).1 hf
      rw [hbf] at this
      exact this
    · intro hrem fuel oracle hf
      obtain ⟨c1, c2, c3⟩ := h.carve_rep hb hbs hpos
      have hcarve : carve size b F A = (F.erase b, b :: A) := by
        unfold carve
        rw [if_neg (by omega)]
      rw [hcarve] at c2
      refine ⟨(my_malloc_carve size b.1 s).2,
        by rw [(h.malloc_hit hbf fuel oracle).1 hf, ← c1], ?_, c3, ?_, c2⟩
      · exact c2.sizes b (List.mem_append_right _ (List.mem_cons_self _ _))
      · intro f2 hf2
        apply c2.free_list_eq
        have hl := List.length_erase_of_mem hb
        have hlp : 0 < F.length := List.length_pos_of_mem hb
        show (F.erase b).length < f2
        omega

theorem no_split_below_threshold_witness :
    ∃ s2, my_malloc 4 24 [] exHeapSizes = some (1024, s2) ∧
      s2.mem 1000 = 32 ∧ s2.mmap_calls = exHeapSizes.mmap_calls ∧
      (∀ f2, 3 ≤ f2 → free_list f2 s2 = some [(3000, 16), (2000, 64)]) ∧
      Rep s2 16 [(3000, 16), (2000, 64)] [(1000, 32)] := by
  obtain ⟨b, hb, h1, h2⟩ :=
    no_split_below_threshold exRepSizes 24 (by decide) ⟨(1000, 32), by decide, by decide⟩
  have e : best_fit_loop 24 exHeapSizes.mem 4 (exHeapSizes.mem (exHeapSizes.free_head + 8)) 0
      SIZE_MAX = some 1000 := by decide
  have hb1 : b.1 = 1000 := by
    have := h1 4 (by decide)
    rw [e] at this
    exact (Option.some.inj this).symm
  simp only [List.mem_cons, List.mem_singleton, List.not_mem_nil, or_false] at hb
  rcases hb with rfl | rfl | rfl
  · simp at hb1
  · simp at hb1
  · exact h2 (by decide) 4 [] (by decide)

/-- C6 (split above the threshold): on a well-formed heap, for a positive
request, the block `b` chosen by `my_malloc` is either chosen by the scan among
the free blocks (when one fits) or the block of a freshly acquired region
(when none fits; requests of at most 4000 bytes).  When the leftover
`b.size - size` exceeds `header_size` (always so for the block of a fresh
region), the call returns `ptr = b.header + header_size`, the size field of
`b` becomes `size`, a header with size `leftover - header_size` is written at
`ptr + size`, that new block is the first element of the free list, followed
by the other free blocks, and the two blocks tile the bytes of the original
block. -/
theorem split_above_threshold {s : State} {d : Nat} {F A : List (Nat × Nat)}
    (h : Rep s d F A) (size : Nat) (hpos : 0 < size) :
    ((∃ c ∈ F, size ≤ c.2) → ∃ b ∈ F,
      (∀ fuel, F.length < fuel →
        best_fit_loop size s.mem fuel (s.mem (s.free_head + 8)) 0 SIZE_MAX = some b.1) ∧
      (header_size < b.2 - size → ∀ fuel oracle, F.length < fuel →
        ∃ s2, my_malloc fuel size oracle s = some (b.1 + header_size, s2) ∧
          s2.mem b.1 = size ∧
          s2.mem (b.1 + header_size + size) = b.2 - size - header_size ∧
          header_size + s2.mem b.1 + (header_size + s2.mem (b.1 + header_size + size)) =
            header_size + b.2 ∧
          free_list fuel s2 =
            some ((b.1 + header_size + size, b.2 - size - header_size) :: F.erase b) ∧
          Rep s2 d ((b.1 + header_size + size, b.2 - size - header_size) :: F.erase b)
            ((b.1, size) :: A))) ∧
    ((∀ c ∈ F, c.2 < size) → size ≤ 4000 → ∀ r, r ≠ 0 → r + 4096 ≤ WORD →
      (∀ c ∈ (d, 0) :: (F ++ A), Disj (r, 4096 - header_size) c) →
      ∀ fuel oracle, F.length + 1 < fuel →
        ∃ s2, my_malloc fuel size (r :: oracle) s = some (r + header_size, s2) ∧
          s2.mmap_calls = (r, 4096) :: s.mmap_calls ∧
          s2.mem r = size ∧
          s2.mem (r + header_size + size) = 4096 - header_size - size - header_size ∧
          header_size + s2.mem r + (header_size + s2.mem (r + header_size + size)) = 4096 ∧
          free_list fuel s2 =
            some ((r + header_size + size, 4096 - header_size - size - header_size) :: F) ∧
          Rep s2 d ((r + header_size + size, 4096 - header_size - size - header_size) :: F)
            ((r, size) :: A)) := by
  constructor
  · intro hfit
    cases hbf : bestFit size F none SIZE_MAX with
    | none =>
      obtain ⟨c, hc, hcs⟩ := hfit
      have := bestFit_none h.free_size_lt hbf c hc
      omega
    | some b =>
      obtain ⟨hb, hbs, _⟩ := bestFit_some hbf
      refine ⟨b, hb, ?_, ?_⟩
      · intro fuel hf
        have := (h.scan size fuel).1 hf
        rw [hbf] at this
        exact this
      · intro hrem fuel oracle hf
        obtain ⟨s2, m, c2, _⟩ := h.malloc_split hpos hbf hrem fuel oracle hf
        have e1 : s2.mem b.1 = size :=
          c2.sizes (b.1, size) (List.mem_append_right _ (List.mem_cons_self _ _))
        have e2 : s2.mem (b.1 + header_size + size) = b.2 - size - header_size :=
          c2.sizes (b.1 + header_size + size, b.2 - size - header_size)
            (List.mem_append_left _ (List.mem_cons_self _ _))
        refine ⟨s2, m, e1, e2, ?_, ?_, c2⟩
        · rw [e1, e2]
          simp only [header_size] at hrem ⊢
          omega
        · apply c2.free_list_eq
          have hl := List.length_erase_of_mem hb
          have hlp : 0 < F.length := List.length_pos_of_mem hb
          simp only [List.length_cons, hl]
          omega
  · intro hsmall hsz r hr hrb hfresh fuel oracle hf
    have hbf : bestFit size F none SIZE_MAX = none := by
      have := bestFit_skip size F none SIZE_MAX hsmall
      exact this
    obtain ⟨s2, m, c2, c3⟩ := h.malloc_fresh hpos hsz hbf r hr hrb hfresh fuel oracle hf
    have e1 : s2.mem r = size :=
      c2.sizes (r, size) (List.mem_append_right _ (List.mem_cons_self _ _))
    have e2 : s2.mem (r + header_size + size) = 4072 - size - header_size :=
      c2.sizes (r + header_size + size, 4072 - size - header_size)
        (List.mem_append_left _ (List.mem_cons_self _ _))
    have e3 : 4096 - header_size - size - header_size = 4072 - size - header_size := by
      simp only [header_size]
    rw [e3]
    refine ⟨s2, m, c3, e1, e2, ?_, ?_, c2⟩
    · rw [e1, e2]
      simp only [header_size]
      omega
    · apply c2.free_list_eq
      simp only [List.length_cons]
      omega

theorem split_above_threshold_witness :
    ∃ s2, my_malloc 4 8 [] exHeapBig = some (1024, s2) ∧
      s2.mem 1000 = 8 ∧ s2.mem 1032 = 72 ∧
      24 + s2.mem 1000 + (24 + s2.mem 1032) = 24 + 104 ∧
      free_list 4 s2 = some [(1032, 72)] ∧
      Rep s2 16 [(1032, 72)] [(1000, 8)] := by
  obtain ⟨b, hb, _, h2⟩ :=
    (split_above_threshold exRepBig 8 (by decide)).1 ⟨(1000, 104), by decide, by decide⟩
  simp only [List.mem_singleton] at hb
  subst hb
  exact h2 (by decide) 4 [] (by decide)

/-- C7 (four-case merge policy of `my_free`): on a well-formed heap with free
list `F`, freeing the allocated block `b` returns (given enough fuel) a
well-formed heap whose free list `fl` is: with a left neighbour `l` and a right
neighbour `r` on the free list, `l` grown by
`header_size + b.size + header_size + r.size` followed by `F` without `l` and
`r`; with only `r`, `b` grown by `header_size + r.size` followed by `F` without
`r`; with only `l`, `l` grown by `header_size + b.size` followed by `F` without
`l`; with neither, `b` followed by `F`.  In every case exactly one block of the
free list covers the bytes of `b`. -/
theorem free_merge_policy {s : State} {d : Nat} {F A : List (Nat × Nat)} (h : Rep s d F A)
    (b : Nat × Nat) (hb : b ∈ A) (hpos : 0 < b.2) (fuel : Nat) (hf : F.length < fuel) :
    ∃ s2 fl, my_free fuel (b.1 + header_size) s = some s2 ∧
      (∀ f2, fl.length < f2 → free_list f2 s2 = some fl) ∧
      Rep s2 d fl (A.erase b) ∧
      (∀ l r, l ∈ F → r ∈ F → l.1 + header_size + l.2 = b.1 →
        r.1 = b.1 + header_size + b.2 →
        fl = (l.1, l.2 + (header_size + b.2 + header_size + r.2)) :: (F.erase l).erase r) ∧
      (∀ r, r ∈ F → r.1 = b.1 + header_size + b.2 →
        (∀ c ∈ F, c.1 + header_size + c.2 ≠ b.1) →
        fl = (b.1, b.2 + (header_size + r.2)) :: F.erase r) ∧
      (∀ l, l ∈ F → l.1 + header_size + l.2 = b.1 →
        (∀ c ∈ F, c.1 ≠ b.1 + header_size + b.2) →
        fl = (l.1, l.2 + (header_size + b.2)) :: F.erase l) ∧
      ((∀ c ∈ F, c.1 + header_size + c.2 ≠ b.1) →
        (∀ c ∈ F, c.1 ≠ b.1 + header_size + b.2) → fl = b :: F) ∧
      ∃ c ∈ fl, (c.1 ≤ b.1 ∧ b.1 + header_size + b.2 ≤ c.1 + header_size + c.2) ∧
        ∀ c2 ∈ fl, c2.1 ≤ b.1 → b.1 + header_size + b.2 ≤ c2.1 + header_size + c2.2 →
          c2 = c := by
  obtain ⟨s2, hs2, hrep, _⟩ := h.free_spec hb hpos hf
  have hpw := h.free_pairwise
  refine ⟨s2, coalesce b F, hs2, fun f2 hf2 => hrep.free_list_eq hf2, hrep,
    fun l r hl hr hl1 hr1 => coalesce_both hpw hl hr hl1 hr1,
    fun r hr hr1 hno => coalesce_right hpw hr hr1 hno,
    fun l hl hl1 hno => coalesce_left hpw hl hl1 hno,
    fun hno1 hno2 => coalesce_neither hno1 hno2, ?_⟩
  obtain ⟨c, hc, hc1, hc2⟩ := coalesce_covers b F
  refine ⟨c, hc, ⟨hc1, hc2⟩, ?_⟩
  intro c2 hc2m h1 h2
  by_contra hne
  have := (hrep.free_pairwise.forall (fun _ _ hxy => Disj.symm hxy) hc2m hc hne).arith
  simp only [header_size] at *
  omega

theorem free_merge_policy_witness :
    ∃ s2, my_free 4 2024 exHeapMerge = some s2 ∧
      (∀ f2, 1 < f2 → free_list f2 s2 = some [(1000, 1096)]) := by
  obtain ⟨s2, fl, h1, h2, _, hboth, _⟩ :=
    free_merge_policy exRepMerge (2000, 8) (by decide) (by decide) 4 (by decide)
  have e := hboth (1000, 976) (2032, 64) (by decide) (by decide) (by decide) (by decide)
  have e2 : fl = [(1000, 1096)] := by rw [e]; decide
  rw [e2] at h2
  exact ⟨s2, h1, h2⟩

/-- C8 (coalescing scenario): from `my_initialize`, three requests of 8 bytes
return the adjacent objects A, B, C carved from one fresh region (headers at
`region`, `region + 32`, `region + 64`).  Freeing B merges nothing and leaves
B on the free list with size 8; then freeing A leaves one free block at A's
header of size `8 + header_size + 8`; then freeing C leaves a single free
block at A's header of size `4096 - header_size`. -/
theorem coalescing_scenario (dummy region : Nat) (s : State) (hd : dummy ≠ 0)
    (hdb : dummy + header_size ≤ WORD) (hr : region ≠ 0) (hrb : region + 4096 ≤ WORD)
    (hsep : region + 4096 ≤ dummy ∨ dummy + header_size ≤ region)
    (fuel : Nat) (hf : 2 < fuel) (o2 o3 : List Nat) :
    ∃ s1 s2 s3 s4 s5 s6,
      my_malloc fuel 8 [region] ( my_initialize dummy s) = some (region + 24, s1) ∧
      my_malloc fuel 8 o2 s1 = some (region + 56, s2) ∧
      my_malloc fuel 8 o3 s2 = some (region + 88, s3) ∧
      free_list fuel s3 = some [(region + 96, 3976)] ∧
      my_free fuel (region + 56) s3 = some s4 ∧
      free_list fuel s4 = some [(region + 32, 8), (region + 96, 3976)] ∧
      my_free fuel (region + 24) s4 = some s5 ∧
      free_list fuel s5 = some [(region, 8 + header_size + 8), (region + 96, 3976)] ∧
      my_free fuel (region + 88) s5 = some s6 ∧
      free_list fuel s6 = some [(region, 4096 - header_size)] := by
  have r0 := Rep.init_rep dummy s hd hdb
  have hfresh : ∀ c ∈ (dummy, 0) :: (([] : List (Nat × Nat)) ++ []), Disj (region, 4072) c := by
    intro c hc
    simp only [List.append_nil, List.mem_singleton] at hc
    rw [hc]
    simp only [header_size] at hsep
    rcases hsep with t | t
    · exact Or.inl (by show region + 24 + 4072 ≤ dummy; omega)
    · exact Or.inr (by show dummy + 24 + 0 ≤ region; omega)
  have hf1 : 1 < fuel := by omega
  -- the three allocations
  obtain ⟨s1, m1, r1, _⟩ := r0.malloc_fresh (by decide : 0 < 8) (by decide) rfl region hr hrb
    hfresh fuel [] (by simpa using hf1)
  have r1n : Rep s1 dummy [(region + 32, 4040)] [(region, 8)] := by
    simpa [header_size] using r1
  obtain ⟨s2, m2, r2, _⟩ := r1n.malloc_split (by decide : 0 < 8)
    (show bestFit 8 [(region + 32, 4040)] none SIZE_MAX = some (region + 32, 4040) from rfl)
    (show header_size < 4040 - 8 from by decide) fuel o2 (by simpa using hf1)
  have r2n : Rep s2 dummy [(region + 64, 4008)] [(region + 32, 8), (region, 8)] := by
    simpa [header_size] using r2
  obtain ⟨s3, m3, r3, _⟩ := r2n.malloc_split (by decide : 0 < 8)
    (show bestFit 8 [(region + 64, 4008)] none SIZE_MAX = some (region + 64, 4008) from rfl)
    (show header_size < 4008 - 8 from by decide) fuel o3 (by simpa using hf1)
  have r3n : Rep s3 dummy [(region + 96, 3976)]
      [(region + 64, 8), (region + 32, 8), (region, 8)] := by
    simpa [header_size] using r3
  -- freeing B
  obtain ⟨s4, f4, r4, _⟩ := r3n.free_spec
    (show (region + 32, 8) ∈ [(region + 64, 8), (region + 32, 8), (region, 8)] from by simp)
    (show 0 < 8 from by decide)
    (show [(region + 96, 3976)].length < fuel from by simpa using hf1)
  rw [coalesce_neither (by simp [header_size]) (by simp [header_size])] at r4
  have r4n : Rep s4 dummy [(region + 32, 8), (region + 96, 3976)]
      [(region + 64, 8), (region, 8)] := by
    simpa using r4
  -- freeing A
  obtain ⟨s5, f5, r5, _⟩ := r4n.free_spec
    (show (region, 8) ∈ [(region + 64, 8), (region, 8)] from by simp)
    (show 0 < 8 from by decide)
    (show [(region + 32, 8), (region + 96, 3976)].length < fuel from by simpa using hf)
  rw [coalesce_right r4n.free_pairwise
    (show (region + 32, 8) ∈ [(region + 32, 8), (region + 96, 3976)] from by simp)
    (by simp [header_size])
    (by simp [header_size]; omega)] at r5
  have r5n : Rep s5 dummy [(region, 40), (region + 96, 3976)] [(region + 64, 8)] := by
    simpa [header_size] using r5
  -- freeing C
  obtain ⟨s6, f6, r6, _⟩ := r5n.free_spec
    (show (region + 64, 8) ∈ [(region + 64, 8)] from by simp)
    (show 0 < 8 from by decide)
    (show [(region, 40), (region + 96, 3976)].length < fuel from by simpa using hf)
  rw [coalesce_both r5n.free_pairwise
    (show (region, 40) ∈ [(region, 40), (region + 96, 3976)] from by simp)
    (show (region + 96, 3976) ∈ [(region, 40), (region + 96, 3976)] from by simp)
    (by simp [header_size])
    (by simp [header_size])] at r6
  have e6 : (((region, 40) : Nat × Nat).1, ((region, 40) : Nat × Nat).2 +
      (header_size + ((region + 64, 8) : Nat × Nat).2 + header_size +
        ((region + 96, 3976) : Nat × Nat).2)) = (region, 4072) := by
    simp [header_size]
  rw [List.erase_cons_head, List.erase_cons_head, List.erase_cons_head, e6] at r6
  have r6n : Rep s6 dummy [(region, 4072)] [] := r6
  refine ⟨s1, s2, s3, s4, s5, s6, ?_, ?_, ?_, ?_, ?_, ?_, ?_, ?_, ?_, ?_⟩
  · exact m1
  · have e : region + 56 = (region + 32, 4040).1 + header_size := by simp [header_size]
    rw [e]; exact m2
  · have e : region + 88 = (region + 64, 4008).1 + header_size := by simp [header_size]
    rw [e]; exact m3
  · exact r3n.free_list_eq (by simpa using hf1)
  · have e : region + 56 = (region + 32, 8).1 + header_size := by simp [header_size]
    rw [e]; exact f4
  · exact r4n.free_list_eq (by simpa using hf)
  · exact f5
  · exact r5n.free_list_eq (by simpa using hf)
  · have e : region + 88 = (region + 64, 8).1 + header_size := by simp [header_size]
    rw [e]; exact f6
  · exact r6n.free_list_eq (by simpa using (by omega : 1 < fuel))

theorem coalescing_scenario_witness :
    ∃ s1 s2 s3 s4 s5 s6,
      my_malloc 3 8 [4096] exHeap0 = some (4096 + 24, s1) ∧
      my_malloc 3 8 [] s1 = some (4096 + 56, s2) ∧
      my_malloc 3 8 [] s2 = some (4096 + 88, s3) ∧
      free_list 3 s3 = some [(4096 + 96, 3976)] ∧
      my_free 3 (4096 + 56) s3 = some s4 ∧
      free_list 3 s4 = some [(4096 + 32, 8), (4096 + 96, 3976)] ∧
      my_free 3 (4096 + 24) s4 = some s5 ∧
      free_list 3 s5 = some [(4096, 8 + header_size + 8), (4096 + 96, 3976)] ∧
      my_free 3 (4096 + 88) s5 = some s6 ∧
      free_list 3 s6 = some [(4096, 4096 - header_size)] :=
  coalescing_scenario 16 4096 ⟨0, fun _ => 0, []⟩ (by decide) (by decide) (by decide)
    (by decide) (by decide) 3 (by decide) [] []

/-- C9 (round-trip reclamation): from `my_initialize`, for every list of
requests (sizes positive multiples of 8, at most 4000, each with an acceptable
provider answer), given enough fuel all the allocations return, and freeing
all the returned pointers in any order returns a state whose free list `fl`
satisfies: the sum of `header_size + size` over `fl` equals the total number
of bytes acquired from the provider, so the sum of the size fields equals that
total minus `header_size` times the number of free blocks. -/
theorem round_trip_reclamation (dummy : Nat) (s : State) (reqs : List (Nat × Nat))
    (hd : dummy ≠ 0) (hdb : dummy + header_size ≤ WORD) (hs : s.mmap_calls = [])
    (hval : ∀ q ∈ reqs, 0 < q.1 ∧ q.1 % 8 = 0 ∧ q.1 ≤ 4000)
    (hprov : ProviderOK dummy (reqs.map (fun q => (q.2, 4096)))) :
    ∃ n, ∀ fuel, n < fuel →
      ∃ ptrs s1, malloc_all fuel reqs ( my_initialize dummy s) = some (ptrs, s1) ∧
        ptrs.length = reqs.length ∧
        ∀ order, order.Perm ptrs →
          ∃ s2 fl, free_all fuel order s1 = some s2 ∧ free_list fuel s2 = some fl ∧
            extentSum fl = (s2.mmap_calls.map Prod.snd).sum ∧
            (fl.map Prod.snd).sum =
              (s2.mmap_calls.map Prod.snd).sum - header_size * fl.length := by
  refine ⟨2 * reqs.length + 1, fun fuel hf => ?_⟩
  have h0 := Inv.init_inv dummy s hd hdb hs
  have hlog : ( my_initialize dummy s).mmap_calls = [] := hs
  obtain ⟨ptrs, s1, live1, F1, L1, k1, k2, k3, k4, k5⟩ :=
    Inv.malloc_all_spec reqs ⟨ my_initialize dummy s, []⟩ [] [] h0 hval
      (by show ProviderOK dummy (_ ++ ( my_initialize dummy s).mmap_calls)
          rw [hlog, List.append_nil]; exact hprov)
      fuel (by simp only [List.length_nil]; omega)
  refine ⟨ptrs, s1, k1, k5, fun order hperm => ?_⟩
  have k3b : (live1.map Prod.fst).Perm ptrs := by simpa using k3
  have hnd : order.Nodup := (hperm.trans k3b.symm).nodup_iff.mpr k2.live_nodup
  have hlen : order.length = reqs.length := by rw [hperm.length_eq, k5]
  simp only [List.length_nil] at k4
  obtain ⟨s2, live2, F2, L2, j1, j2, j3, j4⟩ :=
    Inv.free_all_spec order ⟨s1, live1⟩ F1 L1 k2 hnd
      (fun p hp => (hperm.trans k3b.symm).mem_iff.mp hp) fuel (by omega)
  have hempty : live2 = [] := by
    cases hl : live2 with
    | nil => rfl
    | cons x rest =>
      exfalso
      obtain ⟨x1, x2⟩ := j3 x (by rw [hl]; exact List.mem_cons_self _ _)
      exact x2 ((hperm.trans k3b.symm).mem_iff.mpr (List.mem_map.mpr ⟨x, x1, rfl⟩))
  have hL2 : L2 = [] := by
    have := j2.live
    rw [show (Sys.mk s2 live2).live = live2 from rfl, hempty] at this
    exact List.map_eq_nil_iff.mp this.symm
  have htot := j2.total
  rw [hL2] at htot
  simp only [List.map_nil, List.append_nil] at htot
  refine ⟨s2, F2, j1, j2.rep.free_list_eq (by omega), htot, ?_⟩
  have := extentSum_eq F2
  have h3 : (s2.mmap_calls.map Prod.snd).sum = extentSum F2 := htot.symm
  rw [h3, this]
  omega

theorem round_trip_reclamation_witness :
    ∃ n, ∀ fuel, n < fuel →
      ∃ ptrs s1, malloc_all fuel [(8, 4096), (4000, 8192), (16, 12288)] exHeap0 =
          some (ptrs, s1) ∧
        ptrs.length = [(8, 4096), (4000, 8192), (16, 12288)].length ∧
        ∀ order, order.Perm ptrs →
          ∃ s2 fl, free_all fuel order s1 = some s2 ∧ free_list fuel s2 = some fl ∧
            extentSum fl = (s2.mmap_calls.map Prod.snd).sum ∧
            (fl.map Prod.snd).sum =
              (s2.mmap_calls.map Prod.snd).sum - header_size * fl.length :=
  round_trip_reclamation 16 ⟨0, fun _ => 0, []⟩ [(8, 4096), (4000, 8192), (16, 12288)]
    (by decide) (by decide) rfl (by decide) (by unfold ProviderOK; decide)

/-- C11 (region size on a free-list miss): on a well-formed heap where no free
block fits, for a request with `size + header_size + 4095 < 2 ^ 64`,
`my_malloc` asks the provider for `buffer_size size` bytes, which is the
smallest multiple of 4096 that is at least `max 4096 (size + header_size)`
(4096 when `size ≤ 4000`); before the insertion the header at the region's
address holds the size `buffer_size size - header_size`, which is at least the
request, and null links, and no other word has changed; the call then retries
on the heap with that block inserted. -/
theorem region_size_on_miss {s : State} {d : Nat} {F A : List (Nat × Nat)} (h : Rep s d F A)
    (size : Nat) (hsz : size + header_size + 4095 < WORD) (hno : ∀ c ∈ F, c.2 < size)
    (fuel region : Nat) (oracle : List Nat) (hf : F.length < fuel) :
    buffer_size size % 4096 = 0 ∧ 4096 ≤ buffer_size size ∧
    size + header_size ≤ buffer_size size ∧
    (∀ m, m % 4096 = 0 → 4096 ≤ m → size + header_size ≤ m → buffer_size size ≤ m) ∧
    (size ≤ 4000 → buffer_size size = 4096) ∧
    ∃ s1, s1.mmap_calls = (region, buffer_size size) :: s.mmap_calls ∧
      s1.mem region = buffer_size size - header_size ∧ size ≤ s1.mem region ∧
      s1.mem (region + 8) = 0 ∧ s1.mem (region + 16) = 0 ∧
      (∀ w, w ≠ region → w ≠ region + 8 → w ≠ region + 16 → s1.mem w = s.mem w) ∧
      my_malloc fuel size (region :: oracle) s =
        my_malloc fuel size oracle (my_add_to_free_list region s1) := by
  have hB := buffer_size_eq size hsz
  have hmiss : best_fit_loop size s.mem fuel (s.mem (s.free_head + 8)) 0 SIZE_MAX = some 0 := by
    have := (h.scan size fuel).1 hf
    rw [bestFit_skip size F none SIZE_MAX hno] at this
    exact this
  simp only [header_size, WORD] at hsz ⊢
  have hsub : sub64 (buffer_size size) header_size = buffer_size size - 24 := by
    simp only [sub64, WORD, header_size]
    rw [hB]
    split_ifs <;> omega
  refine ⟨?_, ?_, ?_, ?_, ?_, ?_⟩
  · rw [hB]; omega
  · rw [hB]; split_ifs <;> omega
  · rw [hB]; split_ifs <;> omega
  · intro m h1 h2 h3
    rw [hB]
    split_ifs <;> omega
  · intro h4
    rw [hB]
    split_ifs <;> omega
  · refine ⟨{ free_head := s.free_head
              mem := store (store (store s.mem region (sub64 (buffer_size size) header_size))
                (region + 8) 0) (region + 16) 0
              mmap_calls := (region, buffer_size size) :: s.mmap_calls }, rfl, ?_, ?_, ?_, ?_,
      ?_, ?_⟩
    · show store (store (store s.mem region _) (region + 8) 0) (region + 16) 0 region = _
      rw [store_other _ _ _ _ (by omega), store_other _ _ _ _ (by omega), store_same, hsub]
    · show size ≤ store (store (store s.mem region _) (region + 8) 0) (region + 16) 0 region
      rw [store_other _ _ _ _ (by omega), store_other _ _ _ _ (by omega), store_same, hsub, hB]
      split_ifs <;> omega
    · show store (store (store s.mem region _) (region + 8) 0) (region + 16) 0 (region + 8) = 0
      rw [store_other _ _ _ _ (by omega), store_same]
    · show store (store (store s.mem region _) (region + 8) 0) (region + 16) 0 (region + 16) = 0
      rw [store_same]
    · intro w w1 w2 w3
      show store (store (store s.mem region _) (region + 8) 0) (region + 16) 0 w = s.mem w
      rw [store_other _ _ _ _ w3, store_other _ _ _ _ w2, store_other _ _ _ _ w1]
    · rw [malloc_on_miss hmiss region oracle, acquire_unfold]

theorem region_size_on_miss_witness :
    buffer_size 8 = 4096 ∧
    ∃ s1, s1.mmap_calls = (4096, buffer_size 8) :: exHeap0.mmap_calls ∧
      s1.mem 4096 = buffer_size 8 - header_size ∧ 8 ≤ s1.mem 4096 ∧
      s1.mem (4096 + 8) = 0 ∧ s1.mem (4096 + 16) = 0 ∧
      (∀ w, w ≠ 4096 → w ≠ 4096 + 8 → w ≠ 4096 + 16 → s1.mem w = exHeap0.mem w) ∧
      my_malloc 4 8 [4096] exHeap0 = my_malloc 4 8 [] (my_add_to_free_list 4096 s1) := by
  have h := region_size_on_miss exRep0 8 (by decide) (by decide) 4 4096 [] (by decide)
  exact ⟨h.2.2.2.2.1 (by decide), h.2.2.2.2.2⟩

/-- C12 (single retry, termination): on a well-formed heap, for a positive
request of at most 4000 bytes and an acceptable provider answer, `my_malloc`
returns (given enough fuel), and its result does not depend on further provider
answers.  If a free block fits, the call returns what it returns without any
provider answer, and the record of provider calls is unchanged; if none fits,
the call without an answer has no result, the retry on the heap extended by
the region returns without any further answer (it finds a fitting block: the
new one), and exactly one call is recorded.  The provider is called if and
only if no free block fits. -/
theorem single_retry {s : State} {d : Nat} {F A : List (Nat × Nat)} (h : Rep s d F A)
    (size : Nat) (hpos : 0 < size) (hsz : size ≤ 4000) (region : Nat) (hr : region ≠ 0)
    (hrb : region + 4096 ≤ WORD)
    (hfresh : ∀ c ∈ (d, 0) :: (F ++ A), Disj (region, 4096 - header_size) c)
    (fuel : Nat) (oracle : List Nat) (hf : F.length + 1 < fuel) :
    ∃ x, my_malloc fuel size (region :: oracle) s = some x ∧
      ((∃ c ∈ F, size ≤ c.2) →
        my_malloc fuel size [] s = some x ∧ x.2.mmap_calls = s.mmap_calls) ∧
      ((∀ c ∈ F, c.2 < size) →
        my_malloc fuel size [] s = none ∧
        my_malloc fuel size [] (my_malloc_acquire size region s) = some x ∧
        x.2.mmap_calls = (region, 4096) :: s.mmap_calls ∧ x.1 = region + header_size) ∧
      (x.2.mmap_calls ≠ s.mmap_calls ↔ ∀ c ∈ F, c.2 < size) := by
  cases hbf : bestFit size F none SIZE_MAX with
  | some b =>
    obtain ⟨hbF, hbs, _⟩ := bestFit_some hbf
    have hfit : ¬ ∀ c ∈ F, c.2 < size := fun hno => by have := hno b hbF; omega
    refine ⟨my_malloc_carve size b.1 s, (h.malloc_hit hbf fuel _).1 (by omega), ?_, ?_, ?_⟩
    · intro _
      exact ⟨(h.malloc_hit hbf fuel []).1 (by omega), carve_mmap_calls _ _ _⟩
    · intro hno
      exact absurd hno hfit
    · rw [carve_mmap_calls]
      exact ⟨fun hne => absurd rfl hne, fun hno => absurd hno hfit⟩
  | none =>
    have hno := bestFit_none h.free_size_lt hbf
    have hmiss : best_fit_loop size s.mem fuel (s.mem (s.free_head + 8)) 0 SIZE_MAX =
        some 0 := by
      have := (h.scan size fuel).1 (by omega)
      rw [hbf] at this
      exact this
    obtain ⟨a1, a2⟩ := h.acquire hsz region hr hrb hfresh
    have hsmall := hno
    have hbf2 := bestFit_fresh region hsz hsmall
    have hmem : (region, 4072) ∈ (region, 4072) :: F := List.mem_cons_self _ _
    obtain ⟨c1, _, c3⟩ := a1.carve_rep hmem (by show size ≤ 4072; omega) hpos
    have hlog : (my_malloc_carve size region (my_malloc_acquire size region s)).2.mmap_calls =
        (region, 4096) :: s.mmap_calls := by rw [c3, a2]
    refine ⟨my_malloc_carve size region (my_malloc_acquire size region s),
      (h.malloc_miss hsz hbf region hr hrb hfresh fuel oracle).1 hf, ?_, ?_, ?_⟩
    · intro hfit
      obtain ⟨c, hc, hcs⟩ := hfit
      have := hno c hc
      omega
    · intro _
      refine ⟨malloc_on_miss_nil hmiss, ?_, hlog, c1⟩
      exact (a1.malloc_hit hbf2 fuel []).1 (by simpa using hf)
    · rw [hlog]
      refine ⟨fun _ => hno, fun _ => ?_⟩
      intro e
      have := congrArg List.length e
      simp at this

theorem single_retry_witness :
    ∃ x, my_malloc 4 8 [4096] exHeap0 = some x ∧
      my_malloc 4 8 [] exHeap0 = none ∧
      my_malloc 4 8 [] (my_malloc_acquire 8 4096 exHeap0) = some x ∧
      x.2.mmap_calls = (4096, 4096) :: exHeap0.mmap_calls ∧ x.1 = 4096 + header_size := by
  obtain ⟨x, h1, _, h3, _⟩ := single_retry exRep0 8 (by decide) (by decide) 4096 (by decide)
    (by decide) (by unfold Disj; decide) 4 [] (by decide)
  exact ⟨x, h1, h3 (by decide)⟩

/-- C13 (doubly-linked well-formedness): in every reachable state the traversal
by `next` from the sentinel reaches null after finitely many blocks `fl`; the
members (the sentinel and the blocks of `fl`) are non-null and pairwise
distinct, so the list has no cycle; the sentinel's `prev` is null; and for all
members `a`, `b`, if `a.next` is `b` then `b.prev` is `a`. -/
theorem doubly_linked_wellformed (sys : Sys) (h : Reachable sys) :
    ∃ fl : List (Nat × Nat),
      (∀ fuel, fl.length < fuel → free_list fuel sys.heap = some fl) ∧
      chain sys.heap.mem sys.heap.free_head (fl.map Prod.fst) ∧
      (sys.heap.free_head :: fl.map Prod.fst).Nodup ∧
      (∀ a ∈ sys.heap.free_head :: fl.map Prod.fst, a ≠ 0) ∧
      sys.heap.mem (sys.heap.free_head + 16) = 0 ∧
      ∀ a ∈ sys.heap.free_head :: fl.map Prod.fst,
        ∀ b ∈ sys.heap.free_head :: fl.map Prod.fst,
          sys.heap.mem (a + 8) = b → sys.heap.mem (b + 16) = a := by
  obtain ⟨d, F, L, hinv⟩ := reachable_inv h
  have hr := hinv.rep
  have hnz : ∀ a ∈ sys.heap.free_head :: F.map Prod.fst, a ≠ 0 := by
    intro a ha
    rw [hr.head] at ha
    rcases List.mem_cons.mp ha with e | e
    · rw [e]; exact hr.d_ne_zero
    · exact chain_ne_zero sys.heap.mem _ d hr.links a e
  refine ⟨F, fun fuel hf => hr.free_list_eq hf, by rw [hr.head]; exact hr.links,
    by rw [hr.head]; exact hr.sep_nodes.nodup, hnz, by rw [hr.head]; exact hr.dprev, ?_⟩
  intro a ha b hb hab
  have hb0 := hnz b hb
  rw [hr.head] at ha
  rcases chain_back sys.heap.mem _ d hr.links a ha with e | ⟨_, e⟩
  · rw [e] at hab
    exact absurd hab.symm hb0
  · rw [hab] at e
    exact e

theorem doubly_linked_wellformed_witness :
    ∃ fl : List (Nat × Nat),
      (∀ fuel, fl.length < fuel → free_list fuel exFree2 = some fl) ∧
      chain exFree2.mem exFree2.free_head (fl.map Prod.fst) ∧
      (exFree2.free_head :: fl.map Prod.fst).Nodup ∧
      (∀ a ∈ exFree2.free_head :: fl.map Prod.fst, a ≠ 0) ∧
      exFree2.mem (exFree2.free_head + 16) = 0 ∧
      ∀ a ∈ exFree2.free_head :: fl.map Prod.fst,
        ∀ b ∈ exFree2.free_head :: fl.map Prod.fst,
          exFree2.mem (a + 8) = b → exFree2.mem (b + 16) = a :=
  doubly_linked_wellformed ⟨exFree2, [(exCall1.1, 4000)]⟩ exReach3

/-- C14 (the free list holds only free blocks): in every reachable state, with
`fl` the blocks reached from `free_head`, the header of every live pointer is
neither the sentinel nor the header of a block of `fl`, and both its links are
null; in particular this holds for the pointer returned by `my_malloc`, in the
state right after the call. -/
theorem free_list_only_free (sys : Sys) (h : Reachable sys) :
    (∃ fl : List (Nat × Nat),
      (∀ fuel, fl.length < fuel → free_list fuel sys.heap = some fl) ∧
      ∀ p ∈ sys.live, header_size ≤ p.1 ∧
        p.1 - header_size ∉ sys.heap.free_head :: fl.map Prod.fst ∧
        sys.heap.mem (p.1 - header_size + 8) = 0 ∧
        sys.heap.mem (p.1 - header_size + 16) = 0) ∧
    ∀ fuel size region ptr s2, 0 < size → size % 8 = 0 → size ≤ 4000 →
      my_malloc fuel size [region] sys.heap = some (ptr, s2) →
      ProviderOK s2.free_head s2.mmap_calls →
      ∃ fl2 : List (Nat × Nat),
        (∀ fuel2, fl2.length < fuel2 → free_list fuel2 s2 = some fl2) ∧
        header_size ≤ ptr ∧ ptr - header_size ∉ s2.free_head :: fl2.map Prod.fst ∧
        s2.mem (ptr - header_size + 8) = 0 ∧ s2.mem (ptr - header_size + 16) = 0 := by
  constructor
  · obtain ⟨d, F, L, hinv⟩ := reachable_inv h
    exact ⟨F, fun fuel hf => hinv.rep.free_list_eq hf, hinv.live_off_list⟩
  · intro fuel size region ptr s2 hpos h8 hsz hm hp
    obtain ⟨d, F, L, hinv⟩ := reachable_inv (Reachable.malloc sys fuel size region ptr s2 h hpos
      h8 hsz hm hp)
    exact ⟨F, fun fuel hf => hinv.rep.free_list_eq hf,
      hinv.live_off_list (ptr, size) (List.mem_cons_self _ _)⟩

theorem free_list_only_free_witness :
    ∃ fl : List (Nat × Nat),
      (∀ fuel, fl.length < fuel → free_list fuel exCall2.2 = some fl) ∧
      ∀ p ∈ [(exCall2.1, 4000), (exCall1.1, 4000)], header_size ≤ p.1 ∧
        p.1 - header_size ∉ exCall2.2.free_head :: fl.map Prod.fst ∧
        exCall2.2.mem (p.1 - header_size + 8) = 0 ∧
        exCall2.2.mem (p.1 - header_size + 16) = 0 :=
  (free_list_only_free ⟨exCall2.2, [(exCall2.1, 4000), (exCall1.1, 4000)]⟩ exReach2).1

/-- C15 (free blocks never overlap): in every reachable state (the provider
returns pairwise disjoint regions), with `fl` the blocks of the free list in
list order, the byte ranges `[header, header + header_size + size)` of any two
distinct blocks of `fl` are disjoint. -/
theorem free_blocks_disjoint (sys : Sys) (h : Reachable sys) :
    ∃ fl : List (Nat × Nat),
      (∀ fuel, fl.length < fuel → free_list fuel sys.heap = some fl) ∧
      fl.Pairwise Disj ∧
      ∀ a ∈ fl, ∀ b ∈ fl, a ≠ b →
        a.1 + header_size + a.2 ≤ b.1 ∨ b.1 + header_size + b.2 ≤ a.1 := by
  obtain ⟨d, F, L, hinv⟩ := reachable_inv h
  refine ⟨F, fun fuel hf => hinv.rep.free_list_eq hf, hinv.rep.free_pairwise, ?_⟩
  intro a ha b hb hne
  exact hinv.rep.free_pairwise.forall (fun _ _ hxy => Disj.symm hxy) ha hb hne

theorem free_blocks_disjoint_witness :
    ∃ fl : List (Nat × Nat),
      (∀ fuel, fl.length < fuel → free_list fuel exCall2.2 = some fl) ∧
      fl.Pairwise Disj ∧
      ∀ a ∈ fl, ∀ b ∈ fl, a ≠ b →
        a.1 + header_size + a.2 ≤ b.1 ∨ b.1 + header_size + b.2 ≤ a.1 :=
  free_blocks_disjoint ⟨exCall2.2, [(exCall2.1, 4000), (exCall1.1, 4000)]⟩ exReach2

/-- C17 (insert primitive): for a well-formed list with members `l` after the
sentinel and a block `x` whose header overlaps no header of the list,
`my_add_to_free_list x` yields the well-formed list with members `x :: l`: the
sentinel's `next` is `x`, `x.prev` is the sentinel, `x.next` is the old first
member (null for an empty list), whose `prev` is now `x`; the first word (the
size) of every header is unchanged, and so is every word other than these four
links. -/
theorem insert_primitive (s : State) (l : List Nat) (x : Nat)
    (hc : chain s.mem s.free_head l) (hsep : Sep (s.free_head :: x :: l)) (hx : x ≠ 0) :
    (my_add_to_free_list x s).free_head = s.free_head ∧
    chain (my_add_to_free_list x s).mem s.free_head (x :: l) ∧
    (my_add_to_free_list x s).mem (s.free_head + 8) = x ∧
    (my_add_to_free_list x s).mem (x + 16) = s.free_head ∧
    (my_add_to_free_list x s).mem (x + 8) = l.headD 0 ∧
    (∀ b ∈ l.head?, (my_add_to_free_list x s).mem (b + 16) = x) ∧
    (∀ n ∈ s.free_head :: x :: l, (my_add_to_free_list x s).mem n = s.mem n) ∧
    (my_add_to_free_list x s).mem (s.free_head + 16) = s.mem (s.free_head + 16) ∧
    ∀ w, w ≠ s.free_head + 8 → w ≠ x + 8 → w ≠ x + 16 → (∀ b ∈ l.head?, w ≠ b + 16) →
      (my_add_to_free_list x s).mem w = s.mem w := by
  have hch := add_chain x s l hc hsep hx
  have hdx := hsep.head_ne x (List.mem_cons_self _ _)
  have h1 : s.free_head ≠ x := by omega
  have h2 : s.free_head ≠ x + 8 := by omega
  have hfr := add_frame x s l hc h1 h2
  have hd : s.free_head ∈ s.free_head :: x :: l := List.mem_cons_self _ _
  have hxm : x ∈ s.free_head :: x :: l := List.mem_cons_of_mem _ (List.mem_cons_self _ _)
  have hhead : ∀ b ∈ l.head?, b ∈ s.free_head :: x :: l := by
    intro b hb
    cases l with
    | nil => simp at hb
    | cons c rest =>
      simp only [List.head?_cons, Option.mem_def, Option.some.injEq] at hb
      subst hb
      simp
  have hch2 := hch
  simp only [chain] at hch2
  obtain ⟨c1, _, c3, c4⟩ := hch2
  refine ⟨add_free_head x s, hch, c1, c3, ?_, ?_, ?_, ?_, hfr⟩
  · cases l with
    | nil => simpa [chain] using c4
    | cons b rest =>
      simp only [chain] at c4
      simpa using c4.1
  · intro b hb
    cases l with
    | nil => simp at hb
    | cons c rest =>
      simp only [List.head?_cons, Option.mem_def, Option.some.injEq] at hb
      subst hb
      simp only [chain] at c4
      exact c4.2.2.1
  · intro n hn
    have a1 := hsep.apart_nodes hn hd
    have a2 := hsep.apart_nodes hn hxm
    apply hfr n (by omega) (by omega) (by omega)
    intro b hb
    have a3 := hsep.apart_nodes hn (hhead b hb)
    omega
  · apply hfr _ (by omega) (by omega) (by omega)
    intro b hb
    have hbl : b ∈ x :: l := by
      cases l with
      | nil => simp at hb
      | cons c rest =>
        simp only [List.head?_cons, Option.mem_def, Option.some.injEq] at hb
        subst hb
        simp
    have a3 := hsep.head_ne b hbl
    omega

theorem insert_primitive_witness :
    chain (my_add_to_free_list 3000 (exInsert 2000 64 (exInsert 1000 32 exHeap0))).mem
      (exInsert 2000 64 (exInsert 1000 32 exHeap0)).free_head [3000, 2000, 1000] :=
  (insert_primitive (exInsert 2000 64 (exInsert 1000 32 exHeap0)) [2000, 1000] 3000
    (by simp only [chain]; decide) (by unfold Sep; decide) (by decide)).2.1

/-- C18 (remove primitive): for a well-formed list with members `l` after the
sentinel and a member `x`, wherever it sits (`l = pre ++ x :: post`),
`my_remove_from_free_list x` yields the well-formed list with members
`pre ++ post` (the others, in their order), leaves `x.next` and `x.prev` null,
and changes neither the first word (the size) of any header nor any word other
than the `next` of the predecessor, the `prev` of the successor and the two
links of `x`. -/
theorem remove_primitive (s : State) (l : List Nat) (x : Nat)
    (hc : chain s.mem s.free_head l) (hsep : Sep (s.free_head :: l)) (hp : s.free_head ≠ 0)
    (hx : x ∈ l) :
    ∃ pre post, l = pre ++ x :: post ∧ x ∉ pre ∧ x ∉ post ∧
      (my_remove_from_free_list x s).free_head = s.free_head ∧
      chain (my_remove_from_free_list x s).mem s.free_head (pre ++ post) ∧
      (my_remove_from_free_list x s).mem (x + 8) = 0 ∧
      (my_remove_from_free_list x s).mem (x + 16) = 0 ∧
      (∀ n ∈ s.free_head :: l, (my_remove_from_free_list x s).mem n = s.mem n) ∧
      ∀ w, (s.mem (x + 16) ≠ 0 → w ≠ s.mem (x + 16) + 8) →
        (s.mem (x + 8) ≠ 0 → w ≠ s.mem (x + 8) + 16) → w ≠ x + 8 → w ≠ x + 16 →
        (my_remove_from_free_list x s).mem w = s.mem w := by
  obtain ⟨pre, post, h1, h2, h3⟩ := List.exists_erase_eq hx
  have hnd : l.Nodup := hsep.tail.nodup
  have hpost : x ∉ post := by
    intro hmem
    rw [h2] at hnd
    have := (List.nodup_append.mp hnd).2.1
    exact (List.nodup_cons.mp this).1 hmem
  have hch := remove_chain x s l s.free_head hc hsep hp hx
  rw [h3] at hch
  refine ⟨pre, post, h2, h1, hpost, remove_free_head x s, hch, (remove_links_null x s).1,
    (remove_links_null x s).2, ?_, fun w w1 w2 w3 w4 => remove_frame x s w w1 w2 w3 w4⟩
  intro n hn
  apply remove_frame_nodes x s l s.free_head hc hx
  · intro m hm
    have := hsep.apart_nodes hn hm
    omega
  · intro m hm
    have := hsep.apart_nodes hn (List.mem_cons_of_mem _ hm)
    omega

theorem remove_primitive_witness :
    ∃ pre post, [3000, 2000, 1000] = pre ++ 2000 :: post ∧ 2000 ∉ pre ∧ 2000 ∉ post ∧
      (my_remove_from_free_list 2000 exHeapSizes).free_head = exHeapSizes.free_head ∧
      chain (my_remove_from_free_list 2000 exHeapSizes).mem exHeapSizes.free_head
        (pre ++ post) := by
  obtain ⟨pre, post, h1, h2, h3, h4, h5, _⟩ := remove_primitive exHeapSizes [3000, 2000, 1000]
    2000 (by simp only [chain]; decide) (by unfold Sep; decide) (by decide) (by decide)
  exact ⟨pre, post, h1, h2, h3, h4, h5⟩

/-- C19 (short-circuit equivalence): for a free list with blocks `F` (size
words below `2 ^ 64`) and a positive request, the scan of `my_malloc`, which
leaves the loop at the first zero difference, and the full scan without that
exit return the same header: null when no block is large enough, and otherwise
the header of the first block in list order among the blocks of size at least
the request that attain the smallest difference. -/
theorem short_circuit_equivalence (size : Nat) (m : Nat → Nat) (F : List (Nat × Nat))
    (p fuel : Nat) (hc : chain m p (F.map Prod.fst)) (hs : ∀ b ∈ F, m b.1 = b.2)
    (hw : ∀ b ∈ F, b.2 < WORD) (hpos : 0 < size) (hf : F.length < fuel) :
    ∃ r, best_fit_loop size m fuel (m (p + 8)) 0 SIZE_MAX = some r ∧
      best_fit_loop_full size m fuel (m (p + 8)) 0 SIZE_MAX = some r ∧
      ((∀ c ∈ F, c.2 < size) → r = 0) ∧
      ((∃ c ∈ F, size ≤ c.2) →
        ∃ pre b post, F = pre ++ b :: post ∧ r = b.1 ∧ size ≤ b.2 ∧
          (∀ c ∈ pre, size ≤ c.2 → b.2 < c.2) ∧ (∀ c ∈ post, size ≤ c.2 → b.2 ≤ c.2)) := by
  have e1 := (best_fit_loop_spec size m F p fuel none SIZE_MAX hc hs).1 hf
  have e2 := best_fit_loop_full_spec size m F p fuel none SIZE_MAX hc hs hf
  rw [bestFit_eq_full] at e1
  refine ⟨_, e1, e2, ?_, ?_⟩
  · intro hno
    rw [← bestFit_eq_full, bestFit_skip size F none SIZE_MAX hno]
    rfl
  · intro hfit
    obtain ⟨c, hcF, hcs⟩ := hfit
    have hlt : c.2 - size < SIZE_MAX := by
      have := hw c hcF
      simp only [WORD, SIZE_MAX] at this ⊢
      omega
    obtain ⟨pre, b, post, k1, k2, k3, _, k5, k6⟩ :=
      bestFitFull_first size F none SIZE_MAX ⟨c, hcF, hcs, hlt⟩
    exact ⟨pre, b, post, k1, by rw [k2]; rfl, k3, k5, k6⟩

theorem short_circuit_equivalence_witness :
    ∃ r, best_fit_loop 32 exHeapSizes.mem 4 (exHeapSizes.mem (16 + 8)) 0 SIZE_MAX = some r ∧
      best_fit_loop_full 32 exHeapSizes.mem 4 (exHeapSizes.mem (16 + 8)) 0 SIZE_MAX = some r ∧
      ∃ pre b post, [(3000, 16), (2000, 64), (1000, 32)] = pre ++ b :: post ∧ r = b.1 ∧
        32 ≤ b.2 ∧ (∀ c ∈ pre, 32 ≤ c.2 → b.2 < c.2) ∧ (∀ c ∈ post, 32 ≤ c.2 → b.2 ≤ c.2) := by
  obtain ⟨r, h1, h2, _, h4⟩ := short_circuit_equivalence 32 exHeapSizes.mem
    [(3000, 16), (2000, 64), (1000, 32)] 16 4 exRepSizes.links exRepSizes.sizes
    (by decide) (by decide) (by decide)
  exact ⟨r, h1, h2, h4 (by decide)⟩

/-- C16, amended (size matches true extent): in every reachable state, with
`fl` the free blocks and `all_blocks fl sys` the free blocks and the blocks of
the live pointers, the size word of every block holds its size, and every block
ends where another block starts or where a region obtained from the provider
ends.  When no two regions are address-adjacent, every block lies inside one
region, and it ends either at the header of a block of the same region or at
the end of that region. -/
theorem block_extent_tiling (sys : Sys) (h : Reachable sys) :
    ∃ fl : List (Nat × Nat),
      (∀ fuel, fl.length < fuel → free_list fuel sys.heap = some fl) ∧
      (∀ b ∈ all_blocks fl sys, sys.heap.mem b.1 = b.2) ∧
      (∀ b ∈ all_blocks fl sys,
        (∃ c ∈ all_blocks fl sys, c.1 = blockEnd b) ∨
        (∃ r ∈ sys.heap.mmap_calls, r.1 + r.2 = blockEnd b)) ∧
      (NonAdjacent sys.heap.mmap_calls → ∀ b ∈ all_blocks fl sys,
        ∃ r ∈ sys.heap.mmap_calls, r.1 ≤ b.1 ∧ blockEnd b ≤ r.1 + r.2 ∧
          ((∃ c ∈ all_blocks fl sys, c.1 = blockEnd b ∧ r.1 ≤ c.1 ∧
              blockEnd c ≤ r.1 + r.2) ∨
            r.1 + r.2 = blockEnd b)) := by
  obtain ⟨d, F, L, hinv, g⟩ := reachable_geo h
  refine ⟨F, fun fuel hf => hinv.rep.free_list_eq hf, ?_, ?_, ?_⟩
  · rw [hinv.all_blocks_eq]
    exact hinv.rep.sizes
  · rw [hinv.all_blocks_eq]
    exact g.tiled
  · rw [hinv.all_blocks_eq]
    exact hinv.block_next g

theorem block_extent_tiling_witness :
    ∃ fl : List (Nat × Nat),
      (∀ fuel, fl.length < fuel → free_list fuel exCall1.2 = some fl) ∧
      ∀ b ∈ all_blocks fl ⟨exCall1.2, [(exCall1.1, 4000)]⟩,
        ∃ r ∈ exCall1.2.mmap_calls, r.1 ≤ b.1 ∧ blockEnd b ≤ r.1 + r.2 ∧
          ((∃ c ∈ all_blocks fl ⟨exCall1.2, [(exCall1.1, 4000)]⟩,
              c.1 = blockEnd b ∧ r.1 ≤ c.1 ∧ blockEnd c ≤ r.1 + r.2) ∨
            r.1 + r.2 = blockEnd b) := by
  obtain ⟨fl, h1, _, _, h4⟩ := block_extent_tiling ⟨exCall1.2, [(exCall1.1, 4000)]⟩ exReach1
  exact ⟨fl, h1, h4 (by unfold NonAdjacent; decide)⟩

/-- C16, as stated, fails: the provider returns the disjoint regions
`[4096, 8192)` and `[8192, 12288)`; after two 4000-byte objects and the release
of the second, the free list holds the single block with header 8120 and size
4144, whose extent `[8120, 12288)` starts in the first region and crosses the
boundary 8192 into the second, so it lies inside no region. -/
theorem block_extent_tiling_counterexample :
    Reachable ⟨exFree2, [(exCall1.1, 4000)]⟩ ∧
    ProviderOK exFree2.free_head exFree2.mmap_calls ∧
    exFree2.mmap_calls = [(8192, 4096), (4096, 4096)] ∧
    free_list 4 exFree2 = some [(8120, 4144)] ∧
    exFree2.mem 8120 = 4144 ∧
    (8120 < 8192 ∧ 8192 < blockEnd (8120, 4144)) ∧
    ¬ ∃ r ∈ exFree2.mmap_calls, r.1 ≤ 8120 ∧ blockEnd (8120, 4144) ≤ r.1 + r.2 :=
  ⟨exReach3, by unfold ProviderOK; decide, by decide, by decide, by decide, by decide,
    by decide⟩

/-- C20 (maximal coalescing): in every reachable state in which no two regions
returned by the provider are address-adjacent, no free block ends where another
free block starts; and once every allocation has been freed, the free blocks
are, up to their order in the list, the acquired regions, one block per region,
with header at the start of the region and size the region's size minus
`header_size`. -/
theorem maximal_coalescing (sys : Sys) (h : Reachable sys)
    (hna : NonAdjacent sys.heap.mmap_calls) :
    ∃ fl : List (Nat × Nat),
      (∀ fuel, fl.length < fuel → free_list fuel sys.heap = some fl) ∧
      (∀ a ∈ fl, ∀ b ∈ fl, a.1 + header_size + a.2 ≠ b.1) ∧
      (sys.live = [] →
        fl.Perm (sys.heap.mmap_calls.map (fun r => (r.1, r.2 - header_size)))) := by
  obtain ⟨d, F, L, hinv, g⟩ := reachable_geo h
  refine ⟨F, fun fuel hf => hinv.rep.free_list_eq hf, g.noadj hna, ?_⟩
  intro hl
  have hL : L = [] := by
    have := hinv.live
    rw [hl] at this
    exact List.map_eq_nil_iff.mp this.symm
  subst hL
  exact hinv.all_free g hna

theorem maximal_coalescing_witness :
    ∃ fl : List (Nat × Nat),
      (∀ fuel, fl.length < fuel → free_list fuel exFree1 = some fl) ∧
      (∀ a ∈ fl, ∀ b ∈ fl, a.1 + header_size + a.2 ≠ b.1) ∧
      fl.Perm (exFree1.mmap_calls.map (fun r => (r.1, r.2 - header_size))) := by
  obtain ⟨fl, h1, h2, h3⟩ := maximal_coalescing ⟨exFree1, []⟩ exReach4
    (by unfold NonAdjacent; decide)
  exact ⟨fl, h1, h2, h3 rfl⟩

end Malloc
